import Mathlib

/-!
AlphaRMSDCV (SSAGES): a shallow embedding of `src/CVs/AlphaRMSDCV.h`.

The collective variable slides a window of six residues (30 backbone atoms)
over a residue range and scores every window against an ideal alpha helix.

Conventions of the embedding.

* `int` is a 32 bit two's-complement integer and `unsigned int` a 32 bit
  natural number; `size_t` has 64 bits.  Values are carried in `Int` / `Nat`
  and every conversion or wrap-around of the source is written out
  (`toUnsigned`, `toInt`, `wrapInt`).
* The arithmetic of `Evaluate` is written once, over a type `K` with the
  operations the source uses; the square root used by `Vector3::norm` is a
  parameter `sqrt : K → K`.  It is read in two ways.
  - Over a field (`K := ℝ`, `sqrt := Real.sqrt`) for the statements about the
    expressions as real functions, about indices, lengths and the frame of
    the loops, and about runs of a concrete scenario in which no distance is
    zero and nothing overflows.  There a quotient by zero is the `0` of the
    field convention.
  - Over `Dbl K`, a `double` with overflow, the two infinities and NaN
    (`sqrt := Dbl.sqrt s`), for the statements about the value and the
    gradient that `Evaluate` stores on every snapshot of some kind: a
    quotient by zero is an infinity, a result beyond the largest finite
    `double` is an infinity, and `inf * 0`, `0 * inf`, `inf - inf`,
    `inf / inf` are NaN.  A finite result within range is kept exact:
    rounding, underflow and the sign of zero are not modelled.
* `_val` and `_grad` are the members inherited from `CollectiveVariable`.
* An access outside a `std::vector` is undefined behaviour in the source;
  the embedding returns `none` there.
* A loop whose number of iterations is not bounded by the source takes fuel.
-/

namespace SSAGES

/-! ## Machine integers -/

/-- Conversion of an `int` to `unsigned int` (reduction modulo `2^32`). -/
def toUnsigned (x : Int) : Nat := (x % 2 ^ 32).toNat

/-- Conversion of an `unsigned int` to `int` (two's complement). -/
def toInt (u : Nat) : Int :=
  if u % 2 ^ 32 < 2 ^ 31 then ((u % 2 ^ 32 : Nat) : Int) else ((u % 2 ^ 32 : Nat) : Int) - 2 ^ 32

/-- Result of an `int` operation whose mathematical value is `x`, after
two's-complement wrap-around. -/
def wrapInt (x : Int) : Int := (x + 2 ^ 31) % 2 ^ 32 - 2 ^ 31

/-- The values an `int` can hold. -/
def IsInt32 (x : Int) : Prop := -2 ^ 31 ≤ x ∧ x < 2 ^ 31

instance (x : Int) : Decidable (IsInt32 x) := by
  unfold IsInt32; infer_instance

/-! ## Data -/

/-- Three `double` coordinates (`Vector3` of the host library). -/
structure Vector3 (K : Type) where
  x : K
  y : K
  z : K
  deriving DecidableEq

/-- State every collective variable inherits from `CollectiveVariable`:
the gradient buffer and the current value. -/
structure CollectiveVariable (K : Type) where
  _grad : List (Vector3 K)
  _val : K

/-- Members of `AlphaRMSDCV`, on top of the inherited ones. -/
structure AlphaRMSDCV (K : Type) extends CollectiveVariable K where
  _resids : List Int
  _atomids : List Int
  _refpdb : String
  _refalpha : List (Vector3 K)

/-- How a run of the constructor ends. -/
inductive Construction (α : Type) where
  /-- The constructor printed `msg` and called `exit(0)`. -/
  | exited (msg : String) : Construction α
  /-- The fill loop is still running when the fuel is used up. -/
  | running : Construction α
  /-- The constructor returned. -/
  | built (cv : α) : Construction α

/-- Diagnostic of the size check; the literal is continued over a line break
in the source, so the five tabs that indent the second line are part of it. -/
def msgSize : String :=
  "AlphaRMSDCV: Input must designate range of \t\t\t\t\tresidues with 2 residue numbers."

/-- Diagnostic of the order check, with the five tabs of the continuation line. -/
def msgOrder : String :=
  "AlphaRMSDCV: Input must list lower residue index \t\t\t\t\tfirst: please reverse residue range."

/-- Diagnostic of the span check, with the five tabs of the continuation line. -/
def msgSpan : String :=
  "AlphaRMSDCV: Residue range must span at least 6 \t\t\t\t\tresidues for alpha helix calculation."

/-! ## Constructor -/

/-- The loop `for(unsigned int i = resids[0]; i <= resids[1]; i++) _resids.push_back(i);`
started at counter value `i`, with `hi` the bound `resids[1]` converted to
`unsigned int` and `acc` the residues pushed so far. -/
def fillResids (hi : Nat) : Nat → Nat → List Int → Option (List Int)
  | 0, _, _ => none
  | fuel + 1, i, acc =>
    if i ≤ hi then fillResids hi fuel ((i + 1) % 2 ^ 32) (acc ++ [toInt i])
    else some acc

/-- The constructor `AlphaRMSDCV(std::vector<int> resids, std::string refpdb)`.
`base` is the state left by the constructor of the base class. -/
def AlphaRMSDCV.new {K : Type} (base : CollectiveVariable K) (fuel : Nat)
    (resids : List Int) (refpdb : String) : Construction (AlphaRMSDCV K) :=
  match resids with
  | [r0, r1] =>
    if r0 ≥ r1 then .exited msgOrder
    else if wrapInt (r1 - r0) < 6 then .exited msgSpan
    else
      match fillResids (toUnsigned r1) fuel (toUnsigned r0) [] with
      | none => .running
      | some rs =>
        .built { toCollectiveVariable := base, _resids := rs, _atomids := [],
                 _refpdb := refpdb, _refalpha := [] }
  | _ => .exited msgSize

/-- Construction succeeds: with enough fuel the constructor returns. -/
def Constructs {K : Type} (base : CollectiveVariable K) (resids : List Int)
    (refpdb : String) : Prop :=
  ∃ fuel cv, AlphaRMSDCV.new base fuel resids refpdb = .built cv

/-- The validation as the spec words it: the input has not exactly two
entries, or `first ≥ last`, or `last - first < 6`. -/
def RangeRejected : List Int → Prop
  | [first, last] => first ≥ last ∨ last - first < 6
  | _ => True

/-- The inclusive ascending list `first, first+1, ..., last`. -/
def inclusiveRange (first last : Int) : List Int :=
  (List.range (last + 1 - first).toNat).map fun (d : Nat) => first + (d : Int)

/-! ## Vectors and the reference helix -/

/-- Zero vector, `Vector3{0,0,0}`. -/
def Vector3.zero {K : Type} [Zero K] : Vector3 K := ⟨0, 0, 0⟩

/-- Difference of two vectors, `a - b`. -/
def Vector3.sub {K : Type} [Sub K] (a b : Vector3 K) : Vector3 K :=
  ⟨a.x - b.x, a.y - b.y, a.z - b.z⟩

/-- Sum of two vectors. -/
def Vector3.add {K : Type} [Add K] (a b : Vector3 K) : Vector3 K :=
  ⟨a.x + b.x, a.y + b.y, a.z + b.z⟩

/-- Euclidean length, `v.norm()`. -/
def Vector3.norm {K : Type} [Add K] [Mul K] (sqrt : K → K) (v : Vector3 K) : K :=
  sqrt (v.x * v.x + v.y * v.y + v.z * v.z)

/-- Component-wise sum of a list of vectors. -/
def vsum {K : Type} [Zero K] [Add K] (g : List (Vector3 K)) : Vector3 K :=
  g.foldr Vector3.add Vector3.zero

/-- The 30 points of the ideal alpha helix that `Initialize` pushes onto
`_refalpha` (N, CA, CB, C, O of six residues, in angstrom). -/
def idealAlpha {K : Type} [OfScientific K] [Neg K] : List (Vector3 K) :=
  [ ⟨ 0.733,  0.519,  5.298⟩, ⟨ 1.763,  0.810,  4.301⟩, ⟨ 3.166,  0.543,  4.881⟩,
    ⟨ 1.527, -0.045,  3.053⟩, ⟨ 1.646,  0.436,  1.928⟩, ⟨ 1.180, -1.312,  3.254⟩,
    ⟨ 0.924, -2.203,  2.126⟩, ⟨ 0.650, -3.626,  2.626⟩, ⟨-0.239, -1.711,  1.261⟩,
    ⟨-0.190, -1.815,  0.032⟩, ⟨-1.280, -1.172,  1.891⟩, ⟨-2.416, -0.661,  1.127⟩,
    ⟨-3.548, -0.217,  2.056⟩, ⟨-1.964,  0.529,  0.276⟩, ⟨-2.364,  0.659, -0.880⟩,
    ⟨-1.130,  1.391,  0.856⟩, ⟨-0.620,  2.565,  0.148⟩, ⟨ 0.228,  3.439,  1.077⟩,
    ⟨ 0.231,  2.129, -1.032⟩, ⟨ 0.179,  2.733, -2.099⟩, ⟨ 1.028,  1.084, -0.833⟩,
    ⟨ 1.872,  0.593, -1.919⟩, ⟨ 2.850, -0.462, -1.397⟩, ⟨ 1.020,  0.020, -3.049⟩,
    ⟨ 1.317,  0.227, -4.224⟩, ⟨-0.051, -0.684, -2.696⟩, ⟨-0.927, -1.261, -3.713⟩,
    ⟨-1.933, -2.219, -3.074⟩, ⟨-1.663, -0.171, -4.475⟩, ⟨-1.916, -0.296, -5.673⟩ ]

/-! ## Initialize -/

/-- The method `Initialize`.  `GetPdbBackbone` is the backbone reader of
`Utility/ReadBackbone.h`, called once with the reference path and the
stored residues; the 30 reference points are appended to `_refalpha`. -/
def AlphaRMSDCV.Initialize {K : Type} [OfScientific K] [Neg K]
    (GetPdbBackbone : String → List Int → List Int) (cv : AlphaRMSDCV K) : AlphaRMSDCV K :=
  { cv with _atomids := GetPdbBackbone cv._refpdb cv._resids,
            _refalpha := cv._refalpha ++ idealAlpha }

/-! ## Evaluate -/

/-- What `Evaluate` reads of the snapshot: `GetPositions()` and
`GetNumAtoms()` (the image flags are fetched and never used). -/
structure Snapshot (K : Type) where
  positions : List (Vector3 K)
  numAtoms : Nat

/-- The variables `Evaluate` carries from one window to the next. -/
structure EvalState (K : Type) where
  val : K
  grad : List (Vector3 K)
  deriv : List (List K)

/-- The count `unsigned int resgroups = _resids.size() - 5;` : the subtraction
is done in `size_t` and the result is cut to 32 bits. -/
def resgroups {K : Type} (cv : AlphaRMSDCV K) : Nat :=
  (((cv._resids.length : Int) - 5) % 2 ^ 64 % 2 ^ 32).toNat

/-- The element `v[a]` of a vector indexed by an `int` (converted to
`size_t`, so a negative index is outside). -/
def atInt {α : Type} (v : List α) (a : Int) : Option α :=
  if a < 0 then none else v[a.toNat]?

/-- The gather loop of window `i`: `_refxyz[j] = pos[_atomids[5 * i + j]]`
for `j = 0 .. 29`. -/
def gather {K : Type} (atomids : List Int) (pos : List (Vector3 K)) (i : Nat)
    (refxyz : List (Vector3 K)) : Option (List (Vector3 K)) :=
  (List.range 30).foldlM
    (fun r j => do
      let a ← atomids[5 * i + j]?
      let p ← atInt pos a
      if j < r.length then pure (r.set j p) else none)
    refxyz

/-- The assignment `deriv[j][k] = v`. -/
def setEntry {K : Type} (m : List (List K)) (j k : Nat) (v : K) : Option (List (List K)) :=
  match m[j]? with
  | none => none
  | some row => if k < row.length then some (m.set j (row.set k v)) else none

/-- The read `deriv[j][k]`. -/
def getEntry {K : Type} (m : List (List K)) (j k : Nat) : Option K :=
  match m[j]? with
  | none => none
  | some row => row[k]?

/-- Body of the first pair loop for the pair `(j, k)`: the running sum
`rmsd` and the table `deriv` are updated. -/
def pairStep {K : Type} [Add K] [Sub K] [Mul K] [Div K] (sqrt : K → K) (refxyz refalpha : List (Vector3 K))
    (j : Nat) (st : K × List (List K)) (k : Nat) : Option (K × List (List K)) := do
  let xj ← refxyz[j]?
  let xk ← refxyz[k]?
  let aj ← refalpha[j]?
  let ak ← refalpha[k]?
  let dist_xyz := xj.sub xk
  let dist_ref := aj.sub ak
  let dist_norm := dist_xyz.norm sqrt - dist_ref.norm sqrt
  let deriv ← setEntry st.2 j k (dist_norm / dist_xyz.norm sqrt)
  pure (st.1 + dist_norm * dist_norm, deriv)

/-- The first pair loop: `for j < 30, for j < k < 30`. -/
def pairLoop {K : Type} [Add K] [Sub K] [Mul K] [Div K] (sqrt : K → K) (refxyz refalpha : List (Vector3 K))
    (st : K × List (List K)) : Option (K × List (List K)) :=
  (List.range 30).foldlM
    (fun s j => (List.range' (j + 1) (30 - (j + 1))).foldlM (pairStep sqrt refxyz refalpha j) s)
    st

/-- The three statements `_grad[j][c] += d` (`c = 0, 1, 2`). -/
def addAt {K : Type} [Add K] (g : List (Vector3 K)) (j : Nat) (d : K) :
    Option (List (Vector3 K)) :=
  match g[j]? with
  | none => none
  | some v => some (g.set j ⟨v.x + d, v.y + d, v.z + d⟩)

/-- The three statements `_grad[k][c] -= d` (`c = 0, 1, 2`). -/
def subAt {K : Type} [Sub K] (g : List (Vector3 K)) (k : Nat) (d : K) :
    Option (List (Vector3 K)) :=
  match g[k]? with
  | none => none
  | some v => some (g.set k ⟨v.x - d, v.y - d, v.z - d⟩)

/-- Body of the gradient loop for the pair `(j, k)`. -/
def gradStep {K : Type} [Add K] [Sub K] [Mul K] (dxgrouprmsd : K) (deriv : List (List K))
    (j : Nat) (g : List (Vector3 K)) (k : Nat) : Option (List (Vector3 K)) := do
  let d ← getEntry deriv j k
  let g1 ← addAt g j (dxgrouprmsd * d)
  subAt g1 k (dxgrouprmsd * d)

/-- The gradient loop of one window: `for j < 30, for j < k < 30`. -/
def gradLoop {K : Type} [Add K] [Sub K] [Mul K] (dxgrouprmsd : K) (deriv : List (List K))
    (g : List (Vector3 K)) : Option (List (Vector3 K)) :=
  (List.range 30).foldlM
    (fun s j => (List.range' (j + 1) (30 - (j + 1))).foldlM (gradStep dxgrouprmsd deriv j) s)
    g

/-- The statement `rmsd *= 2 / (30 * 29);` : the quotient is formed in
`int` and then converted. -/
def normalize {K : Type} [Mul K] [IntCast K] (rmsd : K) : K :=
  rmsd * ((2 / (30 * 29) : Int) : K)

/-- The term added to `_val`: `(1 - pow(rmsd/0.1, 8.0)) / (1 - pow(rmsd/0.1, 12.0))`. -/
def switching {K : Type} [Sub K] [Div K] [Pow K Nat] [One K] [OfScientific K] (rmsd : K) : K :=
  (1 - (rmsd / 0.1) ^ 8) / (1 - (rmsd / 0.1) ^ 12)

/-- The four statements that compute `dxgrouprmsd` from `rmsd`. -/
def dxgroup {K : Type} [Add K] [Mul K] [Div K] [Pow K Nat] [One K] [OfScientific K]
    [IntCast K] (rmsd : K) : K :=
  let d0 : K := 8E8 * (5E3 * rmsd ^ 11 + rmsd ^ 7)
  let d1 : K := d0 / (1E8 * rmsd ^ 8 + 1E4 * rmsd ^ 4 + 1)
  let d2 : K := d1 / (1E8 * rmsd ^ 8 + 1E4 * rmsd ^ 4 + 1)
  d2 * ((4 / (30 * 29) : Int) : K)

/-- The `_refxyz` of a window after `std::fill` and `resize(30, 0)`. -/
def resetRefxyz {K : Type} [Zero K] (refxyz : List (Vector3 K)) : List (Vector3 K) :=
  (refxyz.map fun _ => Vector3.zero).take 30 ++
    List.replicate (30 - refxyz.length) Vector3.zero

/-- The quantity `rmsd` of window `i` after normalisation, together with
the table `deriv` the first pair loop leaves. -/
def windowRmsd {K : Type} [Zero K] [Add K] [Sub K] [Mul K] [Div K] [IntCast K]
    (sqrt : K → K) (cv : AlphaRMSDCV K)
    (pos : List (Vector3 K)) (i : Nat) (refxyz0 : List (Vector3 K)) (deriv : List (List K)) :
    Option (K × List (List K) × List (Vector3 K)) := do
  let refxyz ← gather cv._atomids pos i (resetRefxyz refxyz0)
  let (rmsd, deriv1) ← pairLoop sqrt refxyz cv._refalpha (0, deriv)
  pure (normalize rmsd, deriv1, refxyz)

/-- One pass of the window loop, for window `i`. -/
def window {K : Type} [Zero K] [One K] [Add K] [Sub K] [Mul K] [Div K] [Pow K Nat]
    [OfScientific K] [IntCast K] (sqrt : K → K) (cv : AlphaRMSDCV K)
    (pos : List (Vector3 K)) (st : EvalState K × List (Vector3 K)) (i : Nat) :
    Option (EvalState K × List (Vector3 K)) := do
  let (rmsd, deriv1, refxyz) ← windowRmsd sqrt cv pos i st.2 st.1.deriv
  let val := st.1.val + switching rmsd
  let grad ← gradLoop (dxgroup rmsd) deriv1 st.1.grad
  pure ({ val := val, grad := grad, deriv := deriv1 }, refxyz)

/-- The gradient buffer after `std::fill(.., 0)` and `resize(n, 0)`. -/
def resetGrad {K : Type} [Zero K] (grad : List (Vector3 K)) (n : Nat) : List (Vector3 K) :=
  (grad.map fun _ => Vector3.zero).take n ++ List.replicate (n - grad.length) Vector3.zero

/-- The method `Evaluate`; `none` when a vector is indexed outside its size. -/
def AlphaRMSDCV.Evaluate {K : Type} [Zero K] [One K] [Add K] [Sub K] [Mul K] [Div K]
    [Pow K Nat] [OfScientific K] [IntCast K] (sqrt : K → K) (cv : AlphaRMSDCV K)
    (snapshot : Snapshot K) : Option (AlphaRMSDCV K) := do
  let st0 : EvalState K :=
    { val := cv._val, grad := resetGrad cv._grad snapshot.numAtoms,
      deriv := List.replicate 30 (List.replicate 30 0) }
  let (st, _) ← (List.range (resgroups cv)).foldlM (window sqrt cv snapshot.positions) (st0, [])
  pure { cv with _val := st.val, _grad := st.grad }

/-! ## Serialize -/

/-- The part of `Json::Value` that `Serialize` uses. -/
inductive JsonValue where
  | null : JsonValue
  | str (s : String) : JsonValue
  | int (n : Int) : JsonValue
  | array (items : List JsonValue) : JsonValue
  | object (members : List (String × JsonValue)) : JsonValue

/-- Replace the value stored under `key`, or add the member. -/
def setKey (members : List (String × JsonValue)) (key : String) (v : JsonValue) :
    List (String × JsonValue) :=
  match members with
  | [] => [(key, v)]
  | (k, w) :: rest => if k = key then (k, v) :: rest else (k, w) :: setKey rest key v

/-- Value stored under `key`; `null` when there is none. -/
def lookupKey (members : List (String × JsonValue)) (key : String) : JsonValue :=
  match members with
  | [] => .null
  | (k, w) :: rest => if k = key then w else lookupKey rest key

/-- The read `json[key]`. -/
def JsonValue.member (json : JsonValue) (key : String) : JsonValue :=
  match json with
  | .object members => lookupKey members key
  | _ => .null

/-- The assignment `json[key] = v`: a null value becomes an object; a
value that is neither null nor an object is refused by the library. -/
def JsonValue.assign (json : JsonValue) (key : String) (v : JsonValue) : Option JsonValue :=
  match json with
  | .null => some (.object [(key, v)])
  | .object members => some (.object (setKey members key v))
  | _ => none

/-- The call `value.append(v)`: a null value becomes an array. -/
def JsonValue.append (value : JsonValue) (v : JsonValue) : Option JsonValue :=
  match value with
  | .null => some (.array [v])
  | .array items => some (.array (items ++ [v]))
  | _ => none

/-- The statement `json[key].append(v)`. -/
def JsonValue.appendMember (json : JsonValue) (key : String) (v : JsonValue) :
    Option JsonValue :=
  match json with
  | .null => some (.object [(key, .array [v])])
  | .object members =>
    match (lookupKey members key).append v with
    | some a => some (.object (setKey members key a))
    | none => none
  | _ => none

/-- The method `Serialize`; `none` when the library refuses an operation. -/
def AlphaRMSDCV.Serialize {K : Type} (cv : AlphaRMSDCV K) (json : JsonValue) :
    Option JsonValue := do
  let j1 ← json.assign "type" (.str "AlphaRMSD")
  let j2 ← j1.assign "reference" (.str cv._refpdb)
  cv._resids.foldlM (fun j r => j.appendMember "residue_ids" (.int r)) j2

/-- Names of the members of a record. -/
def JsonValue.keys (json : JsonValue) : List String :=
  match json with
  | .object members => members.map Prod.fst
  | _ => []

/-- The integers of an array value, read the way a list of residue numbers
is read back (`asInt` of every item); a null value has no items. -/
def JsonValue.asIntList (json : JsonValue) : List Int :=
  match json with
  | .array items => items.filterMap fun v => match v with
    | .int n => some n
    | _ => none
  | _ => []

/-- The string of a string value (`asString`). -/
def JsonValue.asString (json : JsonValue) : String :=
  match json with
  | .str s => s
  | _ => ""

/-- The table `deriv` has 30 rows of 30 entries. -/
def DerivDims {K : Type} (m : List (List K)) : Prop :=
  m.length = 30 ∧ ∀ row ∈ m, row.length = 30

/-- Every index `Evaluate` forms for `_atomids`, the positions and
`_refalpha` is inside, and the gradient buffer has room for the indices
`0 .. 29` the gradient loop uses. -/
def InBounds {K : Type} (cv : AlphaRMSDCV K) (snapshot : Snapshot K) : Prop :=
  (∀ i j, i < resgroups cv → j < 30 →
    ∃ a p, cv._atomids[5 * i + j]? = some a ∧ atInt snapshot.positions a = some p) ∧
  30 ≤ cv._refalpha.length ∧ 30 ≤ snapshot.numAtoms

/-! ## The quantity `r` as the spec words it -/

/-- The 435 pairs `j < k < 30`, in the order the pair loops visit them. -/
def pairs30 : List (Nat × Nat) :=
  (List.range 30).flatMap fun j => (List.range' (j + 1) (30 - (j + 1))).map fun k => (j, k)

/-- Squared difference between the current distance of the points `j`, `k`
of a window and their distance in the reference table. -/
def pairTerm {K : Type} [Field K] (sqrt : K → K) (refxyz refalpha : List (Vector3 K))
    (p : Nat × Nat) : K :=
  (((refxyz.getD p.1 Vector3.zero).sub (refxyz.getD p.2 Vector3.zero)).norm sqrt
    - ((refalpha.getD p.1 Vector3.zero).sub (refalpha.getD p.2 Vector3.zero)).norm sqrt) ^ 2

/-- The quantity `r` of a window in the words of the spec (step 3c):
`2 / (30 · 29)` times the sum, over the 435 pairs, of the squared difference
between the current and the reference pairwise distance. -/
def specRmsd {K : Type} [Field K] (sqrt : K → K) (refxyz refalpha : List (Vector3 K)) : K :=
  2 / (30 * 29) * (pairs30.map (pairTerm sqrt refxyz refalpha)).sum

/-! ## A concrete scenario -/

/-- A backbone reader that hands out the atoms `first, first + 1, ..` in
order, five per residue. -/
def backboneFrom (first : Nat) (_refpdb : String) (resids : List Int) : List Int :=
  (List.range (5 * resids.length)).map fun (n : Nat) => ((first + n : Nat) : Int)

/-- State of the base class before the first evaluation in the scenario:
no gradient entry, value 0. -/
def freshBase (K : Type) [Zero K] : CollectiveVariable K := { _grad := [], _val := 0 }

/-- The object the constructor returns for the range `[10, 20]` of the
end-to-end scenario of the spec. -/
def scenarioBuilt (K : Type) [Zero K] : AlphaRMSDCV K :=
  { toCollectiveVariable := freshBase K, _resids := inclusiveRange 10 20, _atomids := [],
    _refpdb := "helix.pdb", _refalpha := [] }

/-- The collective variable of the scenario after `Initialize`, with the
backbone atoms `first .. first + 54`. -/
def scenarioCV (K : Type) [Zero K] [OfScientific K] [Neg K] (first : Nat) : AlphaRMSDCV K :=
  (scenarioBuilt K).Initialize (backboneFrom first)

/-- A snapshot of `n` atoms on a line: atom `m` sits at `(m, 0, 0)`. -/
def lineSnapshot (K : Type) [Field K] (n : Nat) : Snapshot K :=
  { positions := (List.range n).map fun (m : Nat) => ⟨(m : K), 0, 0⟩, numAtoms := n }

/-- The reference helix shifted by the vector `t`: positions of a window
that matches the reference up to a translation. -/
def shiftedHelix {K : Type} [Field K] (t : Vector3 K) : List (Vector3 K) :=
  idealAlpha.map fun v => v.add t

/-- State at the head of the first window of an evaluation on 30 atoms that
starts from the value 0. -/
def windowStart (K : Type) [Zero K] : EvalState K × List (Vector3 K) :=
  ({ val := 0, grad := List.replicate 30 Vector3.zero,
     deriv := List.replicate 30 (List.replicate 30 0) }, [])

/-- The record with the type tag, the reference path `refpdb` and, when
there is a residue, the list `resids` under `residue_ids`. -/
def serializedRecord (refpdb : String) (resids : List Int) : JsonValue :=
  .object (("type", .str "AlphaRMSD") :: ("reference", .str refpdb) ::
    (match resids with
      | [] => []
      | x :: xs => [("residue_ids", .array ((x :: xs).map .int))]))

/-! ## The switching step in parts -/

/-- The dividend of the switching term, `1 - pow(rmsd/0.1, 8.0)`. -/
def switchingNumerator {K : Type} [Sub K] [Div K] [Pow K Nat] [One K] [OfScientific K]
    (rmsd : K) : K := 1 - (rmsd / 0.1) ^ 8

/-- The divisor of the switching term, `1 - pow(rmsd/0.1, 12.0)`. -/
def switchingDenominator {K : Type} [Sub K] [Div K] [Pow K Nat] [One K] [OfScientific K]
    (rmsd : K) : K := 1 - (rmsd / 0.1) ^ 12

/-- The divisor `1E8 * pow(rmsd, 8.0) + 1E4 * pow(rmsd, 4.0) + 1` by which
`dxgrouprmsd` is divided twice. -/
def dxDivisor {K : Type} [Add K] [Mul K] [Pow K Nat] [One K] [OfScientific K] (rmsd : K) : K := 1E8 * rmsd ^ 8 + 1E4 * rmsd ^ 4 + 1

/-- The value of `dxgrouprmsd` before the statement
`dxgrouprmsd *= 4 / (30 * 29);`. -/
def dxgroupUnscaled {K : Type} [Add K] [Mul K] [Div K] [Pow K Nat] [One K]
    [OfScientific K] (rmsd : K) : K :=
  8E8 * (5E3 * rmsd ^ 11 + rmsd ^ 7) / dxDivisor rmsd / dxDivisor rmsd

/-- No two atoms of a window sit at the same position. -/
def NoCoincidence {K : Type} (cv : AlphaRMSDCV K) (snapshot : Snapshot K) : Prop :=
  ∀ i j k aj ak pj pk, i < resgroups cv → j < k → k < 30 →
    cv._atomids[5 * i + j]? = some aj → cv._atomids[5 * i + k]? = some ak →
    atInt snapshot.positions aj = some pj → atInt snapshot.positions ak = some pk → pj ≠ pk

/-- The three components of a vector are equal. -/
def EqualComponents {K : Type} (v : Vector3 K) : Prop := v.x = v.y ∧ v.y = v.z

/-- A backbone reader whose atom indices all lie below `n`: position `m` of
the list holds the index `m % n`, five positions per residue. -/
def backboneModulo (n : Nat) (_refpdb : String) (resids : List Int) : List Int :=
  (List.range (5 * resids.length)).map fun (m : Nat) => ((m % n : Nat) : Int)

/-- The collective variable of the scenario initialised with 55 atom
indices that all lie below 20. -/
def crowdedCV (K : Type) [Field K] : AlphaRMSDCV K :=
  (scenarioBuilt K).Initialize (backboneModulo 20)

/-! ## Doubles with infinities and NaN -/

/-- A `double` as far as overflow and the special values go: a finite value,
one of the two infinities, or a NaN.  A finite result is kept exact when it
lies within the largest finite `double` and becomes an infinity beyond it;
rounding, underflow and the sign of zero are not modelled. -/
inductive Dbl (K : Type) where
  | fin (x : K) : Dbl K
  | pinf : Dbl K
  | ninf : Dbl K
  | nan : Dbl K

/-- The largest finite `double`, `2^1024 - 2^971`. -/
def dblMax (K : Type) [Field K] : K := 2 ^ 1024 - 2 ^ 971

/-- The `double` for an exact result `x`: an infinity when `x` lies beyond the
largest finite `double`. -/
def Dbl.ofExact {K : Type} [LinearOrderedField K] (x : K) : Dbl K :=
  if dblMax K < x then .pinf else if x < -dblMax K then .ninf else .fin x

/-- Negation of a `double`. -/
def Dbl.neg {K : Type} [LinearOrderedField K] (a : Dbl K) : Dbl K :=
  match a with
  | .fin x => .fin (-x)
  | .pinf => .ninf
  | .ninf => .pinf
  | .nan => .nan

/-- Sum of two `double`s. -/
def Dbl.add {K : Type} [LinearOrderedField K] (a b : Dbl K) : Dbl K :=
  match a, b with
  | .fin x, .fin y => Dbl.ofExact (x + y)
  | .fin _, .pinf => .pinf
  | .fin _, .ninf => .ninf
  | .pinf, .fin _ => .pinf
  | .pinf, .pinf => .pinf
  | .pinf, .ninf => .nan
  | .ninf, .fin _ => .ninf
  | .ninf, .pinf => .nan
  | .ninf, .ninf => .ninf
  | .nan, _ => .nan
  | _, .nan => .nan

/-- Difference of two `double`s. -/
def Dbl.sub {K : Type} [LinearOrderedField K] (a b : Dbl K) : Dbl K := Dbl.add a (Dbl.neg b)

/-- The infinity with the sign of `x`, or NaN for `x = 0`: the product of an
infinity and the finite value `x`. -/
def Dbl.signedInf {K : Type} [LinearOrderedField K] (x : K) : Dbl K :=
  if 0 < x then .pinf else if x < 0 then .ninf else .nan

/-- Product of two `double`s. -/
def Dbl.mul {K : Type} [LinearOrderedField K] (a b : Dbl K) : Dbl K :=
  match a, b with
  | .fin x, .fin y => Dbl.ofExact (x * y)
  | .fin x, .pinf => Dbl.signedInf x
  | .fin x, .ninf => Dbl.signedInf (-x)
  | .pinf, .fin y => Dbl.signedInf y
  | .ninf, .fin y => Dbl.signedInf (-y)
  | .pinf, .pinf => .pinf
  | .pinf, .ninf => .ninf
  | .ninf, .pinf => .ninf
  | .ninf, .ninf => .pinf
  | .nan, _ => .nan
  | _, .nan => .nan

/-- Quotient of two `double`s; a zero divisor counts as `+0`. -/
def Dbl.div {K : Type} [LinearOrderedField K] (a b : Dbl K) : Dbl K :=
  match a, b with
  | .fin x, .fin y => if y = 0 then Dbl.signedInf x else Dbl.ofExact (x / y)
  | .fin _, .pinf => .fin 0
  | .fin _, .ninf => .fin 0
  | .pinf, .fin y => if y < 0 then .ninf else .pinf
  | .ninf, .fin y => if y < 0 then .pinf else .ninf
  | .pinf, .pinf => .nan
  | .pinf, .ninf => .nan
  | .ninf, .pinf => .nan
  | .ninf, .ninf => .nan
  | .nan, _ => .nan
  | _, .nan => .nan

/-- The call `pow(a, n)` for an exponent that is a natural number `n > 0`
(the source uses 4, 7, 8, 11 and 12). -/
def Dbl.pow {K : Type} [LinearOrderedField K] (a : Dbl K) (n : Nat) : Dbl K :=
  match a with
  | .fin x => Dbl.ofExact (x ^ n)
  | .pinf => .pinf
  | .ninf => if n % 2 = 0 then .pinf else .ninf
  | .nan => .nan

/-- The square root of a `double`, from a square root `s` of the finite values. -/
def Dbl.sqrt {K : Type} [LinearOrderedField K] (s : K → K) (a : Dbl K) : Dbl K :=
  match a with
  | .fin x => if x < 0 then .nan else Dbl.ofExact (s x)
  | .pinf => .pinf
  | .ninf => .nan
  | .nan => .nan

instance {K : Type} [LinearOrderedField K] : Add (Dbl K) := ⟨Dbl.add⟩

instance {K : Type} [LinearOrderedField K] : Sub (Dbl K) := ⟨Dbl.sub⟩

instance {K : Type} [LinearOrderedField K] : Mul (Dbl K) := ⟨Dbl.mul⟩

instance {K : Type} [LinearOrderedField K] : Div (Dbl K) := ⟨Dbl.div⟩

instance {K : Type} [LinearOrderedField K] : Neg (Dbl K) := ⟨Dbl.neg⟩

instance {K : Type} [LinearOrderedField K] : Zero (Dbl K) := ⟨.fin 0⟩

instance {K : Type} [LinearOrderedField K] : One (Dbl K) := ⟨.fin 1⟩

instance {K : Type} [LinearOrderedField K] : Pow (Dbl K) Nat := ⟨Dbl.pow⟩

instance {K : Type} [LinearOrderedField K] : IntCast (Dbl K) := ⟨fun n => .fin (n : K)⟩

instance {K : Type} [LinearOrderedField K] : OfScientific (Dbl K) :=
  ⟨fun m s e => .fin (OfScientific.ofScientific m s e)⟩

/-- A vector of finite `double`s. -/
def Vector3.toDbl {K : Type} (v : Vector3 K) : Vector3 (Dbl K) :=
  ⟨.fin v.x, .fin v.y, .fin v.z⟩

/-- A snapshot with finite positions, as a snapshot of `double`s. -/
def Snapshot.toDbl {K : Type} (snapshot : Snapshot K) : Snapshot (Dbl K) :=
  { positions := snapshot.positions.map Vector3.toDbl, numAtoms := snapshot.numAtoms }

/-- The function `s` is a square root on the non-negative values. -/
def IsSqrt {K : Type} [LinearOrderedField K] (s : K → K) : Prop :=
  ∀ y, 0 ≤ y → 0 ≤ s y ∧ s y * s y = y

/-- Every coordinate of the vector is at most `B` in absolute value. -/
def BoundedVec {K : Type} [LinearOrderedField K] (B : K) (v : Vector3 K) : Prop :=
  |v.x| ≤ B ∧ |v.y| ≤ B ∧ |v.z| ≤ B

/-- The squared length `x² + y² + z²` of a vector. -/
def Vector3.normSq {K : Type} [Add K] [Mul K] (v : Vector3 K) : K :=
  v.x * v.x + v.y * v.y + v.z * v.z

/-- The vector whose three components are NaN. -/
def Vector3.nan {K : Type} : Vector3 (Dbl K) := ⟨.nan, .nan, .nan⟩

/-- Any two atoms of a window are at least `δ` apart: for the atoms `j < k` of
each of the first `windows` windows the squared distance of their positions
is at least `δ²`. -/
def Apart {K : Type} [LinearOrderedField K] (δ : K) (atomids : List Int) (windows : Nat)
    (positions : List (Vector3 K)) : Prop :=
  ∀ i j k aj ak pj pk, i < windows → j < k → k < 30 →
    atomids[5 * i + j]? = some aj → atomids[5 * i + k]? = some ak →
    atInt positions aj = some pj → atInt positions ak = some pk →
    δ * δ ≤ (pj.sub pk).normSq

/-- A snapshot of 55 atoms far apart on a line: atom `m` sits at
`(m · 1e200, 0, 0)`. -/
def farSnapshot (K : Type) [Field K] : Snapshot K :=
  { positions := (List.range 55).map fun (m : Nat) => ⟨(m : K) * 1e200, 0, 0⟩, numAtoms := 55 }

/-- With the bound `resids[1] = -1`, which converts to `2^32 - 1`, the test
`i <= resids[1]` never fails: the fill loop does not end. -/
theorem fillResids_top (fuel i : Nat) (acc : List Int) (hi : i < 2 ^ 32) :
    fillResids (2 ^ 32 - 1) fuel i acc = none := by
  induction fuel generalizing i acc with
  | zero => rfl
  | succ n ih =>
    have h1 : i ≤ 2 ^ 32 - 1 := by omega
    rw [fillResids, if_pos h1]
    exact ih _ _ (Nat.mod_lt _ (by norm_num))

/-- A start above the bound: the loop body never runs. -/
theorem fillResids_above (hi fuel i : Nat) (acc : List Int) (h : hi < i) :
    fillResids hi (fuel + 1) i acc = some acc := by
  rw [fillResids, if_neg (by omega)]

/-- A start at or below a bound under `2^32 - 1`: the loop pushes the
counter values `lo, lo+1, .., hi` and ends. -/
theorem fillResids_below (hi : Nat) (hhi : hi + 1 < 2 ^ 32) (d lo extra : Nat)
    (acc : List Int) (hd : lo + d = hi + 1) :
    fillResids hi (d + 1 + extra) lo acc
      = some (acc ++ (List.range d).map fun t => toInt (lo + t)) := by
  induction d generalizing lo acc with
  | zero =>
    simp only [Nat.zero_add, List.range_zero, List.map_nil, List.append_nil]
    rw [Nat.add_comm]
    exact fillResids_above hi extra lo acc (by omega)
  | succ n ih =>
    have e1 : n + 1 + 1 + extra = (n + 1 + extra) + 1 := by omega
    rw [e1, fillResids, if_pos (by omega)]
    have e2 : (lo + 1) % 2 ^ 32 = lo + 1 := Nat.mod_eq_of_lt (by omega)
    rw [e2, ih (lo + 1) _ (by omega), List.range_succ_eq_map, List.map_cons, List.map_map]
    simp only [List.append_assoc, List.singleton_append, Nat.add_zero]
    congr 3
    apply List.map_congr_left
    intro t _
    simp only [Function.comp, Nat.succ_eq_add_one]
    congr 1
    omega

/-- A run of the constructor that returns: the input is an ascending pair
with `int` difference at least 6, the stored residues are what the fill
loop produced and the reference path is the argument. -/
theorem new_built_iff {K : Type} (base : CollectiveVariable K) (fuel : Nat)
    (r0 r1 : Int) (refpdb : String) (cv : AlphaRMSDCV K) :
    AlphaRMSDCV.new base fuel [r0, r1] refpdb = .built cv ↔
      r0 < r1 ∧ 6 ≤ wrapInt (r1 - r0) ∧
      ∃ rs, fillResids (toUnsigned r1) fuel (toUnsigned r0) [] = some rs ∧
        cv = { toCollectiveVariable := base, _resids := rs, _atomids := [],
               _refpdb := refpdb, _refalpha := [] } := by
  simp only [AlphaRMSDCV.new]
  by_cases h2 : r0 ≥ r1
  · rw [if_pos h2]
    constructor
    · intro h; cases h
    · rintro ⟨h, _⟩; omega
  · rw [if_neg h2]
    by_cases h3 : wrapInt (r1 - r0) < 6
    · rw [if_pos h3]
      constructor
      · intro h; cases h
      · rintro ⟨_, h, _⟩; omega
    · rw [if_neg h3]
      cases hf : fillResids (toUnsigned r1) fuel (toUnsigned r0) [] with
      | none =>
        constructor
        · intro h; cases h
        · rintro ⟨_, _, rs, h, _⟩; cases h
      | some rs =>
        constructor
        · intro h
          injection h with h
          exact ⟨by omega, by omega, rs, rfl, h.symm⟩
        · rintro ⟨_, _, rs2, h, hcv⟩
          injection h with h
          subst h
          rw [hcv]

/-- An input that has not exactly two entries: the constructor reports the
size and calls `exit`. -/
theorem new_size {K : Type} (base : CollectiveVariable K) (fuel : Nat)
    (resids : List Int) (refpdb : String) (h : resids.length ≠ 2) :
    AlphaRMSDCV.new base fuel resids refpdb = .exited msgSize := by
  match resids, h with
  | [], _ => rfl
  | [_], _ => rfl
  | [_, _], h => exact absurd rfl h
  | _ :: _ :: _ :: _, _ => rfl

/-- The checks on a pair: the constructor calls `exit` exactly when the pair
is not ascending or the `int` difference is below 6. -/
theorem new_exited_iff {K : Type} (base : CollectiveVariable K) (fuel : Nat)
    (r0 r1 : Int) (refpdb : String) :
    (∃ msg, AlphaRMSDCV.new base fuel [r0, r1] refpdb = .exited msg) ↔
      (r0 ≥ r1 ∨ wrapInt (r1 - r0) < 6) := by
  simp only [AlphaRMSDCV.new]
  by_cases h2 : r0 ≥ r1
  · rw [if_pos h2]
    exact ⟨fun _ => Or.inl h2, fun _ => ⟨_, rfl⟩⟩
  · rw [if_neg h2]
    by_cases h3 : wrapInt (r1 - r0) < 6
    · rw [if_pos h3]
      exact ⟨fun _ => Or.inr h3, fun _ => ⟨_, rfl⟩⟩
    · rw [if_neg h3]
      constructor
      · cases fillResids (toUnsigned r1) fuel (toUnsigned r0) [] with
        | none => rintro ⟨msg, h⟩; cases h
        | some rs => rintro ⟨msg, h⟩; cases h
      · rintro (h | h)
        · exact absurd h h2
        · exact absurd h h3

/-- Without overflow the `int` difference is the difference. -/
theorem wrapInt_of_lt (x : Int) (h0 : -2 ^ 31 ≤ x) (h1 : x < 2 ^ 31) : wrapInt x = x := by
  unfold wrapInt
  omega

/-- A non-negative range `0 ≤ first < last` of `int` values with
`last - first ≥ 6`: the constructor returns and stores the inclusive range. -/
theorem new_nonneg {K : Type} (base : CollectiveVariable K) (first last : Int)
    (refpdb : String) (h0 : 0 ≤ first) (h1 : last < 2 ^ 31) (h6 : 6 ≤ last - first)
    (extra : Nat) :
    AlphaRMSDCV.new base ((last + 1 - first).toNat + 1 + extra) [first, last] refpdb
      = .built { toCollectiveVariable := base, _resids := inclusiveRange first last,
                 _atomids := [], _refpdb := refpdb, _refalpha := [] } := by
  rw [new_built_iff]
  have hw : wrapInt (last - first) = last - first := wrapInt_of_lt _ (by omega) (by omega)
  refine ⟨by omega, by omega, inclusiveRange first last, ?_, rfl⟩
  have hu1 : toUnsigned last = last.toNat := by unfold toUnsigned; omega
  have hu0 : toUnsigned first = first.toNat := by unfold toUnsigned; omega
  rw [hu1, hu0, fillResids_below last.toNat (by omega) (last + 1 - first).toNat first.toNat extra []
    (by omega)]
  simp only [List.nil_append, inclusiveRange]
  congr 1
  apply List.map_congr_left
  intro t ht
  rw [List.mem_range] at ht
  unfold toInt
  have : (first.toNat + t) % 2 ^ 32 = first.toNat + t := Nat.mod_eq_of_lt (by omega)
  rw [this, if_pos (by omega)]
  omega

/-- C1 (fails on the code): the range `[-10, -1]` passes the three checks of
the claim (two entries, ascending, difference 9), and yet construction does
not succeed: the fill loop compares its `unsigned int` counter with `-1`
converted to `2^32 - 1`, so the constructor is still pushing residues
whatever the number of steps it is given. -/
theorem C1_range_ending_at_minus_one_never_built :
    ¬ RangeRejected [-10, -1] ∧
    (∀ (K : Type) (base : CollectiveVariable K) (fuel : Nat) (refpdb : String),
      AlphaRMSDCV.new base fuel [-10, -1] refpdb = .running) ∧
    (∀ (K : Type) (base : CollectiveVariable K) (refpdb : String),
      ¬ Constructs base [-10, -1] refpdb) := by
  have hrun : ∀ (K : Type) (base : CollectiveVariable K) (fuel : Nat) (refpdb : String),
      AlphaRMSDCV.new base fuel [-10, -1] refpdb = .running := by
    intro K base fuel refpdb
    have h := fillResids_top fuel (toUnsigned (-10)) [] (by decide)
    have e : toUnsigned (-1) = 2 ^ 32 - 1 := by decide
    simp only [AlphaRMSDCV.new]
    rw [if_neg (by decide), if_neg (by decide), e, h]
  refine ⟨?_, hrun, ?_⟩
  · simp only [RangeRejected]
    omega
  · rintro K base refpdb ⟨fuel, cv, h⟩
    rw [hrun] at h
    cases h

/-- C2 (fails on the code): the range `[-3, 5]` passes validation and its
inclusive expansion has the nine entries `-3 .. 5`, but the constructor
returns with an empty residue list: the counter starts at `-3` converted to
`4294967293`, above the bound `5`, so the fill loop pushes nothing. -/
theorem C2_negative_first_stores_no_residue :
    ¬ RangeRejected [-3, 5] ∧
    inclusiveRange (-3) 5 = [-3, -2, -1, 0, 1, 2, 3, 4, 5] ∧
    ∀ (K : Type) (base : CollectiveVariable K) (fuel : Nat) (refpdb : String),
      AlphaRMSDCV.new base (fuel + 1) [-3, 5] refpdb
        = .built { toCollectiveVariable := base, _resids := [], _atomids := [],
                   _refpdb := refpdb, _refalpha := [] } := by
  refine ⟨?_, by decide, ?_⟩
  · simp only [RangeRejected]
    omega
  · intro K base fuel refpdb
    rw [new_built_iff]
    refine ⟨by decide, by decide, [], ?_, rfl⟩
    exact fillResids_above _ fuel _ [] (by decide)

/-! ## The window count -/

/-- A stored residue list of `n` entries, `5 ≤ n < 2^32 + 5`: the loop of
`Evaluate` runs over `n - 5` windows. -/
theorem resgroups_of_length {K : Type} (cv : AlphaRMSDCV K) (n : Nat)
    (hn : cv._resids.length = n) (h5 : 5 ≤ n) (hlt : n < 2 ^ 32 + 5) :
    resgroups cv = n - 5 := by
  unfold resgroups
  rw [hn]
  omega

/-- Window arithmetic of `Evaluate` for a range `[a, b]` whose inclusive
expansion is the stored residue list (`0 ≤ a`, as the constructor needs):
there are `(b - a + 1) - 5` windows, window `i` reads the positions
`5i .. 5i+29` of the atom index list, all below `5 (b - a + 1)`, and the
last window ends at `5 (b - a + 1) - 1`. -/
theorem windows_of_nonneg_range {K : Type} (base : CollectiveVariable K) (a b : Int)
    (refpdb : String) (h0 : 0 ≤ a) (h1 : b < 2 ^ 31) (h6 : 6 ≤ b - a) :
    ∃ cv : AlphaRMSDCV K,
      AlphaRMSDCV.new base ((b + 1 - a).toNat + 1) [a, b] refpdb = .built cv ∧
      cv._resids = inclusiveRange a b ∧
      ((resgroups cv : Nat) : Int) = (b - a + 1) - 5 ∧
      (∀ i j : Nat, i < resgroups cv → j < 30 → ((5 * i + j : Nat) : Int) < 5 * (b - a + 1)) ∧
      ((5 * (resgroups cv - 1) + 29 : Nat) : Int) = 5 * (b - a + 1) - 1 := by
  have hb := new_nonneg base a b refpdb h0 h1 h6 0
  refine ⟨_, hb, rfl, ?_⟩
  have hl : (inclusiveRange a b).length = (b + 1 - a).toNat := by
    simp [inclusiveRange]
  have hr := resgroups_of_length
    ({ toCollectiveVariable := base, _resids := inclusiveRange a b, _atomids := [],
       _refpdb := refpdb, _refalpha := [] } : AlphaRMSDCV K) _ hl (by omega) (by omega)
  rw [hr]
  refine ⟨by omega, fun i j hi hj => by omega, by omega⟩

/-- C3 (fails on the code): for the valid range `[-3, 5]` the claim gives
`(5 - (-3) + 1) - 5 = 4` windows, but the constructor has stored no residue
there, and `_resids.size() - 5`, formed in `size_t` and cut to
`unsigned int`, makes the window loop of `Evaluate` run over `4294967291`
windows (before and after `Initialize`). -/
theorem C3_window_count_of_negative_first :
    ¬ RangeRejected [-3, 5] ∧
    ∀ (K : Type) [Field K] (base : CollectiveVariable K) (fuel : Nat) (refpdb : String)
      (GetPdbBackbone : String → List Int → List Int),
      ∃ cv : AlphaRMSDCV K,
        AlphaRMSDCV.new base (fuel + 1) [-3, 5] refpdb = .built cv ∧
        resgroups cv = 4294967291 ∧
        resgroups (cv.Initialize GetPdbBackbone) = 4294967291 := by
  refine ⟨?_, ?_⟩
  · simp only [RangeRejected]
    omega
  · intro K _ base fuel refpdb g
    refine ⟨{ toCollectiveVariable := base, _resids := [], _atomids := [],
              _refpdb := refpdb, _refalpha := [] }, ?_, ?_, ?_⟩
    rotate_left
    · simp only [resgroups, List.length_nil]
      decide
    · simp only [resgroups, AlphaRMSDCV.Initialize, List.length_nil]
      decide
    rw [new_built_iff]
    exact ⟨by decide, by decide, [], fillResids_above _ fuel _ [] (by decide), rfl⟩

/-! ## Loops -/

/-- A loop whose body keeps an invariant and never fails under it runs to
its end and keeps the invariant. -/
theorem foldlM_inv {σ α : Type} (P : σ → Prop) (f : σ → α → Option σ) (l : List α)
    (h : ∀ s x, x ∈ l → P s → ∃ s', f s x = some s' ∧ P s') (s : σ) (hs : P s) :
    ∃ s', l.foldlM f s = some s' ∧ P s' := by
  induction l generalizing s with
  | nil => exact ⟨s, rfl, hs⟩
  | cons a t ih =>
    obtain ⟨s1, h1, hp1⟩ := h s a (List.mem_cons_self a t) hs
    obtain ⟨s2, h2, hp2⟩ := ih (fun s x hx hp => h s x (List.mem_cons_of_mem a hx) hp) s1 hp1
    refine ⟨s2, ?_, hp2⟩
    rw [List.foldlM_cons, h1]
    exact h2

/-- A property every pass of the body carries over holds after the loop. -/
theorem foldlM_keeps {σ α : Type} (P : σ → Prop) (f : σ → α → Option σ) (l : List α)
    (h : ∀ s x s', x ∈ l → P s → f s x = some s' → P s') (s s' : σ) (hs : P s)
    (hr : l.foldlM f s = some s') : P s' := by
  induction l generalizing s with
  | nil =>
    simp only [List.foldlM_nil] at hr
    cases hr
    exact hs
  | cons a t ih =>
    rw [List.foldlM_cons] at hr
    cases h1 : f s a with
    | none => rw [h1] at hr; cases hr
    | some s1 =>
      rw [h1] at hr
      exact ih (fun s x s' hx hp => h s x s' (List.mem_cons_of_mem a hx) hp) s1
        (h s a s1 (List.mem_cons_self a t) hs h1) hr

/-- The double loop `for j < 30, for j < k < 30` with an invariant. -/
theorem pairs_inv {σ : Type} (P : σ → Prop) (f : Nat → σ → Nat → Option σ)
    (h : ∀ j k s, j < k → k < 30 → P s → ∃ s', f j s k = some s' ∧ P s') (s : σ) (hs : P s) :
    ∃ s', (List.range 30).foldlM
        (fun s j => (List.range' (j + 1) (30 - (j + 1))).foldlM (f j) s) s = some s' ∧ P s' := by
  apply foldlM_inv P _ _ _ s hs
  intro s1 j hj hp1
  apply foldlM_inv P _ _ _ s1 hp1
  intro s2 k hk hp2
  rw [List.mem_range'_1] at hk
  rw [List.mem_range] at hj
  exact h j k s2 (by omega) (by omega) hp2

/-- The double loop `for j < 30, for j < k < 30` with a property the body
carries over. -/
theorem pairs_keeps {σ : Type} (P : σ → Prop) (f : Nat → σ → Nat → Option σ)
    (h : ∀ j k s s', j < k → k < 30 → P s → f j s k = some s' → P s') (s s' : σ) (hs : P s)
    (hr : (List.range 30).foldlM
        (fun s j => (List.range' (j + 1) (30 - (j + 1))).foldlM (f j) s) s = some s') : P s' := by
  refine foldlM_keeps P _ _ ?_ s s' hs hr
  intro s1 j s1' hj hp1 hr1
  refine foldlM_keeps P _ _ ?_ s1 s1' hp1 hr1
  intro s2 k s2' hk hp2 hr2
  rw [List.mem_range'_1] at hk
  rw [List.mem_range] at hj
  exact h j k s2 s2' (by omega) (by omega) hp2 hr2

/-! ## The gradient loop -/

/-- Two vectors with the same three components are equal. -/
theorem Vector3.eq_of_components {K : Type} (a b : Vector3 K) (hx : a.x = b.x)
    (hy : a.y = b.y) (hz : a.z = b.z) : a = b := by
  cases a
  cases b
  simp only [Vector3.mk.injEq]
  exact ⟨hx, hy, hz⟩

/-- The statement `_grad[j] += d` is defined exactly on an entry of the buffer. -/
theorem addAt_eq_some {K : Type} [Add K] (g g' : List (Vector3 K)) (j : Nat) (d : K) :
    addAt g j d = some g' ↔
      ∃ v, g[j]? = some v ∧ g' = g.set j ⟨v.x + d, v.y + d, v.z + d⟩ := by
  unfold addAt
  cases h : g[j]? with
  | none => simp
  | some v =>
    simp only [Option.some.injEq, exists_eq_left']
    exact eq_comm

/-- The statement `_grad[k] -= d` is defined exactly on an entry of the buffer. -/
theorem subAt_eq_some {K : Type} [Sub K] (g g' : List (Vector3 K)) (k : Nat) (d : K) :
    subAt g k d = some g' ↔
      ∃ v, g[k]? = some v ∧ g' = g.set k ⟨v.x - d, v.y - d, v.z - d⟩ := by
  unfold subAt
  cases h : g[k]? with
  | none => simp
  | some v =>
    simp only [Option.some.injEq, exists_eq_left']
    exact eq_comm

/-- Replacing the entry `v` of a buffer by `w` moves the sum by `w - v`. -/
theorem vsum_set {K : Type} [Field K] (g : List (Vector3 K)) (j : Nat) (v w : Vector3 K)
    (h : g[j]? = some v) :
    vsum (g.set j w) = (vsum g).add (w.sub v) := by
  induction g generalizing j with
  | nil => simp at h
  | cons a t ih =>
    cases j with
    | zero =>
      simp only [List.getElem?_cons_zero, Option.some.injEq] at h
      subst h
      simp only [List.set_cons_zero, vsum, List.foldr_cons, Vector3.add, Vector3.sub,
        Vector3.mk.injEq]
      refine ⟨by ring, by ring, by ring⟩
    | succ n =>
      simp only [List.getElem?_cons_succ] at h
      have := ih n h
      simp only [vsum] at this
      simp only [List.set_cons_succ, vsum, List.foldr_cons, this, Vector3.add, Vector3.sub,
        Vector3.mk.injEq]
      refine ⟨by ring, by ring, by ring⟩

/-- Entry of the table `deriv` at `(j, k)` inside a table of 30 rows of 30. -/
theorem getEntry_of_dims {K : Type} (m : List (List K)) (hm : m.length = 30)
    (hrow : ∀ row ∈ m, row.length = 30) (j k : Nat) (hj : j < 30) (hk : k < 30) :
    ∃ d, getEntry m j k = some d := by
  unfold getEntry
  have hj2 : j < m.length := by omega
  rw [List.getElem?_eq_getElem hj2]
  have hr := hrow m[j] (List.getElem_mem hj2)
  have hk2 : k < m[j].length := by omega
  exact ⟨_, List.getElem?_eq_getElem hk2⟩

/-- One pass of the gradient loop for a pair `j < k` inside the buffer:
entry `j` gains `x`, entry `k` loses `x` in every component
(`x = dxgrouprmsd * deriv[j][k]`), nothing else changes. -/
theorem gradStep_spec {K : Type} [Add K] [Sub K] [Mul K] (dx : K) (deriv : List (List K)) (j k : Nat)
    (g : List (Vector3 K)) (d : K) (hd : getEntry deriv j k = some d) (hjk : j ≠ k)
    (hj : j < g.length) (hk : k < g.length) :
    ∃ vj vk, g[j]? = some vj ∧ g[k]? = some vk ∧
      gradStep dx deriv j g k
        = some ((g.set j ⟨vj.x + dx * d, vj.y + dx * d, vj.z + dx * d⟩).set k
                  ⟨vk.x - dx * d, vk.y - dx * d, vk.z - dx * d⟩) := by
  refine ⟨g[j], g[k], List.getElem?_eq_getElem hj, List.getElem?_eq_getElem hk, ?_⟩
  have h1 : addAt g j (dx * d)
      = some (g.set j ⟨g[j].x + dx * d, g[j].y + dx * d, g[j].z + dx * d⟩) := by
    rw [addAt_eq_some]
    exact ⟨g[j], List.getElem?_eq_getElem hj, rfl⟩
  have h2 : subAt (g.set j ⟨g[j].x + dx * d, g[j].y + dx * d, g[j].z + dx * d⟩) k (dx * d)
      = some ((g.set j ⟨g[j].x + dx * d, g[j].y + dx * d, g[j].z + dx * d⟩).set k
                ⟨g[k].x - dx * d, g[k].y - dx * d, g[k].z - dx * d⟩) := by
    rw [subAt_eq_some]
    refine ⟨g[k], ?_, rfl⟩
    rw [List.getElem?_set_ne hjk]
    exact List.getElem?_eq_getElem hk
  simp only [gradStep, hd, Option.bind_eq_bind, Option.some_bind, h1, h2]

/-- Writing back the value an entry already has changes nothing. -/
theorem set_same {α : Type} (g : List α) (j : Nat) (v : α) (h : g[j]? = some v) :
    g.set j v = g := by
  induction g generalizing j with
  | nil => rfl
  | cons a t ih =>
    cases j with
    | zero =>
      simp only [List.getElem?_cons_zero, Option.some.injEq] at h
      rw [List.set_cons_zero, h]
    | succ n =>
      simp only [List.getElem?_cons_succ] at h
      rw [List.set_cons_succ, ih n h]

/-- The table `deriv` as `Evaluate` declares it has 30 rows of 30 entries. -/
theorem derivDims_init {K : Type} [Zero K] :
    DerivDims (List.replicate 30 (List.replicate 30 (0 : K))) := by
  refine ⟨List.length_replicate _ _, ?_⟩
  intro row hrow
  rw [List.eq_of_mem_replicate hrow, List.length_replicate]

/-- The gradient loop of a window on a buffer of at least 30 entries, for
every derivative scalar and every table of per-pair factors: it runs to its
end, keeps the length and the component-wise sum of the buffer, and leaves
every entry of index 30 or more as it was. -/
theorem gradLoop_spec {K : Type} [Field K] (dx : K) (deriv : List (List K))
    (hm : DerivDims deriv) (g : List (Vector3 K)) (hg : 30 ≤ g.length) :
    ∃ g', gradLoop dx deriv g = some g' ∧ g'.length = g.length ∧ vsum g' = vsum g ∧
      ∀ n, 30 ≤ n → g'[n]? = g[n]? := by
  unfold gradLoop
  have h := pairs_inv
    (fun s : List (Vector3 K) => s.length = g.length ∧ vsum s = vsum g ∧
      ∀ n, 30 ≤ n → s[n]? = g[n]?)
    (gradStep dx deriv) ?_ g ⟨rfl, rfl, fun _ _ => rfl⟩
  · exact h
  · rintro j k s hjk hk ⟨hlen, hsum, hfr⟩
    obtain ⟨d, hd⟩ := getEntry_of_dims deriv hm.1 hm.2 j k (by omega) hk
    obtain ⟨vj, vk, hvj, hvk, hstep⟩ :=
      gradStep_spec dx deriv j k s d hd (by omega) (by omega) (by omega)
    refine ⟨_, hstep, ?_, ?_, ?_⟩
    · simp only [List.length_set, hlen]
    · have hvk2 : (s.set j ⟨vj.x + dx * d, vj.y + dx * d, vj.z + dx * d⟩)[k]? = some vk := by
        rw [List.getElem?_set_ne (by omega)]
        exact hvk
      rw [vsum_set _ k vk _ hvk2, vsum_set s j vj _ hvj, hsum]
      apply Vector3.eq_of_components <;> simp only [Vector3.add, Vector3.sub] <;> ring
    · intro n hn
      rw [List.getElem?_set_ne (by omega), List.getElem?_set_ne (by omega)]
      exact hfr n hn

/-- With derivative scalar zero the gradient loop leaves the buffer as it is. -/
theorem gradLoop_zero {K : Type} [Field K] (deriv : List (List K))
    (hm : DerivDims deriv) (g : List (Vector3 K)) (hg : 30 ≤ g.length) :
    gradLoop 0 deriv g = some g := by
  unfold gradLoop
  have hbody : ∀ j k (s : List (Vector3 K)), j < k → k < 30 → s = g →
      ∃ s', gradStep 0 deriv j s k = some s' ∧ s' = g := by
    rintro j k s hjk hk rfl
    obtain ⟨d, hd⟩ := getEntry_of_dims deriv hm.1 hm.2 j k (by omega) hk
    obtain ⟨vj, vk, hvj, hvk, hstep⟩ :=
      gradStep_spec 0 deriv j k s d hd (by omega) (by omega) (by omega)
    refine ⟨_, hstep, ?_⟩
    simp only [zero_mul, add_zero, sub_zero]
    rw [set_same s j vj hvj, set_same s k vk hvk]
  obtain ⟨g', h, hp⟩ := pairs_inv (fun s : List (Vector3 K) => s = g)
    (gradStep 0 deriv) hbody g rfl
  rw [h, hp]

/-- The assignment `deriv[j][k] = v` inside the table keeps its dimensions. -/
theorem setEntry_of_dims {K : Type} (m : List (List K)) (hm : DerivDims m) (j k : Nat)
    (hj : j < 30) (hk : k < 30) (v : K) :
    ∃ m', setEntry m j k v = some m' ∧ DerivDims m' := by
  unfold setEntry
  have hj2 : j < m.length := by rw [hm.1]; exact hj
  rw [List.getElem?_eq_getElem hj2]
  have hr := hm.2 m[j] (List.getElem_mem hj2)
  simp only []
  rw [if_pos (by omega)]
  refine ⟨_, rfl, ?_, ?_⟩
  · rw [List.length_set, hm.1]
  · intro row hrow
    rcases List.mem_or_eq_of_mem_set hrow with h | h
    · exact hm.2 row h
    · rw [h, List.length_set, hr]

/-- A counting loop `for j < n` with an invariant that depends on the counter. -/
theorem range_foldlM_inv {σ : Type} (P : Nat → σ → Prop) (f : σ → Nat → Option σ) (n : Nat)
    (h : ∀ j s, j < n → P j s → ∃ s', f s j = some s' ∧ P (j + 1) s') (s : σ) (hs : P 0 s) :
    ∃ s', (List.range n).foldlM f s = some s' ∧ P n s' := by
  induction n with
  | zero => exact ⟨s, rfl, hs⟩
  | succ m ih =>
    obtain ⟨s1, h1, hp1⟩ := ih (fun j s hj hp => h j s (by omega) hp)
    obtain ⟨s2, h2, hp2⟩ := h m s1 (by omega) hp1
    refine ⟨s2, ?_, hp2⟩
    rw [List.range_succ, List.foldlM_append, h1]
    simp only [Option.bind_eq_bind, Option.some_bind, List.foldlM_cons, List.foldlM_nil, h2]
    rfl

/-- The vector `_refxyz` has 30 entries after the reset at the head of a window. -/
theorem length_resetRefxyz {K : Type} [Zero K] (refxyz : List (Vector3 K)) :
    (resetRefxyz refxyz).length = 30 := by
  simp only [resetRefxyz, List.length_append, List.length_take, List.length_map,
    List.length_replicate]
  omega

/-- The gather loop of window `i`, when the 30 atom indices `5i .. 5i+29`
exist and point into the positions: it runs to its end and `_refxyz[j]`
is the position of atom `_atomids[5i+j]`. -/
theorem gather_spec {K : Type} (atomids : List Int) (pos : List (Vector3 K)) (i : Nat)
    (src : Nat → Vector3 K)
    (h : ∀ j, j < 30 → ∃ a, atomids[5 * i + j]? = some a ∧ atInt pos a = some (src j))
    (r : List (Vector3 K)) (hr : r.length = 30) :
    ∃ r', gather atomids pos i r = some r' ∧ r'.length = 30 ∧
      ∀ j, j < 30 → r'[j]? = some (src j) := by
  unfold gather
  refine range_foldlM_inv
    (fun j (s : List (Vector3 K)) => s.length = 30 ∧ ∀ t, t < j → s[t]? = some (src t))
    _ 30 ?_ r ⟨hr, fun t ht => absurd ht (Nat.not_lt_zero t)⟩
  · rintro j s hj ⟨hlen, hpre⟩
    obtain ⟨a, ha, hp⟩ := h j hj
    refine ⟨s.set j (src j), ?_, ?_, ?_⟩
    · simp only [ha, hp, Option.bind_eq_bind, Option.some_bind]
      rw [if_pos (by omega)]
      rfl
    · rw [List.length_set, hlen]
    · intro t ht
      by_cases e : t = j
      · subst e
        exact List.getElem?_set_self (by omega)
      · rw [List.getElem?_set_ne (by omega)]
        exact hpre t (by omega)

/-! ## The first pair loop and the window -/

/-- The first pair loop on 30 gathered points, a reference table of at
least 30 points and a table `deriv` of 30 by 30: it runs to its end; a
property of the running sum that every pair carries over holds at the end. -/
theorem pairLoop_inv {K : Type} [Add K] [Sub K] [Mul K] [Div K] (sqrt : K → K) (refxyz refalpha : List (Vector3 K))
    (hx : refxyz.length = 30) (ha : 30 ≤ refalpha.length) (Q : K → Prop)
    (hQ : ∀ j k xj xk aj ak r, j < k → k < 30 → refxyz[j]? = some xj → refxyz[k]? = some xk →
      refalpha[j]? = some aj → refalpha[k]? = some ak → Q r →
      Q (r + ((xj.sub xk).norm sqrt - (aj.sub ak).norm sqrt)
              * ((xj.sub xk).norm sqrt - (aj.sub ak).norm sqrt)))
    (r0 : K) (deriv : List (List K)) (hr0 : Q r0) (hm : DerivDims deriv) :
    ∃ r d, pairLoop sqrt refxyz refalpha (r0, deriv) = some (r, d) ∧ Q r ∧ DerivDims d := by
  unfold pairLoop
  have hbody : ∀ j k (s : K × List (List K)), j < k → k < 30 → (Q s.1 ∧ DerivDims s.2) →
      ∃ s', pairStep sqrt refxyz refalpha j s k = some s' ∧ (Q s'.1 ∧ DerivDims s'.2) := by
    rintro j k ⟨r, d⟩ hjk hk ⟨hq, hd⟩
    have hj1 : j < refxyz.length := by omega
    have hk1 : k < refxyz.length := by omega
    have hj2 : j < refalpha.length := by omega
    have hk2 : k < refalpha.length := by omega
    obtain ⟨d', hset, hd'⟩ := setEntry_of_dims d hd j k (by omega) hk
      (((refxyz[j].sub refxyz[k]).norm sqrt - (refalpha[j].sub refalpha[k]).norm sqrt)
        / (refxyz[j].sub refxyz[k]).norm sqrt)
    refine ⟨(r + ((refxyz[j].sub refxyz[k]).norm sqrt - (refalpha[j].sub refalpha[k]).norm sqrt)
              * ((refxyz[j].sub refxyz[k]).norm sqrt - (refalpha[j].sub refalpha[k]).norm sqrt),
             d'), ?_, ?_, hd'⟩
    · simp only [pairStep, List.getElem?_eq_getElem hj1, List.getElem?_eq_getElem hk1,
        List.getElem?_eq_getElem hj2, List.getElem?_eq_getElem hk2, Option.bind_eq_bind,
        Option.some_bind, hset]
      rfl
    · exact hQ j k _ _ _ _ r hjk hk (List.getElem?_eq_getElem hj1)
        (List.getElem?_eq_getElem hk1) (List.getElem?_eq_getElem hj2)
        (List.getElem?_eq_getElem hk2) hq
  obtain ⟨⟨r, d⟩, h1, h2, h3⟩ := pairs_inv (fun s : K × List (List K) => Q s.1 ∧ DerivDims s.2)
    (pairStep sqrt refxyz refalpha) hbody (r0, deriv) ⟨hr0, hm⟩
  exact ⟨r, d, h1, h2, h3⟩

/-- The quotient `2 / (30 * 29)` is formed in `int`: it is 0, and so is the
normalised `rmsd`. -/
theorem normalize_eq_zero {K : Type} [Field K] (rmsd : K) : normalize rmsd = 0 := by
  unfold normalize
  have h : (2 / (30 * 29) : Int) = 0 := by decide
  rw [h, Int.cast_zero, mul_zero]

/-- The switching term at `rmsd = 0` is `(1 - 0) / (1 - 0) = 1`. -/
theorem switching_zero {K : Type} [Field K] : switching (0 : K) = 1 := by
  unfold switching
  simp

/-- The quotient `4 / (30 * 29)` is formed in `int`: it is 0, and so is
`dxgrouprmsd`. -/
theorem dxgroup_eq_zero {K : Type} [Field K] (rmsd : K) : dxgroup rmsd = 0 := by
  unfold dxgroup
  have h : (4 / (30 * 29) : Int) = 0 := by decide
  simp only [h, Int.cast_zero, mul_zero]

/-- The gradient buffer after the reset at the head of `Evaluate`: `n` zero vectors. -/
theorem resetGrad_eq {K : Type} [Zero K] (grad : List (Vector3 K)) (n : Nat) :
    resetGrad grad n = List.replicate n Vector3.zero := by
  unfold resetGrad
  rw [List.map_const', List.take_replicate, List.append_replicate_replicate]
  congr 1
  omega

/-- The quantity `rmsd` of a window whose indices are inside, `src j` being
the position of atom `_atomids[5i+j]`: the gather loop and the first pair
loop run to their end, `_refxyz` holds the 30 positions, and the normalised
`rmsd` is 0, whatever the positions are. -/
theorem windowRmsd_src {K : Type} [Field K] (sqrt : K → K) (cv : AlphaRMSDCV K)
    (pos : List (Vector3 K)) (i : Nat) (src : Nat → Vector3 K)
    (hsrc : ∀ j, j < 30 → ∃ a, cv._atomids[5 * i + j]? = some a ∧ atInt pos a = some (src j))
    (ha : 30 ≤ cv._refalpha.length) (rx : List (Vector3 K)) (deriv : List (List K))
    (hm : DerivDims deriv) :
    ∃ r d rx', rx'.length = 30 ∧ (∀ j, j < 30 → rx'[j]? = some (src j)) ∧
      pairLoop sqrt rx' cv._refalpha (0, deriv) = some (r, d) ∧
      windowRmsd sqrt cv pos i rx deriv = some (0, d, rx') ∧ DerivDims d := by
  obtain ⟨r', hg, hlen, hget⟩ := gather_spec cv._atomids pos i src hsrc (resetRefxyz rx)
    (length_resetRefxyz rx)
  obtain ⟨r, d, hp, _, hd⟩ := pairLoop_inv sqrt r' cv._refalpha hlen ha (fun _ => True)
    (fun _ _ _ _ _ _ _ _ _ _ _ _ _ _ => trivial) 0 deriv trivial hm
  refine ⟨r, d, r', hlen, hget, hp, ?_, hd⟩
  simp only [windowRmsd, hg, hp, Option.bind_eq_bind, Option.some_bind, normalize_eq_zero]
  rfl

/-- The quantity `rmsd` of a window whose indices are inside: the
normalised `rmsd` is 0, whatever the positions are. -/
theorem windowRmsd_spec {K : Type} [Field K] (sqrt : K → K) (cv : AlphaRMSDCV K)
    (pos : List (Vector3 K)) (i : Nat)
    (hidx : ∀ j, j < 30 → ∃ a p, cv._atomids[5 * i + j]? = some a ∧ atInt pos a = some p)
    (ha : 30 ≤ cv._refalpha.length) (rx : List (Vector3 K)) (deriv : List (List K))
    (hm : DerivDims deriv) :
    ∃ d rx', windowRmsd sqrt cv pos i rx deriv = some (0, d, rx') ∧ DerivDims d := by
  have hsrc : ∀ j : Nat, ∃ p : Vector3 K, j < 30 →
      ∃ a, cv._atomids[5 * i + j]? = some a ∧ atInt pos a = some p := by
    intro j
    by_cases hj : j < 30
    · obtain ⟨a, p, h1, h2⟩ := hidx j hj
      exact ⟨p, fun _ => ⟨a, h1, h2⟩⟩
    · exact ⟨Vector3.zero, fun h => absurd h hj⟩
  choose src hsrc2 using hsrc
  obtain ⟨_, d, rx', _, _, _, hw, hd⟩ := windowRmsd_src sqrt cv pos i src hsrc2 ha rx deriv hm
  exact ⟨d, rx', hw, hd⟩

/-- One pass of the window loop on a state with a gradient buffer of at
least 30 entries: it runs to its end, adds 1 to the value and leaves the
gradient buffer as it is. -/
theorem window_spec {K : Type} [Field K] (sqrt : K → K) (cv : AlphaRMSDCV K)
    (pos : List (Vector3 K)) (i : Nat)
    (hidx : ∀ j, j < 30 → ∃ a p, cv._atomids[5 * i + j]? = some a ∧ atInt pos a = some p)
    (ha : 30 ≤ cv._refalpha.length) (st : EvalState K × List (Vector3 K))
    (hm : DerivDims st.1.deriv) (hg : 30 ≤ st.1.grad.length) :
    ∃ st', window sqrt cv pos st i = some st' ∧ st'.1.val = st.1.val + 1 ∧
      st'.1.grad = st.1.grad ∧ DerivDims st'.1.deriv := by
  obtain ⟨d, rx', hw, hd⟩ := windowRmsd_spec sqrt cv pos i hidx ha st.2 st.1.deriv hm
  refine ⟨({ val := st.1.val + 1, grad := st.1.grad, deriv := d }, rx'), ?_, rfl, rfl, hd⟩
  simp only [window, hw, Option.bind_eq_bind, Option.some_bind, dxgroup_eq_zero,
    gradLoop_zero d hd st.1.grad hg, switching_zero]
  rfl

/-- The method `Evaluate` on a state whose indices are all inside: it
returns, the value has grown by the number of windows, and the gradient
buffer holds one zero vector per atom. -/
theorem evaluate_spec {K : Type} [Field K] (sqrt : K → K) (cv : AlphaRMSDCV K)
    (snapshot : Snapshot K) (hb : InBounds cv snapshot) :
    cv.Evaluate sqrt snapshot
      = some { cv with _val := cv._val + (resgroups cv : K),
                       _grad := List.replicate snapshot.numAtoms Vector3.zero } := by
  obtain ⟨hidx, ha, hn⟩ := hb
  obtain ⟨⟨es, rx⟩, hrun, hval, hgrad, _⟩ := range_foldlM_inv
    (fun (j : Nat) (st : EvalState K × List (Vector3 K)) =>
      st.1.val = cv._val + (j : K) ∧
      st.1.grad = List.replicate snapshot.numAtoms Vector3.zero ∧ DerivDims st.1.deriv)
    (window sqrt cv snapshot.positions) (resgroups cv)
    (by
      rintro j st hj ⟨hv, hg, hd⟩
      obtain ⟨st', h1, h2, h3, h4⟩ := window_spec sqrt cv snapshot.positions j
        (fun t ht => hidx j t hj ht) ha st hd (by rw [hg, List.length_replicate]; exact hn)
      refine ⟨st', h1, ?_, ?_, h4⟩
      · rw [h2, hv, Nat.cast_succ, add_assoc]
      · rw [h3, hg])
    ({ val := cv._val, grad := resetGrad cv._grad snapshot.numAtoms,
       deriv := List.replicate 30 (List.replicate 30 0) }, [])
    ⟨by simp, resetGrad_eq _ _, derivDims_init⟩
  simp only [AlphaRMSDCV.Evaluate, hrun, Option.bind_eq_bind, Option.some_bind]
  simp only at hval hgrad
  rw [hval, hgrad]
  rfl

/-! ## The scenario -/

/-- The constructor returns `scenarioBuilt` for the range `[10, 20]`. -/
theorem scenario_new (K : Type) [Zero K] (extra : Nat) :
    AlphaRMSDCV.new (freshBase K) (12 + extra) [10, 20] "helix.pdb"
      = .built (scenarioBuilt K) := by
  have h := new_nonneg (freshBase K) 10 20 "helix.pdb" (by decide) (by decide) (by decide) extra
  exact h

/-- The scenario has 11 residues, 55 atom indices and 6 windows. -/
theorem scenario_counts (K : Type) [Zero K] [OfScientific K] [Neg K] (first : Nat) :
    (scenarioCV K first)._resids.length = 11 ∧ (scenarioCV K first)._atomids.length = 55 ∧
      resgroups (scenarioCV K first) = 6 ∧ (scenarioCV K first)._refalpha = idealAlpha := by
  have h11 : (inclusiveRange 10 20).length = 11 := by decide
  refine ⟨h11, ?_, ?_, ?_⟩
  · simp only [scenarioCV, AlphaRMSDCV.Initialize, scenarioBuilt, backboneFrom, List.length_map,
      List.length_range, h11]
  · simp only [resgroups, scenarioCV, AlphaRMSDCV.Initialize, scenarioBuilt, h11]
    decide
  · simp only [scenarioCV, AlphaRMSDCV.Initialize, scenarioBuilt, List.nil_append]

/-- Atom index `m` of the scenario is atom `first + m`, at `(first + m, 0, 0)` in
a line snapshot that holds it. -/
theorem scenario_atom (K : Type) [Field K] (first n m : Nat) (hm : m < 55)
    (hn : first + 55 ≤ n) :
    (scenarioCV K first)._atomids[m]? = some ((first + m : Nat) : Int) ∧
      atInt (lineSnapshot K n).positions ((first + m : Nat) : Int)
        = some ⟨((first + m : Nat) : K), 0, 0⟩ := by
  have h11 : (inclusiveRange 10 20).length = 11 := by decide
  constructor
  · simp only [scenarioCV, AlphaRMSDCV.Initialize, scenarioBuilt, backboneFrom, h11,
      List.getElem?_map]
    rw [List.getElem?_range (by omega)]
    rfl
  · unfold atInt
    rw [if_neg (by omega)]
    simp only [lineSnapshot, Int.toNat_ofNat, List.getElem?_map]
    rw [List.getElem?_range (by omega)]
    rfl

/-- Every index of `Evaluate` is inside in the scenario. -/
theorem scenario_inBounds (K : Type) [Field K] (first n : Nat) (hn : first + 55 ≤ n) :
    InBounds (scenarioCV K first) (lineSnapshot K n) := by
  obtain ⟨_, _, hw, href⟩ := scenario_counts K first
  refine ⟨?_, ?_, ?_⟩
  · intro i j hi hj
    rw [hw] at hi
    obtain ⟨h1, h2⟩ := scenario_atom K first n (5 * i + j) (by omega) hn
    exact ⟨_, _, h1, h2⟩
  · rw [href]
    simp only [idealAlpha, List.length_cons, List.length_nil]
    omega
  · show 30 ≤ n
    omega

/-! ## The normalisation of `rmsd` -/

/-- C4 (fails on the code): in the scenario (range `[10, 20]`, atoms `0 .. 54`
on a line, window 0) the quantity `rmsd` that `Evaluate` hands to the
switching function is 0, because `2 / (30 * 29)` is an `int` quotient,
while `2/(30·29)` times the sum of the 435 squared differences of pairwise
distances, the value of the claim, is not 0 there. -/
theorem C4_normalisation_quotient_is_zero :
    ∃ d rx,
      windowRmsd Real.sqrt (scenarioCV ℝ 0) (lineSnapshot ℝ 55).positions 0 []
          (List.replicate 30 (List.replicate 30 0)) = some (0, d, rx) ∧
      specRmsd Real.sqrt rx (scenarioCV ℝ 0)._refalpha ≠ 0 := by
  have hsrc : ∀ j : Nat, j < 30 → ∃ a, (scenarioCV ℝ 0)._atomids[5 * 0 + j]? = some a ∧
      atInt (lineSnapshot ℝ 55).positions a = some (⟨(j : ℝ), 0, 0⟩ : Vector3 ℝ) := by
    intro j hj
    obtain ⟨h1, h2⟩ := scenario_atom ℝ 0 55 (5 * 0 + j) (by omega) (by omega)
    have e : 0 + (5 * 0 + j) = j := by omega
    rw [e] at h1 h2
    exact ⟨_, h1, h2⟩
  obtain ⟨_, _, _, href⟩ := scenario_counts ℝ 0
  have ha : 30 ≤ (scenarioCV ℝ 0)._refalpha.length := (scenario_inBounds ℝ 0 55 (by omega)).2.1
  obtain ⟨r, d, rx, hlen, hget, _, hw, _⟩ := windowRmsd_src Real.sqrt (scenarioCV ℝ 0)
    (lineSnapshot ℝ 55).positions 0 (fun (j : Nat) => ⟨(j : ℝ), 0, 0⟩) hsrc ha []
    (List.replicate 30 (List.replicate 30 0)) derivDims_init
  refine ⟨d, rx, hw, ?_⟩
  rw [href]
  have h0 : rx.getD 0 Vector3.zero = ⟨0, 0, 0⟩ := by
    rw [List.getD_eq_getElem?_getD, hget 0 (by omega)]
    simp
  have h1 : rx.getD 1 Vector3.zero = ⟨1, 0, 0⟩ := by
    rw [List.getD_eq_getElem?_getD, hget 1 (by omega)]
    simp
  have hterm : 0 < pairTerm Real.sqrt rx idealAlpha (0, 1) := by
    unfold pairTerm
    rw [h0, h1]
    apply lt_of_le_of_ne (sq_nonneg _)
    intro h
    have h2 := pow_eq_zero_iff (two_ne_zero) |>.mp h.symm
    have h3 := sub_eq_zero.mp h2
    simp only [idealAlpha, List.getD_cons_zero, List.getD_cons_succ, Vector3.sub,
      Vector3.norm] at h3
    rw [Real.sqrt_inj (by norm_num) (by norm_num)] at h3
    norm_num at h3
  have hmem : pairTerm Real.sqrt rx idealAlpha (0, 1)
      ∈ pairs30.map (pairTerm Real.sqrt rx idealAlpha) :=
    List.mem_map_of_mem _ (by decide)
  have hnn : ∀ x ∈ pairs30.map (pairTerm Real.sqrt rx idealAlpha), 0 ≤ x := by
    intro x hx
    obtain ⟨p, _, rfl⟩ := List.mem_map.mp hx
    exact sq_nonneg _
  have hsum := List.single_le_sum hnn _ hmem
  unfold specRmsd
  apply mul_ne_zero (by norm_num)
  exact ne_of_gt (lt_of_lt_of_le hterm hsum)

/-! ## A window that matches the reference -/

/-- The switching term is continuous at 0, where it takes the value 1. -/
theorem switching_tendsto_one :
    Filter.Tendsto (fun r : ℝ => (1 - (r / 0.1) ^ 8) / (1 - (r / 0.1) ^ 12)) (nhds 0) (nhds 1) := by
  have hc : ContinuousAt (fun r : ℝ => (1 - (r / 0.1) ^ 8) / (1 - (r / 0.1) ^ 12)) 0 := by
    apply ContinuousAt.div
    · fun_prop
    · fun_prop
    · norm_num
  have h := hc.tendsto
  simpa using h

/-- A common translation does not change the difference of two points. -/
theorem sub_add_translate {K : Type} [Field K] (a b t : Vector3 K) :
    (a.add t).sub (b.add t) = a.sub b := by
  apply Vector3.eq_of_components <;> simp only [Vector3.add, Vector3.sub] <;> ring

/-- C5: a window whose 30 atom positions are the 30 reference positions
shifted by one common vector `t`.  The sum of squared distance differences
that the first pair loop accumulates is 0, the `rmsd` that `Evaluate` hands
to the switching function is 0, the pass of the window loop runs to its
end and adds `switching 0 = 1` to the value, and 1 is the limit of
`(1 - (r/0.1)^8) / (1 - (r/0.1)^12)` as `r` tends to 0. -/
theorem C5_translated_reference_window (sqrt : ℝ → ℝ) (cv : AlphaRMSDCV ℝ)
    (pos : List (Vector3 ℝ)) (i : Nat) (t : Vector3 ℝ)
    (st : EvalState ℝ × List (Vector3 ℝ))
    (hwin : ∀ j, j < 30 → ∃ a aj, cv._atomids[5 * i + j]? = some a ∧
      cv._refalpha[j]? = some aj ∧ atInt pos a = some (aj.add t))
    (hm : DerivDims st.1.deriv) (hg : 30 ≤ st.1.grad.length) :
    ∃ d rx st',
      pairLoop sqrt rx cv._refalpha (0, st.1.deriv) = some (0, d) ∧
      windowRmsd sqrt cv pos i st.2 st.1.deriv = some (0, d, rx) ∧
      window sqrt cv pos st i = some st' ∧
      st'.1.val = st.1.val + 1 ∧ switching (0 : ℝ) = 1 ∧
      Filter.Tendsto (fun r : ℝ => (1 - (r / 0.1) ^ 8) / (1 - (r / 0.1) ^ 12))
        (nhds 0) (nhds 1) := by
  have hex : ∀ j : Nat, ∃ aj : Vector3 ℝ, j < 30 →
      cv._refalpha[j]? = some aj ∧
      ∃ a, cv._atomids[5 * i + j]? = some a ∧ atInt pos a = some (aj.add t) := by
    intro j
    by_cases hj : j < 30
    · obtain ⟨a, aj, h1, h2, h3⟩ := hwin j hj
      exact ⟨aj, fun _ => ⟨h2, a, h1, h3⟩⟩
    · exact ⟨Vector3.zero, fun h => absurd h hj⟩
  choose af haf using hex
  have ha : 30 ≤ cv._refalpha.length := by
    have h29 := (haf 29 (by omega)).1
    obtain ⟨hlt, _⟩ := List.getElem?_eq_some.mp h29
    omega
  obtain ⟨r, d, rx, hlen, hget, hp, hw, hd⟩ := windowRmsd_src sqrt cv pos i
    (fun j => (af j).add t) (fun j hj => (haf j hj).2) ha st.2 st.1.deriv hm
  obtain ⟨r2, d2, hp2, hr2, _⟩ := pairLoop_inv sqrt rx cv._refalpha hlen ha (fun r => r = 0)
    (by
      intro j k xj xk aj ak r hjk hk hxj hxk haj hak hr
      rw [hget j (by omega)] at hxj
      rw [hget k hk] at hxk
      rw [(haf j (by omega)).1] at haj
      rw [(haf k hk).1] at hak
      cases hxj
      cases hxk
      cases haj
      cases hak
      rw [sub_add_translate, hr]
      ring)
    0 st.1.deriv rfl hm
  rw [hp] at hp2
  cases hp2
  refine ⟨d, rx, ({ val := st.1.val + 1, grad := st.1.grad, deriv := d }, rx), ?_, hw, ?_, rfl,
    switching_zero, switching_tendsto_one⟩
  · rw [hp, hr2]
  · simp only [window, hw, Option.bind_eq_bind, Option.some_bind, dxgroup_eq_zero,
      gradLoop_zero d hd st.1.grad hg, switching_zero]
    rfl

/-- Every atom of window 0 of the scenario sits at its reference point
shifted by `t` when the positions are `shiftedHelix t`. -/
theorem scenario_shifted (t : Vector3 ℝ) (j : Nat) (hj : j < 30) :
    ∃ a aj, (scenarioCV ℝ 0)._atomids[5 * 0 + j]? = some a ∧
      (scenarioCV ℝ 0)._refalpha[j]? = some aj ∧ atInt (shiftedHelix t) a = some (aj.add t) := by
  have hl : (idealAlpha : List (Vector3 ℝ)).length = 30 := by
    simp only [idealAlpha, List.length_cons, List.length_nil]
  have hj2 : j < (idealAlpha : List (Vector3 ℝ)).length := by omega
  obtain ⟨h1, _⟩ := scenario_atom ℝ 0 55 (5 * 0 + j) (by omega) (by omega)
  refine ⟨_, (idealAlpha : List (Vector3 ℝ))[j], h1, ?_, ?_⟩
  · rw [(scenario_counts ℝ 0).2.2.2]
    exact List.getElem?_eq_getElem hj2
  · unfold atInt
    rw [if_neg (by omega)]
    simp only [shiftedHelix, Int.toNat_ofNat, List.getElem?_map]
    have e : 0 + (5 * 0 + j) = j := by omega
    rw [e, List.getElem?_eq_getElem hj2]
    rfl

/-- Witness of C5: window 0 of the scenario when atom `j` sits at reference
point `j` shifted by `(1, 2, 3)`. -/
theorem C5_translated_reference_window_witness :
    (∀ j, j < 30 → ∃ a aj, (scenarioCV ℝ 0)._atomids[5 * 0 + j]? = some a ∧
      (scenarioCV ℝ 0)._refalpha[j]? = some aj ∧
      atInt (shiftedHelix ⟨1, 2, 3⟩) a = some (aj.add ⟨1, 2, 3⟩)) ∧
    DerivDims (windowStart ℝ).1.deriv ∧ 30 ≤ (windowStart ℝ).1.grad.length ∧
    ∃ d rx st',
      pairLoop Real.sqrt rx (scenarioCV ℝ 0)._refalpha (0, (windowStart ℝ).1.deriv)
        = some (0, d) ∧
      windowRmsd Real.sqrt (scenarioCV ℝ 0) (shiftedHelix ⟨1, 2, 3⟩) 0 (windowStart ℝ).2
        (windowStart ℝ).1.deriv = some (0, d, rx) ∧
      window Real.sqrt (scenarioCV ℝ 0) (shiftedHelix ⟨1, 2, 3⟩) (windowStart ℝ) 0 = some st' ∧
      st'.1.val = (windowStart ℝ).1.val + 1 ∧ switching (0 : ℝ) = 1 ∧
      Filter.Tendsto (fun r : ℝ => (1 - (r / 0.1) ^ 8) / (1 - (r / 0.1) ^ 12))
        (nhds 0) (nhds 1) :=
  ⟨scenario_shifted ⟨1, 2, 3⟩, derivDims_init, le_of_eq (List.length_replicate _ _).symm,
    C5_translated_reference_window Real.sqrt (scenarioCV ℝ 0) (shiftedHelix ⟨1, 2, 3⟩) 0
      ⟨1, 2, 3⟩ (windowStart ℝ) (scenario_shifted ⟨1, 2, 3⟩) derivDims_init
      (le_of_eq (List.length_replicate _ _).symm)⟩

/-! ## Two evaluations in a row -/

/-- Two calls of `Evaluate` in a row on the same snapshot, all indices
inside: both return, the second leaves the gradient buffer of the first,
and the value grows by the number of windows at each call. -/
theorem evaluate_twice {K : Type} [Field K] (sqrt : K → K) (cv : AlphaRMSDCV K)
    (snapshot : Snapshot K) (hb : InBounds cv snapshot) :
    ∃ cv1 cv2, cv.Evaluate sqrt snapshot = some cv1 ∧ cv1.Evaluate sqrt snapshot = some cv2 ∧
      cv1._val = cv._val + (resgroups cv : K) ∧
      cv2._val = cv._val + (resgroups cv : K) + (resgroups cv : K) ∧
      cv2._grad = cv1._grad := by
  have h1 := evaluate_spec sqrt cv snapshot hb
  have h2 := evaluate_spec sqrt
    { cv with _val := cv._val + (resgroups cv : K),
              _grad := List.replicate snapshot.numAtoms Vector3.zero } snapshot hb
  exact ⟨_, _, h1, h2, rfl, rfl, rfl⟩

/-- C6 (fails on the code): in the scenario (range `[10, 20]`, atoms
`0 .. 54` on a line, value 0 before the first call) one call of `Evaluate`
leaves the value 6 and a second call on the same snapshot leaves the value
12: the gradient buffer is reset at each call, the value is not. -/
theorem C6_second_call_adds_to_value :
    ∃ cv1 cv2,
      (scenarioCV ℝ 0).Evaluate Real.sqrt (lineSnapshot ℝ 55) = some cv1 ∧
      cv1.Evaluate Real.sqrt (lineSnapshot ℝ 55) = some cv2 ∧
      cv1._val = 6 ∧ cv2._val = 12 ∧ cv2._val ≠ cv1._val ∧ cv2._grad = cv1._grad := by
  obtain ⟨cv1, cv2, h1, h2, hv1, hv2, hg⟩ := evaluate_twice Real.sqrt (scenarioCV ℝ 0)
    (lineSnapshot ℝ 55) (scenario_inBounds ℝ 0 55 (by omega))
  have hw : resgroups (scenarioCV ℝ 0) = 6 := (scenario_counts ℝ 0).2.2.1
  have hv0 : (scenarioCV ℝ 0)._val = 0 := rfl
  rw [hw, hv0] at hv1 hv2
  have e1 : cv1._val = 6 := by rw [hv1]; norm_num
  have e2 : cv2._val = 12 := by rw [hv2]; norm_num
  refine ⟨cv1, cv2, h1, h2, e1, e2, ?_, hg⟩
  rw [e1, e2]
  norm_num

/-! ## Where the gradient contributions land -/

/-- Every atom index of the scenario with first atom `first` lies in
`first .. first + 54`. -/
theorem scenario_atomids_mem (K : Type) [Field K] (first : Nat) (a : Int)
    (ha : a ∈ (scenarioCV K first)._atomids) :
    (first : Int) ≤ a ∧ a < (first : Int) + 55 := by
  have h11 : (inclusiveRange 10 20).length = 11 := by decide
  simp only [scenarioCV, AlphaRMSDCV.Initialize, scenarioBuilt, backboneFrom, h11,
    List.mem_map, List.mem_range] at ha
  obtain ⟨n, hn, rfl⟩ := ha
  omega

/-- C8 (fails on the code): the scenario with the backbone atoms
`100 .. 154` in a system of 200 atoms.  The pair `(0, 1)` of window 0 is the
pair of the atoms 100 and 101, but the pass of the gradient loop for that
pair changes the entries 0 and 1 of the buffer (by `+x` and `-x`,
`x = dxgrouprmsd * deriv[0][1]`) and leaves the entries 100 and 101 zero;
and for every derivative scalar and every table of factors the whole
gradient loop leaves the entry of every backbone atom zero. -/
theorem C8_contributions_land_on_loop_counters :
    (scenarioCV ℝ 100)._atomids[5 * 0 + 0]? = some 100 ∧
    (scenarioCV ℝ 100)._atomids[5 * 0 + 1]? = some 101 ∧
    (0 : Int) ∉ (scenarioCV ℝ 100)._atomids ∧ (1 : Int) ∉ (scenarioCV ℝ 100)._atomids ∧
    (∀ (dx d : ℝ) (deriv : List (List ℝ)), getEntry deriv 0 1 = some d →
      ∃ g', gradStep dx deriv 0 (List.replicate 200 Vector3.zero) 1 = some g' ∧
        g'[0]? = some ⟨dx * d, dx * d, dx * d⟩ ∧
        g'[1]? = some ⟨-(dx * d), -(dx * d), -(dx * d)⟩ ∧
        g'[100]? = some Vector3.zero ∧ g'[101]? = some Vector3.zero) ∧
    (∀ (dx : ℝ) (deriv : List (List ℝ)), DerivDims deriv →
      ∃ g', gradLoop dx deriv (List.replicate 200 Vector3.zero) = some g' ∧
        ∀ a ∈ (scenarioCV ℝ 100)._atomids, g'[a.toNat]? = some Vector3.zero) := by
  refine ⟨(scenario_atom ℝ 100 200 0 (by omega) (by omega)).1,
    (scenario_atom ℝ 100 200 1 (by omega) (by omega)).1, ?_, ?_, ?_, ?_⟩
  · intro h
    have := scenario_atomids_mem ℝ 100 0 h
    omega
  · intro h
    have := scenario_atomids_mem ℝ 100 1 h
    omega
  · intro dx d deriv hd
    obtain ⟨vj, vk, hvj, hvk, hstep⟩ := gradStep_spec dx deriv 0 1
      (List.replicate 200 (Vector3.zero : Vector3 ℝ)) d hd (by omega)
      (by rw [List.length_replicate]; omega) (by rw [List.length_replicate]; omega)
    rw [List.getElem?_replicate_of_lt (by omega)] at hvj hvk
    cases hvj
    cases hvk
    refine ⟨_, hstep, ?_, ?_, ?_, ?_⟩
    · rw [List.getElem?_set_ne (by omega),
        List.getElem?_set_self (by rw [List.length_replicate]; omega)]
      simp [Vector3.zero]
    · rw [List.getElem?_set_self (by rw [List.length_set, List.length_replicate]; omega)]
      simp [Vector3.zero]
    · rw [List.getElem?_set_ne (by omega), List.getElem?_set_ne (by omega),
        List.getElem?_replicate_of_lt (by omega)]
    · rw [List.getElem?_set_ne (by omega), List.getElem?_set_ne (by omega),
        List.getElem?_replicate_of_lt (by omega)]
  · intro dx deriv hm
    obtain ⟨g', h1, _, _, hfr⟩ := gradLoop_spec dx deriv hm
      (List.replicate 200 (Vector3.zero : Vector3 ℝ)) (by rw [List.length_replicate]; omega)
    refine ⟨g', h1, ?_⟩
    intro a ha
    have hr := scenario_atomids_mem ℝ 100 a ha
    rw [hfr a.toNat (by omega), List.getElem?_replicate_of_lt (by omega)]

/-! ## Serialize -/

/-- The append loop of `Serialize` once the member `residue_ids` exists. -/
theorem serialize_loop (t r : String × JsonValue) (ht : t.1 ≠ "residue_ids")
    (hr : r.1 ≠ "residue_ids") (rs : List Int) (acc : List JsonValue) :
    rs.foldlM (fun j x => JsonValue.appendMember j "residue_ids" (.int x))
        (.object [t, r, ("residue_ids", .array acc)])
      = some (.object [t, r, ("residue_ids", .array (acc ++ rs.map .int))]) := by
  induction rs generalizing acc with
  | nil => simp
  | cons x xs ih =>
    rw [List.foldlM_cons]
    have h1 : JsonValue.appendMember (.object [t, r, ("residue_ids", .array acc)])
        "residue_ids" (.int x)
        = some (.object [t, r, ("residue_ids", .array (acc ++ [.int x]))]) := by
      simp [JsonValue.appendMember, lookupKey, setKey, JsonValue.append, ht, hr]
    rw [h1]
    simp only [Option.bind_eq_bind, Option.some_bind]
    rw [ih]
    simp

/-- The record `Serialize` writes into an empty (null) value. -/
theorem serialize_null {K : Type} (cv : AlphaRMSDCV K) :
    cv.Serialize .null = some (serializedRecord cv._refpdb cv._resids) := by
  unfold AlphaRMSDCV.Serialize serializedRecord
  simp only [JsonValue.assign, Option.bind_eq_bind, Option.some_bind]
  rw [show setKey [("type", JsonValue.str "AlphaRMSD")] "reference" (.str cv._refpdb)
      = [("type", .str "AlphaRMSD"), ("reference", .str cv._refpdb)] by simp [setKey]]
  cases cv._resids with
  | nil => rfl
  | cons x xs =>
    rw [List.foldlM_cons]
    have h1 : JsonValue.appendMember
        (.object [("type", .str "AlphaRMSD"), ("reference", .str cv._refpdb)])
        "residue_ids" (.int x)
        = some (.object [("type", .str "AlphaRMSD"), ("reference", .str cv._refpdb),
            ("residue_ids", .array [.int x])]) := by
      simp [JsonValue.appendMember, lookupKey, setKey, JsonValue.append]
    rw [h1]
    simp only [Option.bind_eq_bind, Option.some_bind]
    rw [serialize_loop _ _ (by simp) (by simp)]
    simp

/-- Reading back the integers of a list of integer items. -/
theorem asIntList_array (rs : List Int) :
    (JsonValue.array (rs.map .int)).asIntList = rs := by
  simp only [JsonValue.asIntList, List.filterMap_map]
  induction rs with
  | nil => rfl
  | cons x xs ih => simp [List.filterMap_cons, ih]

/-- The member `reference` of the record is the path. -/
theorem record_reference (refpdb : String) (resids : List Int) :
    (serializedRecord refpdb resids).member "reference" = .str refpdb := by
  simp [serializedRecord, JsonValue.member, lookupKey]

/-- The member `residue_ids` of the record holds the residues, in order. -/
theorem record_residue_ids (refpdb : String) (resids : List Int) :
    ((serializedRecord refpdb resids).member "residue_ids").asIntList = resids := by
  cases resids with
  | nil => simp [serializedRecord, JsonValue.member, lookupKey, JsonValue.asIntList]
  | cons x xs =>
    simp only [serializedRecord, JsonValue.member, lookupKey]
    rw [if_neg (by decide), if_neg (by decide), if_pos trivial]
    exact asIntList_array (x :: xs)

/-- C9: `Serialize` applied to an empty record (a null value or an object
without members) never fails; the record it leaves has the type tag
`"AlphaRMSD"`, the stored reference path, and under `residue_ids` the
stored residues in their order; it has no other member, and it is the same
for two objects that differ only in value, gradient, atom indices or
reference table. -/
theorem C9_serialize_record {K : Type} (cv : AlphaRMSDCV K) :
    ∃ record, cv.Serialize .null = some record ∧
      cv.Serialize (.object []) = some record ∧
      record.member "type" = .str "AlphaRMSD" ∧
      record.member "reference" = .str cv._refpdb ∧
      (record.member "residue_ids").asIntList = cv._resids ∧
      (cv._resids ≠ [] → record.member "residue_ids" = .array (cv._resids.map .int)) ∧
      (∀ key ∈ record.keys, key = "type" ∨ key = "reference" ∨ key = "residue_ids") ∧
      ∀ other : AlphaRMSDCV K, other._refpdb = cv._refpdb → other._resids = cv._resids →
        other.Serialize .null = some record := by
  refine ⟨_, serialize_null cv, ?_, ?_, record_reference _ _, record_residue_ids _ _, ?_, ?_, ?_⟩
  · rw [← serialize_null cv]
    rfl
  · simp [serializedRecord, JsonValue.member, lookupKey]
  · intro hne
    cases h : cv._resids with
    | nil => exact absurd h hne
    | cons x xs =>
      simp only [serializedRecord, JsonValue.member, lookupKey]
      rw [if_neg (by decide), if_neg (by decide), if_pos trivial]
  · intro key hkey
    cases h : cv._resids with
    | nil =>
      rw [h] at hkey
      simp only [serializedRecord, JsonValue.keys, List.map_cons, List.map_nil, List.mem_cons,
        List.mem_nil_iff, or_false] at hkey
      rcases hkey with h1 | h1
      · exact Or.inl h1
      · exact Or.inr (Or.inl h1)
    | cons x xs =>
      rw [h] at hkey
      simp only [serializedRecord, JsonValue.keys, List.map_cons, List.map_nil, List.mem_cons,
        List.mem_nil_iff, or_false] at hkey
      exact hkey
  · intro other h1 h2
    rw [serialize_null other, h1, h2]

/-! ## Constructing again from the serialized record -/

/-- More fuel does not change the result of a fill loop that ended. -/
theorem fillResids_more_fuel (hi fuel extra i : Nat) (acc rs : List Int)
    (h : fillResids hi fuel i acc = some rs) : fillResids hi (fuel + extra) i acc = some rs := by
  induction fuel generalizing i acc with
  | zero => cases h
  | succ n ih =>
    have e : n + 1 + extra = (n + extra) + 1 := by omega
    rw [e, fillResids]
    rw [fillResids] at h
    by_cases hle : i ≤ hi
    · rw [if_pos hle] at h ⊢
      exact ih _ _ h
    · rw [if_neg hle] at h ⊢
      exact h

/-- A residue list stored by the constructor is empty or has at least
seven entries. -/
theorem new_built_length {K : Type} (base : CollectiveVariable K) (fuel : Nat)
    (resids : List Int) (refpdb : String) (cv : AlphaRMSDCV K)
    (h : AlphaRMSDCV.new base fuel resids refpdb = .built cv) :
    cv._refpdb = refpdb ∧ (cv._resids.length = 0 ∨ 7 ≤ cv._resids.length) := by
  · match resids, h with
    | [r0, r1], h =>
      rw [new_built_iff] at h
      obtain ⟨hlt, h6, rs, hfill, hcv⟩ := h
      subst hcv
      refine ⟨rfl, ?_⟩
      show rs.length = 0 ∨ 7 ≤ rs.length
      by_cases hle : toUnsigned r0 ≤ toUnsigned r1
      · by_cases htop : toUnsigned r1 = 2 ^ 32 - 1
        · rw [htop, fillResids_top fuel (toUnsigned r0) [] (by unfold toUnsigned; omega)] at hfill
          cases hfill
        · have hhi : toUnsigned r1 + 1 < 2 ^ 32 := by
            unfold toUnsigned at htop ⊢
            omega
          have hbig := fillResids_more_fuel _ fuel (toUnsigned r1 + 1 - toUnsigned r0 + 1) _ _ _
            hfill
          have e : fuel + (toUnsigned r1 + 1 - toUnsigned r0 + 1)
              = (toUnsigned r1 + 1 - toUnsigned r0) + 1 + fuel := by omega
          rw [e, fillResids_below (toUnsigned r1) hhi (toUnsigned r1 + 1 - toUnsigned r0)
            (toUnsigned r0) fuel [] (by omega)] at hbig
          cases hbig
          right
          simp only [List.nil_append, List.length_map, List.length_range]
          unfold toUnsigned wrapInt at *
          omega
      · left
        cases fuel with
        | zero => cases hfill
        | succ n =>
          rw [fillResids_above _ n _ [] (by omega)] at hfill
          cases hfill
          rfl
    | [], h => cases h
    | [_], h => cases h
    | _ :: _ :: _ :: _, h => cases h

/-- The record of an object the constructor returned cannot be fed back to
the constructor: its `residue_ids` list is the expanded residue list, which
never has two entries, so the size check reports and calls `exit`. -/
theorem round_trip_rejected {K : Type} (base base' : CollectiveVariable K) (fuel fuel' : Nat)
    (resids : List Int) (refpdb : String) (cv : AlphaRMSDCV K)
    (h : AlphaRMSDCV.new base fuel resids refpdb = .built cv) :
    ∃ record, cv.Serialize .null = some record ∧
      (record.member "reference").asString = refpdb ∧
      (record.member "residue_ids").asIntList = cv._resids ∧
      AlphaRMSDCV.new base' fuel' (record.member "residue_ids").asIntList
        (record.member "reference").asString = .exited msgSize := by
  obtain ⟨hp, hl⟩ := new_built_length base fuel resids refpdb cv h
  refine ⟨_, serialize_null cv, ?_, record_residue_ids _ _, ?_⟩
  · rw [record_reference, ← hp]
    rfl
  · apply new_size
    rw [record_residue_ids]
    omega

/-- C10 (fails on the code): the object constructed from the range
`[10, 20]` and the path `"helix.pdb"` serializes to a record whose
`residue_ids` list is the eleven residues `10 .. 20`; constructing from the
reference path and that list of the record does not return an object: the
constructor reports that the input must hold two residue numbers and calls
`exit`. -/
theorem C10_serialized_list_is_refused :
    ∀ fuel : Nat,
      AlphaRMSDCV.new (freshBase ℝ) 12 [10, 20] "helix.pdb" = .built (scenarioBuilt ℝ) ∧
      ∃ record, (scenarioBuilt ℝ).Serialize .null = some record ∧
        (record.member "reference").asString = "helix.pdb" ∧
        (record.member "residue_ids").asIntList = [10, 11, 12, 13, 14, 15, 16, 17, 18, 19, 20] ∧
        AlphaRMSDCV.new (freshBase ℝ) fuel (record.member "residue_ids").asIntList
          (record.member "reference").asString = .exited msgSize := by
  intro fuel
  have hb := scenario_new ℝ 0
  refine ⟨hb, ?_⟩
  obtain ⟨record, h1, h2, h3, h4⟩ := round_trip_rejected (freshBase ℝ) (freshBase ℝ) 12 fuel
    [10, 20] "helix.pdb" (scenarioBuilt ℝ) hb
  refine ⟨record, h1, h2, ?_, h4⟩
  rw [h3]
  decide

/-! ## The switching step -/

/-- The switching term is the quotient of its dividend and its divisor. -/
theorem switching_eq_quotient {K : Type} [Field K] (rmsd : K) :
    switching rmsd = switchingNumerator rmsd / switchingDenominator rmsd := rfl

/-- The unscaled expression written as one quotient. -/
theorem dxgroupUnscaled_eq (r : ℝ) :
    dxgroupUnscaled r = 8E8 * (5E3 * r ^ 11 + r ^ 7) / (1E8 * r ^ 8 + 1E4 * r ^ 4 + 1) ^ 2 := by
  unfold dxgroupUnscaled dxDivisor
  rw [div_div, sq]

/-- The divisor of the derivative expression is at least 1. -/
theorem one_le_dxDivisor (r : ℝ) : 1 ≤ dxDivisor r := by
  unfold dxDivisor
  have h8 : 0 ≤ r ^ 8 := by positivity
  have h4 : 0 ≤ r ^ 4 := by positivity
  norm_num
  nlinarith

/-- The divisor of the switching term vanishes on `r ≥ 0` only at `r = 0.1`. -/
theorem switchingDenominator_ne_zero (r : ℝ) (h0 : 0 ≤ r) (h1 : r ≠ 0.1) :
    switchingDenominator r ≠ 0 := by
  unfold switchingDenominator
  intro h
  have h2 : (r / 0.1) ^ 12 = 1 := by linarith
  have h3 : r / 0.1 = 1 := by
    rcases (pow_eq_one_iff_of_nonneg (by positivity) (by norm_num)).mp h2 with h4
    exact h4
  apply h1
  field_simp at h3
  linarith

/-- The switching term away from its singular point, with the common factor
`1 - (r/0.1)^4` of dividend and divisor cancelled. -/
theorem switching_closed (r : ℝ) (h0 : 0 ≤ r) (h1 : r ≠ 0.1) :
    switching r = (1 + (r / 0.1) ^ 4) / (1 + (r / 0.1) ^ 4 + (r / 0.1) ^ 8) := by
  have hd := switchingDenominator_ne_zero r h0 h1
  unfold switchingDenominator at hd
  have hpos : 0 < 1 + (r / 0.1) ^ 4 + (r / 0.1) ^ 8 := by positivity
  unfold switching
  rw [div_eq_div_iff hd (ne_of_gt hpos)]
  ring

/-- The derivative of the switching term at `r ≥ 0`, `r ≠ 0.1`, is the
negative of the expression `Evaluate` computes. -/
theorem switching_hasDerivAt (r : ℝ) (h0 : 0 ≤ r) (h1 : r ≠ 0.1) :
    HasDerivAt (fun t : ℝ => switching t) (-dxgroupUnscaled r) r := by
  have hd := switchingDenominator_ne_zero r h0 h1
  unfold switchingDenominator at hd
  have hx : HasDerivAt (fun t : ℝ => t / 0.1) (1 / 0.1) r := (hasDerivAt_id r).div_const 0.1
  have hn : HasDerivAt (fun t : ℝ => 1 - (t / 0.1) ^ 8)
      (-(8 * (r / 0.1) ^ 7 * (1 / 0.1))) r := by
    have := (hx.pow 8).const_sub 1
    simpa using this
  have hm : HasDerivAt (fun t : ℝ => 1 - (t / 0.1) ^ 12)
      (-(12 * (r / 0.1) ^ 11 * (1 / 0.1))) r := by
    have := (hx.pow 12).const_sub 1
    simpa using this
  have hq := hn.div hm hd
  have hD : (1E8 * r ^ 8 + 1E4 * r ^ 4 + 1 : ℝ) ≠ 0 := by
    have := one_le_dxDivisor r
    unfold dxDivisor at this
    linarith
  have e : (-(8 * (r / 0.1) ^ 7 * (1 / 0.1)) * (1 - (r / 0.1) ^ 12)
      - (1 - (r / 0.1) ^ 8) * -(12 * (r / 0.1) ^ 11 * (1 / 0.1))) / (1 - (r / 0.1) ^ 12) ^ 2
      = -dxgroupUnscaled r := by
    rw [dxgroupUnscaled_eq, ← neg_div, div_eq_div_iff (pow_ne_zero 2 hd) (pow_ne_zero 2 hD)]
    norm_num
    ring
  rw [← e]
  exact hq

/-- C11 (fails on the code): at `r = 0.05` the expression `Evaluate` computes
before the pair-count scaling, `8E8 (5E3 r^11 + r^7) / (1E8 r^8 + 1E4 r^4 + 1)^2`,
is positive, while the derivative of the switching function
`(1 - (r/0.1)^8) / (1 - (r/0.1)^12)` there is the negative of that
expression: the expression has the wrong sign and is not the derivative. -/
theorem C11_expression_is_minus_the_derivative :
    HasDerivAt (fun t : ℝ => switching t) (-dxgroupUnscaled (0.05 : ℝ)) 0.05 ∧
    0 < dxgroupUnscaled (0.05 : ℝ) ∧
    ¬ HasDerivAt (fun t : ℝ => switching t) (dxgroupUnscaled (0.05 : ℝ)) 0.05 ∧
    deriv (fun t : ℝ => switching t) 0.05 ≠ dxgroupUnscaled (0.05 : ℝ) := by
  have hder := switching_hasDerivAt 0.05 (by norm_num) (by norm_num)
  have hpos : 0 < dxgroupUnscaled (0.05 : ℝ) := by
    rw [dxgroupUnscaled_eq]
    positivity
  refine ⟨hder, hpos, ?_, ?_⟩
  · intro h
    have := hder.unique h
    linarith
  · rw [hder.deriv]
    linarith

/-! ## Range and shape of the switching term -/

/-- Away from the singular point the switching term lies in `(0, 1]`. -/
theorem switching_range (r : ℝ) (h0 : 0 ≤ r) (h1 : r ≠ 0.1) :
    0 < switching r ∧ switching r ≤ 1 := by
  rw [switching_closed r h0 h1]
  have hu : 0 ≤ (r / 0.1) ^ 4 := by positivity
  have hpos : 0 < 1 + (r / 0.1) ^ 4 + (r / 0.1) ^ 8 := by positivity
  constructor
  · positivity
  · rw [div_le_one hpos]
    have : 0 ≤ (r / 0.1) ^ 8 := by positivity
    linarith

/-- Away from the singular point the switching term does not increase. -/
theorem switching_antitone (r1 r2 : ℝ) (h0 : 0 ≤ r1) (h12 : r1 ≤ r2) (hs1 : r1 ≠ 0.1)
    (hs2 : r2 ≠ 0.1) : switching r2 ≤ switching r1 := by
  rw [switching_closed r1 h0 hs1, switching_closed r2 (le_trans h0 h12) hs2]
  have hx1 : 0 ≤ r1 / 0.1 := by positivity
  have hx12 : r1 / 0.1 ≤ r2 / 0.1 := by
    apply div_le_div_of_nonneg_right h12
    norm_num
  have hu1 : 0 ≤ (r1 / 0.1) ^ 4 := by positivity
  have hu12 : (r1 / 0.1) ^ 4 ≤ (r2 / 0.1) ^ 4 := pow_le_pow_left₀ hx1 hx12 4
  have e1 : (r1 / 0.1) ^ 8 = ((r1 / 0.1) ^ 4) ^ 2 := by ring
  have e2 : (r2 / 0.1) ^ 8 = ((r2 / 0.1) ^ 4) ^ 2 := by ring
  rw [e1, e2]
  generalize (r1 / 0.1) ^ 4 = u at hu1 hu12
  generalize (r2 / 0.1) ^ 4 = v at hu12
  have hv : 0 ≤ v := le_trans hu1 hu12
  rw [div_le_div_iff₀ (by positivity) (by positivity)]
  nlinarith [mul_nonneg (sub_nonneg.2 hu12) (add_nonneg (add_nonneg hu1 hv) (mul_nonneg hu1 hv))]

/-- The switching term tends to 0 as `r` grows. -/
theorem switching_tendsto_zero :
    Filter.Tendsto (fun r : ℝ => switching r) Filter.atTop (nhds 0) := by
  apply squeeze_zero' (g := fun r : ℝ => r⁻¹) _ _ tendsto_inv_atTop_zero
  · filter_upwards [Filter.eventually_ge_atTop (1 : ℝ)] with r hr
    exact le_of_lt (switching_range r (by linarith) (by norm_num; linarith)).1
  · filter_upwards [Filter.eventually_ge_atTop (1 : ℝ)] with r hr
    rw [switching_closed r (by linarith) (by norm_num; linarith)]
    have hx : r ≤ r / 0.1 := by
      rw [le_div_iff₀ (by norm_num)]
      linarith
    have hx1 : 1 ≤ r / 0.1 := le_trans hr hx
    have hx3 : 1 ≤ (r / 0.1) ^ 3 := one_le_pow₀ hx1
    have hu : r ≤ (r / 0.1) ^ 4 := by
      have : (r / 0.1) ^ 4 = (r / 0.1) * (r / 0.1) ^ 3 := by ring
      rw [this]
      nlinarith
    have e : (r / 0.1) ^ 8 = ((r / 0.1) ^ 4) ^ 2 := by ring
    rw [e]
    generalize (r / 0.1) ^ 4 = u at hu
    have hu0 : 0 < u := by linarith
    rw [inv_eq_one_div, div_le_div_iff₀ (by positivity) (by linarith)]
    nlinarith [mul_nonneg (le_of_lt hu0) (sub_nonneg.2 hu)]

/-- Counterexample of C12: at `r = 0.1` dividend and divisor of the
switching term are both 0, so the quotient the code forms there is `0 / 0`
(the `0` of the field convention here), not a value in `(0, 1]`. -/
theorem C12_counterexample_singular_point :
    (0 : ℝ) ≤ 0.1 ∧ switchingNumerator (0.1 : ℝ) = 0 ∧ switchingDenominator (0.1 : ℝ) = 0 ∧
    switching (0.1 : ℝ) = 0 ∧ ¬ (0 < switching (0.1 : ℝ) ∧ switching (0.1 : ℝ) ≤ 1) := by
  have hn : switchingNumerator (0.1 : ℝ) = 0 := by
    unfold switchingNumerator
    norm_num
  have hd : switchingDenominator (0.1 : ℝ) = 0 := by
    unfold switchingDenominator
    norm_num
  have hs : switching (0.1 : ℝ) = 0 := by
    rw [switching_eq_quotient, hn, hd, div_zero]
  refine ⟨by norm_num, hn, hd, hs, ?_⟩
  rw [hs]
  intro h
  exact lt_irrefl 0 h.1

/-- C12 (amended): for `r ≥ 0` other than the singular point `r = 0.1` the
switching term the code forms is a value in `(0, 1]`, equals 1 at `r = 0`,
does not increase from `r1` to `r2 ≥ r1`, is continuous, and tends to 0 as
`r` grows. -/
theorem C12_switching_off_singular_point (r1 r2 : ℝ) (h0 : 0 ≤ r1) (h12 : r1 ≤ r2)
    (hs1 : r1 ≠ 0.1) (hs2 : r2 ≠ 0.1) :
    (0 < switching r1 ∧ switching r1 ≤ 1) ∧ switching (0 : ℝ) = 1 ∧
    switching r2 ≤ switching r1 ∧ ContinuousAt (fun t : ℝ => switching t) r1 ∧
    switchingDenominator r1 ≠ 0 ∧
    Filter.Tendsto (fun r : ℝ => switching r) Filter.atTop (nhds 0) :=
  ⟨switching_range r1 h0 hs1, switching_zero, switching_antitone r1 r2 h0 h12 hs1 hs2,
    (switching_hasDerivAt r1 h0 hs1).continuousAt, switchingDenominator_ne_zero r1 h0 hs1,
    switching_tendsto_zero⟩

/-- Witness of C12 (amended): `r1 = 0.05`, `r2 = 0.2`. -/
theorem C12_switching_off_singular_point_witness :
    (0 : ℝ) ≤ 0.05 ∧ (0.05 : ℝ) ≤ 0.2 ∧ (0.05 : ℝ) ≠ 0.1 ∧ (0.2 : ℝ) ≠ 0.1 ∧
    ((0 < switching (0.05 : ℝ) ∧ switching (0.05 : ℝ) ≤ 1) ∧ switching (0 : ℝ) = 1 ∧
      switching (0.2 : ℝ) ≤ switching (0.05 : ℝ) ∧
      ContinuousAt (fun t : ℝ => switching t) 0.05 ∧ switchingDenominator (0.05 : ℝ) ≠ 0 ∧
      Filter.Tendsto (fun r : ℝ => switching r) Filter.atTop (nhds 0)) :=
  ⟨by norm_num, by norm_num, by norm_num, by norm_num,
    C12_switching_off_singular_point 0.05 0.2 (by norm_num) (by norm_num) (by norm_num)
      (by norm_num)⟩

/-- C13: at `r = 0` the divisor `1 - (r/0.1)^12` of the switching term is 1;
for every real `r` the divisor `1E8 r^8 + 1E4 r^4 + 1`, by which the
derivative expression is divided twice, is at least 1 (so it is never 0);
and the derivative expression is 0 at `r = 0`, before and after the scaling. -/
theorem C13_no_zero_divisor_at_zero :
    switchingDenominator (0 : ℝ) = 1 ∧
    (∀ r : ℝ, 1 ≤ dxDivisor r ∧ dxDivisor r ≠ 0) ∧
    (∀ r : ℝ, dxgroupUnscaled r
      = 8E8 * (5E3 * r ^ 11 + r ^ 7) / dxDivisor r / dxDivisor r) ∧
    dxgroupUnscaled (0 : ℝ) = 0 ∧ dxgroup (0 : ℝ) = 0 ∧ switching (0 : ℝ) = 1 := by
  refine ⟨?_, ?_, fun r => rfl, ?_, dxgroup_eq_zero 0, switching_zero⟩
  · unfold switchingDenominator
    norm_num
  · intro r
    have h := one_le_dxDivisor r
    exact ⟨h, by linarith⟩
  · rw [dxgroupUnscaled_eq]
    norm_num

/-! ## The two pair-count factors -/

/-- C15 (fails on the code): the range `[1, 6]` is ascending and spans the
six residues `1 .. 6`, so a window of six residues fits, but the constructor
compares `resids[1] - resids[0] = 5` with 6, reports that the range must
span at least 6 residues and calls `exit`. -/
theorem C15_six_residues_are_rejected :
    inclusiveRange 1 6 = [1, 2, 3, 4, 5, 6] ∧ ¬ ((6 : Int) - 1 + 1 < 6) ∧
    ∀ (K : Type) (base : CollectiveVariable K) (fuel : Nat) (refpdb : String),
      AlphaRMSDCV.new base fuel [1, 6] refpdb = .exited msgSpan := by
  refine ⟨by decide, by decide, ?_⟩
  intro K base fuel refpdb
  simp only [AlphaRMSDCV.new]
  rw [if_neg (by decide), if_pos (by decide)]

/-! ## Runs of `Evaluate` that return -/

/-- A counting loop `for j < n` that returns: a property that depends on the
counter and that every pass carries over holds at the end. -/
theorem range_foldlM_keeps {σ : Type} (P : Nat → σ → Prop) (f : σ → Nat → Option σ) (n : Nat)
    (h : ∀ j s s', j < n → P j s → f s j = some s' → P (j + 1) s') (s s' : σ) (hs : P 0 s)
    (hr : (List.range n).foldlM f s = some s') : P n s' := by
  induction n generalizing s' with
  | zero =>
    simp only [List.range_zero, List.foldlM_nil, Option.pure_def, Option.some.injEq] at hr
    rw [← hr]
    exact hs
  | succ m ih =>
    rw [List.range_succ, List.foldlM_append] at hr
    simp only [Option.bind_eq_bind, Option.bind_eq_some] at hr
    obtain ⟨s1, h1, h2⟩ := hr
    have hp1 := ih (fun j s s' hj hp hf => h j s s' (by omega) hp hf) s1 h1
    simp only [List.foldlM_cons, List.foldlM_nil, Option.bind_eq_bind, Option.bind_eq_some,
      Option.pure_def, Option.some.injEq] at h2
    obtain ⟨s2, h3, h4⟩ := h2
    rw [← h4]
    exact h m s1 s2 (by omega) hp1 h3

/-- A loop that returns has run every pass: for each element there is a
state with the invariant on which the body returned. -/
theorem foldlM_some_mem {σ α : Type} (P : σ → Prop) (f : σ → α → Option σ) (l : List α)
    (h : ∀ s x s', x ∈ l → P s → f s x = some s' → P s') (s s' : σ) (hs : P s)
    (hr : l.foldlM f s = some s') (x : α) (hx : x ∈ l) :
    ∃ t t', P t ∧ f t x = some t' := by
  induction l generalizing s with
  | nil => cases hx
  | cons a tl ih =>
    rw [List.foldlM_cons] at hr
    simp only [Option.bind_eq_bind, Option.bind_eq_some] at hr
    obtain ⟨s1, h1, h2⟩ := hr
    rcases List.mem_cons.mp hx with hxa | hxt
    · subst hxa
      exact ⟨s, s1, hs, h1⟩
    · exact ih (fun s x s' hx hp hf => h s x s' (List.mem_cons_of_mem a hx) hp hf) s1
        (h s a s1 (List.mem_cons_self a tl) hs h1) h2 hxt

/-- A pass of the gradient loop that returns: the factor `deriv[j][k]` was
read, entry `j` was read and rewritten with `+x`, then entry `k` was read
and rewritten with `-x`. -/
theorem gradStep_some {K : Type} [Add K] [Sub K] [Mul K] (dx : K) (deriv : List (List K)) (j k : Nat)
    (g g' : List (Vector3 K)) (h : gradStep dx deriv j g k = some g') :
    ∃ d vj vk, getEntry deriv j k = some d ∧ g[j]? = some vj ∧
      (g.set j ⟨vj.x + dx * d, vj.y + dx * d, vj.z + dx * d⟩)[k]? = some vk ∧
      g' = (g.set j ⟨vj.x + dx * d, vj.y + dx * d, vj.z + dx * d⟩).set k
             ⟨vk.x - dx * d, vk.y - dx * d, vk.z - dx * d⟩ := by
  simp only [gradStep, Option.bind_eq_bind, Option.bind_eq_some] at h
  obtain ⟨d, hd, g1, h1, h2⟩ := h
  obtain ⟨vj, hvj, e1⟩ := (addAt_eq_some g g1 j (dx * d)).mp h1
  obtain ⟨vk, hvk, e2⟩ := (subAt_eq_some g1 g' k (dx * d)).mp h2
  subst e1
  exact ⟨d, vj, vk, hd, hvj, hvk, e2⟩

/-- A pass of the gradient loop that returns keeps the length of the buffer
and every entry other than `j` and `k`; it needs the entry `k`. -/
theorem gradStep_frame {K : Type} [Add K] [Sub K] [Mul K] (dx : K) (deriv : List (List K)) (j k : Nat)
    (g g' : List (Vector3 K)) (h : gradStep dx deriv j g k = some g') :
    g'.length = g.length ∧ k < g.length ∧ ∀ n, n ≠ j → n ≠ k → g'[n]? = g[n]? := by
  obtain ⟨d, vj, vk, _, _, hvk, e⟩ := gradStep_some dx deriv j k g g' h
  subst e
  refine ⟨by simp only [List.length_set], ?_, ?_⟩
  · obtain ⟨hlt, _⟩ := List.getElem?_eq_some.mp hvk
    simpa only [List.length_set] using hlt
  · intro n hj hk
    rw [List.getElem?_set_ne (Ne.symm hk), List.getElem?_set_ne (Ne.symm hj)]

/-- A gradient loop that returns, for any scalar and any table: the buffer
keeps its length, has at least 30 entries, and every entry of index 30 or
more is as it was. -/
theorem gradLoop_frame {K : Type} [Add K] [Sub K] [Mul K] (dx : K) (deriv : List (List K))
    (g g' : List (Vector3 K)) (h : gradLoop dx deriv g = some g') :
    g'.length = g.length ∧ 30 ≤ g.length ∧ ∀ n, 30 ≤ n → g'[n]? = g[n]? := by
  unfold gradLoop at h
  have hkeep := pairs_keeps
    (fun s : List (Vector3 K) => s.length = g.length ∧ ∀ n, 30 ≤ n → s[n]? = g[n]?)
    (gradStep dx deriv)
    (fun j k s s' hjk hk hs hr => by
      obtain ⟨h1, _, h3⟩ := gradStep_frame dx deriv j k s s' hr
      exact ⟨h1.trans hs.1, fun n hn => (h3 n (by omega) (by omega)).trans (hs.2 n hn)⟩)
    g g' ⟨rfl, fun _ _ => rfl⟩ h
  refine ⟨hkeep.1, ?_, hkeep.2⟩
  obtain ⟨t, t', ht, hin⟩ := foldlM_some_mem (fun s : List (Vector3 K) => s.length = g.length)
    (fun s j => (List.range' (j + 1) (30 - (j + 1))).foldlM (gradStep dx deriv j) s)
    (List.range 30)
    (fun s j s' _ hs hr => foldlM_keeps (fun u : List (Vector3 K) => u.length = g.length)
      (gradStep dx deriv j) _
      (fun u k u' _ hu hstep => (gradStep_frame dx deriv j k u u' hstep).1.trans hu) s s' hs hr)
    g g' rfl h 0 (List.mem_range.mpr (by omega))
  obtain ⟨u, u', hu, hstep⟩ := foldlM_some_mem (fun s : List (Vector3 K) => s.length = g.length)
    (gradStep dx deriv 0) (List.range' (0 + 1) (30 - (0 + 1)))
    (fun u k u' _ hu hstep => (gradStep_frame dx deriv 0 k u u' hstep).1.trans hu)
    t t' ht hin 29 (List.mem_range'_1.mpr (by omega))
  have := (gradStep_frame dx deriv 0 29 u u' hstep).2.1
  omega

/-- A pass of the gradient loop with derivative scalar zero that returns
leaves the buffer as it is. -/
theorem gradStep_zero_some {K : Type} [Field K] (deriv : List (List K)) (j k : Nat)
    (g g' : List (Vector3 K)) (h : gradStep 0 deriv j g k = some g') : g' = g := by
  obtain ⟨d, vj, vk, _, hvj, hvk, e⟩ := gradStep_some 0 deriv j k g g' h
  simp only [zero_mul, add_zero, sub_zero] at hvk e
  rw [set_same g j vj hvj] at hvk e
  rw [e, set_same g k vk hvk]

/-- A gradient loop with derivative scalar zero that returns leaves the
buffer as it is. -/
theorem gradLoop_zero_some {K : Type} [Field K] (deriv : List (List K))
    (g g' : List (Vector3 K)) (h : gradLoop 0 deriv g = some g') : g' = g := by
  unfold gradLoop at h
  exact pairs_keeps (fun s : List (Vector3 K) => s = g) (gradStep 0 deriv)
    (fun j k s s' _ _ hs hr => (gradStep_zero_some deriv j k s s' hr).trans hs) g g' rfl h

/-- A pass of the window loop that returns has added 1 to the value and left
the gradient buffer, which has at least 30 entries, as it was. -/
theorem window_some {K : Type} [Field K] (sqrt : K → K) (cv : AlphaRMSDCV K)
    (pos : List (Vector3 K)) (i : Nat) (st st' : EvalState K × List (Vector3 K))
    (h : window sqrt cv pos st i = some st') :
    st'.1.val = st.1.val + 1 ∧ st'.1.grad = st.1.grad ∧ 30 ≤ st.1.grad.length := by
  simp only [window, windowRmsd, Option.bind_eq_bind, Option.bind_eq_some, Option.pure_def,
    Option.some.injEq] at h
  obtain ⟨⟨r, d, rx⟩, ⟨rx0, _, ⟨r0, d0⟩, _, hr⟩, g', hg, hst⟩ := h
  simp only [Prod.mk.injEq] at hr
  obtain ⟨hr1, _, _⟩ := hr
  rw [normalize_eq_zero] at hr1
  subst hr1
  simp only [dxgroup_eq_zero, switching_zero] at hg hst
  have hgg := gradLoop_zero_some d st.1.grad g' hg
  have hlen := (gradLoop_frame 0 d st.1.grad g' hg).2.1
  rw [← hst]
  exact ⟨rfl, hgg, hlen⟩

/-- Every run of `Evaluate` that returns: the value has grown by the number
of windows and the gradient buffer holds one zero vector per atom; with at
least one window the snapshot has at least 30 atoms. -/
theorem evaluate_some {K : Type} [Field K] (sqrt : K → K) (cv cv' : AlphaRMSDCV K)
    (snapshot : Snapshot K) (h : cv.Evaluate sqrt snapshot = some cv') :
    cv' = { cv with _val := cv._val + (resgroups cv : K),
                    _grad := List.replicate snapshot.numAtoms Vector3.zero } ∧
    (0 < resgroups cv → 30 ≤ snapshot.numAtoms) := by
  simp only [AlphaRMSDCV.Evaluate, Option.bind_eq_bind, Option.bind_eq_some, Option.pure_def,
    Option.some.injEq] at h
  obtain ⟨res, hf, hres⟩ := h
  have hkeep := range_foldlM_keeps
    (fun (j : Nat) (st : EvalState K × List (Vector3 K)) =>
      st.1.val = cv._val + (j : K) ∧
      st.1.grad = List.replicate snapshot.numAtoms Vector3.zero)
    (window sqrt cv snapshot.positions) (resgroups cv)
    (fun j s s' _ hs hr => by
      obtain ⟨h1, h2, _⟩ := window_some sqrt cv snapshot.positions j s s' hr
      exact ⟨by rw [h1, hs.1, Nat.cast_succ, add_assoc], h2.trans hs.2⟩)
    _ res ⟨by simp, resetGrad_eq _ _⟩ hf
  refine ⟨?_, ?_⟩
  · rw [← hres, hkeep.1, hkeep.2]
  · intro hw
    obtain ⟨t, t', ht, hwin⟩ := foldlM_some_mem
      (fun st : EvalState K × List (Vector3 K) =>
        st.1.grad = List.replicate snapshot.numAtoms Vector3.zero)
      (window sqrt cv snapshot.positions) (List.range (resgroups cv))
      (fun s x s' _ hs hr => (window_some sqrt cv snapshot.positions x s s' hr).2.1.trans hs)
      _ res (resetGrad_eq _ _) hf 0 (List.mem_range.mpr hw)
    have := (window_some sqrt cv snapshot.positions 0 t t' hwin).2.2
    rw [ht, List.length_replicate] at this
    exact this

/-! ## Equal components -/

/-- The zero vector has three equal components. -/
theorem equalComponents_zero {K : Type} [Zero K] :
    EqualComponents (Vector3.zero : Vector3 K) := ⟨rfl, rfl⟩

/-- A pass of the gradient loop adds the same scalar to, or takes it from,
the three components of an entry: equal components stay equal. -/
theorem gradStep_equal {K : Type} [Add K] [Sub K] [Mul K] (dx : K) (deriv : List (List K)) (j k : Nat)
    (g g' : List (Vector3 K)) (hg : ∀ v ∈ g, EqualComponents v)
    (h : gradStep dx deriv j g k = some g') : ∀ v ∈ g', EqualComponents v := by
  obtain ⟨d, vj, vk, _, hvj, hvk, e⟩ := gradStep_some dx deriv j k g g' h
  have hj : EqualComponents vj := hg vj (List.getElem?_mem hvj)
  have h1 : ∀ v ∈ g.set j ⟨vj.x + dx * d, vj.y + dx * d, vj.z + dx * d⟩,
      EqualComponents v := by
    intro v hv
    rcases List.mem_or_eq_of_mem_set hv with hv | hv
    · exact hg v hv
    · rw [hv]
      exact ⟨by rw [hj.1], by rw [hj.2]⟩
  have hk : EqualComponents vk := h1 vk (List.getElem?_mem hvk)
  intro v hv
  rw [e] at hv
  rcases List.mem_or_eq_of_mem_set hv with hv | hv
  · exact h1 v hv
  · rw [hv]
    exact ⟨by rw [hk.1], by rw [hk.2]⟩

/-- A gradient loop that returns keeps the components of every entry equal. -/
theorem gradLoop_equal {K : Type} [Add K] [Sub K] [Mul K] (dx : K) (deriv : List (List K))
    (g g' : List (Vector3 K)) (hg : ∀ v ∈ g, EqualComponents v)
    (h : gradLoop dx deriv g = some g') : ∀ v ∈ g', EqualComponents v := by
  unfold gradLoop at h
  exact pairs_keeps (fun s : List (Vector3 K) => ∀ v ∈ s, EqualComponents v) (gradStep dx deriv)
    (fun j k s s' _ _ hs hr => gradStep_equal dx deriv j k s s' hs hr) g g' hg h

/-- A pass of the window loop that returns has run the gradient loop, with
some scalar and some table, on the gradient buffer. -/
theorem window_grad {K : Type} [Zero K] [One K] [Add K] [Sub K] [Mul K] [Div K] [Pow K Nat]
    [OfScientific K] [IntCast K] (sqrt : K → K) (cv : AlphaRMSDCV K)
    (pos : List (Vector3 K)) (i : Nat) (st st' : EvalState K × List (Vector3 K))
    (h : window sqrt cv pos st i = some st') :
    ∃ dx d, gradLoop dx d st.1.grad = some st'.1.grad := by
  simp only [window, Option.bind_eq_bind, Option.bind_eq_some, Option.pure_def,
    Option.some.injEq] at h
  obtain ⟨⟨r, d, rx⟩, _, g', hg, hst⟩ := h
  rw [← hst]
  exact ⟨_, _, hg⟩

/-- Every run of `Evaluate` that returns leaves gradient entries with three
equal components. -/
theorem evaluate_equal {K : Type} [Field K] (sqrt : K → K) (cv cv' : AlphaRMSDCV K)
    (snapshot : Snapshot K) (h : cv.Evaluate sqrt snapshot = some cv') :
    ∀ v ∈ cv'._grad, EqualComponents v := by
  simp only [AlphaRMSDCV.Evaluate, Option.bind_eq_bind, Option.bind_eq_some, Option.pure_def,
    Option.some.injEq] at h
  obtain ⟨res, hf, hres⟩ := h
  have hkeep := foldlM_keeps
    (fun st : EvalState K × List (Vector3 K) => ∀ v ∈ st.1.grad, EqualComponents v)
    (window sqrt cv snapshot.positions) (List.range (resgroups cv))
    (fun s x s' _ hs hr => by
      obtain ⟨dx, d, hg⟩ := window_grad sqrt cv snapshot.positions x s s' hr
      exact gradLoop_equal dx d s.1.grad s'.1.grad hs hg)
    _ res
    (by
      intro v hv
      rw [resetGrad_eq] at hv
      rw [List.eq_of_mem_replicate hv]
      exact equalComponents_zero)
    hf
  rw [← hres]
  exact hkeep

/-- C16: the gradient loop of a window, for every derivative scalar and
table of factors, adds or subtracts each pair's scalar identically in the
three components, so entries with equal components keep equal components;
hence after every call of `Evaluate` that returns every gradient entry has
`x = y = z`, and `Evaluate` returns when its indices are inside. -/
theorem C16_gradient_components_equal {K : Type} [Field K] (dx : K) (deriv : List (List K))
    (g : List (Vector3 K)) (sqrt : K → K) (cv : AlphaRMSDCV K) (snapshot : Snapshot K)
    (hm : DerivDims deriv) (hg : 30 ≤ g.length) (heq : ∀ v ∈ g, EqualComponents v) :
    (∃ g', gradLoop dx deriv g = some g' ∧ ∀ v ∈ g', v.x = v.y ∧ v.y = v.z) ∧
    (∀ cv', cv.Evaluate sqrt snapshot = some cv' → ∀ v ∈ cv'._grad, v.x = v.y ∧ v.y = v.z) ∧
    (InBounds cv snapshot →
      ∃ cv', cv.Evaluate sqrt snapshot = some cv' ∧ ∀ v ∈ cv'._grad, v.x = v.y ∧ v.y = v.z) := by
  obtain ⟨g', h1, _⟩ := gradLoop_spec dx deriv hm g hg
  refine ⟨⟨g', h1, gradLoop_equal dx deriv g g' heq h1⟩,
    fun cv' hE => evaluate_equal sqrt cv cv' snapshot hE, ?_⟩
  intro hb
  have hE := evaluate_spec sqrt cv snapshot hb
  exact ⟨_, hE, evaluate_equal sqrt cv _ snapshot hE⟩

/-- Witness of C16: derivative scalar 2 on the buffer of 30 zero vectors
with the freshly declared table, and the evaluation of the scenario. -/
theorem C16_gradient_components_equal_witness :
    DerivDims (windowStart ℝ).1.deriv ∧ 30 ≤ (windowStart ℝ).1.grad.length ∧
    (∀ v ∈ (windowStart ℝ).1.grad, EqualComponents v) ∧
    InBounds (scenarioCV ℝ 0) (lineSnapshot ℝ 55) ∧
    ((∃ g', gradLoop 2 (windowStart ℝ).1.deriv (windowStart ℝ).1.grad = some g' ∧
        ∀ v ∈ g', v.x = v.y ∧ v.y = v.z) ∧
      (∀ cv', (scenarioCV ℝ 0).Evaluate Real.sqrt (lineSnapshot ℝ 55) = some cv' →
        ∀ v ∈ cv'._grad, v.x = v.y ∧ v.y = v.z) ∧
      (InBounds (scenarioCV ℝ 0) (lineSnapshot ℝ 55) →
        ∃ cv', (scenarioCV ℝ 0).Evaluate Real.sqrt (lineSnapshot ℝ 55) = some cv' ∧
          ∀ v ∈ cv'._grad, v.x = v.y ∧ v.y = v.z)) :=
  ⟨derivDims_init, le_of_eq (List.length_replicate _ _).symm,
    fun v hv => (List.eq_of_mem_replicate hv) ▸ equalComponents_zero,
    scenario_inBounds ℝ 0 55 (by omega),
    C16_gradient_components_equal 2 (windowStart ℝ).1.deriv (windowStart ℝ).1.grad Real.sqrt
      (scenarioCV ℝ 0) (lineSnapshot ℝ 55) derivDims_init
      (le_of_eq (List.length_replicate _ _).symm)
      (fun v hv => (List.eq_of_mem_replicate hv) ▸ equalComponents_zero)⟩

/-! ## Which entries the gradient loop touches -/

/-- A pass of the window loop that returns leaves every gradient entry of
index 30 or more as it was, whatever the window and the atom indices. -/
theorem window_frame {K : Type} [Zero K] [One K] [Add K] [Sub K] [Mul K] [Div K] [Pow K Nat]
    [OfScientific K] [IntCast K] (sqrt : K → K) (cv : AlphaRMSDCV K)
    (pos : List (Vector3 K)) (i : Nat) (st st' : EvalState K × List (Vector3 K))
    (h : window sqrt cv pos st i = some st') :
    ∀ n, 30 ≤ n → st'.1.grad[n]? = st.1.grad[n]? := by
  obtain ⟨dx, d, hg⟩ := window_grad sqrt cv pos i st st' h
  exact (gradLoop_frame dx d st.1.grad st'.1.grad hg).2.2

/-- C19: the gradient loop of a window does not depend on the window number
or on the atom index list; for every derivative scalar `dx` and every table
`deriv` of per-pair factors, on a buffer that holds the indices `0 .. 29` it
runs to its end, keeps the length of the buffer and changes only entries of
index below 30; every gradient loop and every pass of the window loop that
returns leaves the entries of index 30 or more as they were, so after
`Evaluate` they are the zero vector of the reset. -/
theorem C19_gradient_loop_touches_first_thirty {K : Type} [Field K] (dx : K)
    (deriv : List (List K)) (g : List (Vector3 K)) (hm : DerivDims deriv)
    (hg : 30 ≤ g.length) :
    (∃ g', gradLoop dx deriv g = some g' ∧ g'.length = g.length ∧
      ∀ n, 30 ≤ n → g'[n]? = g[n]?) ∧
    (∀ (b b' : List (Vector3 K)), gradLoop dx deriv b = some b' →
      ∀ n, 30 ≤ n → b'[n]? = b[n]?) ∧
    (∀ (sqrt : K → K) (cv : AlphaRMSDCV K) (pos : List (Vector3 K)) (i : Nat)
      (st st' : EvalState K × List (Vector3 K)), window sqrt cv pos st i = some st' →
      ∀ n, 30 ≤ n → st'.1.grad[n]? = st.1.grad[n]?) ∧
    (∀ (sqrt : K → K) (cv cv' : AlphaRMSDCV K) (snapshot : Snapshot K),
      cv.Evaluate sqrt snapshot = some cv' →
      ∀ n, 30 ≤ n → n < snapshot.numAtoms → cv'._grad[n]? = some Vector3.zero) := by
  obtain ⟨g', h1, h2, _, h3⟩ := gradLoop_spec dx deriv hm g hg
  refine ⟨⟨g', h1, h2, h3⟩, fun b b' hb => (gradLoop_frame dx deriv b b' hb).2.2,
    fun sqrt cv pos i st st' hw => window_frame sqrt cv pos i st st' hw, ?_⟩
  intro sqrt cv cv' snapshot hE n _ hn
  rw [(evaluate_some sqrt cv cv' snapshot hE).1]
  exact List.getElem?_replicate_of_lt hn

/-- Witness of C19: derivative scalar 2 and the freshly declared table on a
buffer of 200 zero vectors. -/
theorem C19_gradient_loop_touches_first_thirty_witness :
    DerivDims (windowStart ℝ).1.deriv ∧
    30 ≤ (List.replicate 200 (Vector3.zero : Vector3 ℝ)).length ∧
    ∃ g', gradLoop 2 (windowStart ℝ).1.deriv (List.replicate 200 Vector3.zero) = some g' ∧
      g'.length = (List.replicate 200 (Vector3.zero : Vector3 ℝ)).length ∧
      ∀ n, 30 ≤ n → g'[n]? = (List.replicate 200 (Vector3.zero : Vector3 ℝ))[n]? :=
  ⟨derivDims_init, by rw [List.length_replicate]; omega,
    (C19_gradient_loop_touches_first_thirty 2 (windowStart ℝ).1.deriv
      (List.replicate 200 Vector3.zero) derivDims_init
      (by rw [List.length_replicate]; omega)).1⟩

/-! ## Index accesses -/

/-- An atom index list whose entries lie in `0 .. N - 1` and positions of
length `N`: a position of the list that exists leads to a position. -/
theorem atom_inside {K : Type} (atomids : List Int) (pos : List (Vector3 K)) (N m : Nat)
    (hid : ∀ id ∈ atomids, 0 ≤ id ∧ id < (N : Int)) (hpos : pos.length = N)
    (hm : m < atomids.length) :
    ∃ a p, atomids[m]? = some a ∧ atInt pos a = some p := by
  have ha := hid _ (List.getElem_mem hm)
  have hp : (atomids[m]).toNat < pos.length := by omega
  refine ⟨atomids[m], pos[(atomids[m]).toNat], List.getElem?_eq_getElem hm, ?_⟩
  unfold atInt
  rw [if_neg (by omega)]
  exact List.getElem?_eq_getElem hp

/-- The hypotheses of the index claim together with a snapshot of at least
30 atoms put every index of `Evaluate` inside. -/
theorem inBounds_of_indices {K : Type} (cv : AlphaRMSDCV K) (snapshot : Snapshot K) (n : Nat)
    (hn : cv._resids.length = n) (h5 : 5 ≤ n) (hlt : n < 2 ^ 32 + 5)
    (hlen : cv._atomids.length = 5 * n)
    (hid : ∀ id ∈ cv._atomids, 0 ≤ id ∧ id < (snapshot.numAtoms : Int))
    (hpos : snapshot.positions.length = snapshot.numAtoms) (href : 30 ≤ cv._refalpha.length)
    (hN : 30 ≤ snapshot.numAtoms) : InBounds cv snapshot := by
  refine ⟨?_, href, hN⟩
  intro i j hi hj
  rw [resgroups_of_length cv n hn h5 hlt] at hi
  exact atom_inside cv._atomids snapshot.positions snapshot.numAtoms (5 * i + j) hid hpos
    (by omega)

/-- C20 (fails on the code): the object constructed from the range
`[10, 20]` (11 residues) and initialised once with 55 atom indices that all
lie in `0 .. 19`, evaluated on a snapshot of 20 atoms.  Every hypothesis of
the claim holds, and the accesses to the atom index list, the positions,
the reference table and the table `deriv` are inside, but the gradient loop
indexes the gradient buffer of length 20 with the loop counters up to 29:
`Evaluate` accesses the buffer outside its size (`none` in the embedding). -/
theorem C20_gradient_buffer_is_overrun :
    AlphaRMSDCV.new (freshBase ℝ) 12 [10, 20] "helix.pdb" = .built (scenarioBuilt ℝ) ∧
    crowdedCV ℝ = (scenarioBuilt ℝ).Initialize (backboneModulo 20) ∧
    (crowdedCV ℝ)._resids.length = 11 ∧ (crowdedCV ℝ)._atomids.length = 5 * 11 ∧
    (∀ id ∈ (crowdedCV ℝ)._atomids, 0 ≤ id ∧ id < ((lineSnapshot ℝ 20).numAtoms : Int)) ∧
    (lineSnapshot ℝ 20).numAtoms = 20 ∧ (lineSnapshot ℝ 20).positions.length = 20 ∧
    (crowdedCV ℝ)._refalpha.length = 30 ∧
    (∃ d rx, windowRmsd Real.sqrt (crowdedCV ℝ) (lineSnapshot ℝ 20).positions 0 []
      (List.replicate 30 (List.replicate 30 0)) = some (0, d, rx)) ∧
    (crowdedCV ℝ).Evaluate Real.sqrt (lineSnapshot ℝ 20) = none := by
  have h11 : (inclusiveRange 10 20).length = 11 := by decide
  have hres : (crowdedCV ℝ)._resids.length = 11 := h11
  have hat : (crowdedCV ℝ)._atomids.length = 5 * 11 := by
    simp only [crowdedCV, AlphaRMSDCV.Initialize, scenarioBuilt, backboneModulo, List.length_map,
      List.length_range, h11]
  have hid : ∀ id ∈ (crowdedCV ℝ)._atomids,
      0 ≤ id ∧ id < ((lineSnapshot ℝ 20).numAtoms : Int) := by
    intro id hmem
    simp only [crowdedCV, AlphaRMSDCV.Initialize, scenarioBuilt, backboneModulo, h11,
      List.mem_map, List.mem_range] at hmem
    obtain ⟨m, _, rfl⟩ := hmem
    show (0 : Int) ≤ ((m % 20 : Nat) : Int) ∧ ((m % 20 : Nat) : Int) < ((20 : Nat) : Int)
    omega
  have hposlen : (lineSnapshot ℝ 20).positions.length = 20 := by
    simp only [lineSnapshot, List.length_map, List.length_range]
  have href : (crowdedCV ℝ)._refalpha.length = 30 := by
    simp only [crowdedCV, AlphaRMSDCV.Initialize, scenarioBuilt, List.nil_append, idealAlpha,
      List.length_cons, List.length_nil]
  have hw : resgroups (crowdedCV ℝ) = 6 := by
    rw [resgroups_of_length (crowdedCV ℝ) 11 hres (by omega) (by omega)]
  refine ⟨scenario_new ℝ 0, rfl, hres, hat, hid, rfl, hposlen, href, ?_, ?_⟩
  · have hidx : ∀ j, j < 30 → ∃ a p, (crowdedCV ℝ)._atomids[5 * 0 + j]? = some a ∧
        atInt (lineSnapshot ℝ 20).positions a = some p := by
      intro j hj
      exact atom_inside (crowdedCV ℝ)._atomids (lineSnapshot ℝ 20).positions
        (lineSnapshot ℝ 20).numAtoms (5 * 0 + j) hid hposlen (by omega)
    obtain ⟨d, rx, h, _⟩ := windowRmsd_spec Real.sqrt (crowdedCV ℝ)
      (lineSnapshot ℝ 20).positions 0 hidx (by omega) [] _ derivDims_init
    exact ⟨d, rx, h⟩
  · cases hE : (crowdedCV ℝ).Evaluate Real.sqrt (lineSnapshot ℝ 20) with
    | none => rfl
    | some cv' =>
      have h30 := (evaluate_some Real.sqrt (crowdedCV ℝ) cv' (lineSnapshot ℝ 20) hE).2
        (by rw [hw]; omega)
      have hN : (lineSnapshot ℝ 20).numAtoms = 20 := rfl
      omega

/-! # Doubles: the same embedding over `Dbl` -/

/-! ## Loops with a counter -/

/-- A loop over a list with an invariant that depends on the number of
passes made so far. -/
theorem foldlM_index_inv {σ α : Type} (P : Nat → σ → Prop) (f : σ → α → Option σ)
    (l : List α)
    (h : ∀ t s x, l[t]? = some x → P t s → ∃ s', f s x = some s' ∧ P (t + 1) s')
    (s : σ) (hs : P 0 s) : ∃ s', l.foldlM f s = some s' ∧ P l.length s' := by
  induction l generalizing P s with
  | nil => exact ⟨s, rfl, hs⟩
  | cons a tl ih =>
    obtain ⟨s1, h1, hp1⟩ := h 0 s a (by simp) hs
    obtain ⟨s2, h2, hp2⟩ := ih (fun t s => P (t + 1) s)
      (fun t s x hx hp => h (t + 1) s x (by simpa using hx) hp) s1 hp1
    refine ⟨s2, ?_, hp2⟩
    rw [List.foldlM_cons, h1]
    exact h2

/-- A double loop is the single loop over the list of its pairs. -/
theorem foldlM_flatMap_pairs {σ β γ : Type} (f : β → σ → γ → Option σ) (g : β → List γ)
    (l : List β) (s : σ) :
    (l.flatMap fun j => (g j).map fun k => (j, k)).foldlM (fun s p => f p.1 s p.2) s
      = l.foldlM (fun s j => (g j).foldlM (f j) s) s := by
  induction l generalizing s with
  | nil => rfl
  | cons a tl ih =>
    rw [List.flatMap_cons, List.foldlM_append, List.foldlM_cons, List.foldlM_map]
    cases (g a).foldlM (fun s k => f a s k) s with
    | none => rfl
    | some s1 => exact ih s1

/-- Every pair of `pairs30` is a pair `j < k < 30`. -/
theorem mem_pairs30 (p : Nat × Nat) (h : p ∈ pairs30) : p.1 < p.2 ∧ p.2 < 30 := by
  simp only [pairs30, List.mem_flatMap, List.mem_range, List.mem_map, List.mem_range'_1] at h
  obtain ⟨j, hj, k, hk, rfl⟩ := h
  exact ⟨by omega, by omega⟩

set_option maxRecDepth 100000 in
/-- There are 435 pairs, and the first is `(0, 1)`. -/
theorem pairs30_facts : pairs30.length = 435 ∧ pairs30[0]? = some (0, 1) := by
  decide

/-- The double loop `for j < 30, for j < k < 30` with an invariant that
depends on the number of pairs visited so far. -/
theorem pairs_index_inv {σ : Type} (P : Nat → σ → Prop) (f : Nat → σ → Nat → Option σ)
    (h : ∀ t j k s, pairs30[t]? = some (j, k) → j < k → k < 30 → P t s →
      ∃ s', f j s k = some s' ∧ P (t + 1) s') (s : σ) (hs : P 0 s) :
    ∃ s', (List.range 30).foldlM
        (fun s j => (List.range' (j + 1) (30 - (j + 1))).foldlM (f j) s) s = some s' ∧
      P 435 s' := by
  have hflat := foldlM_flatMap_pairs f (fun j => List.range' (j + 1) (30 - (j + 1)))
    (List.range 30) s
  rw [← hflat]
  have := foldlM_index_inv P (fun s (p : Nat × Nat) => f p.1 s p.2) pairs30
    (fun t s p hp hP => by
      have hm := mem_pairs30 p (List.getElem?_mem hp)
      exact h t p.1 p.2 s hp hm.1 hm.2 hP)
    s hs
  rw [pairs30_facts.1] at this
  exact this

/-! ## Arithmetic of finite doubles -/

/-- The largest finite `double` lies between `1e308` and `1e309`. -/
theorem dblMax_bounds (K : Type) [LinearOrderedField K] :
    (1e308 : K) ≤ dblMax K ∧ dblMax K < 1e309 := by
  unfold dblMax
  constructor <;> norm_num

/-- An exact result within the largest finite `double` is that finite value. -/
theorem ofExact_fin {K : Type} [LinearOrderedField K] (x : K) (h : |x| ≤ 1e308) :
    Dbl.ofExact x = .fin x := by
  have hM := (dblMax_bounds K).1
  have h1 := abs_le.mp h
  unfold Dbl.ofExact
  rw [if_neg (by linarith), if_neg (by linarith)]

/-- An exact result beyond `1e309` is the positive infinity. -/
theorem ofExact_pinf {K : Type} [LinearOrderedField K] (x : K) (h : 1e309 ≤ x) :
    Dbl.ofExact x = .pinf := by
  have hM := (dblMax_bounds K).2
  unfold Dbl.ofExact
  rw [if_pos (by linarith)]

/-- Sum of two finite doubles. -/
theorem fin_add_fin {K : Type} [LinearOrderedField K] (a b : K) :
    (Dbl.fin a + Dbl.fin b : Dbl K) = Dbl.ofExact (a + b) := rfl

/-- Difference of two finite doubles. -/
theorem fin_sub_fin {K : Type} [LinearOrderedField K] (a b : K) :
    (Dbl.fin a - Dbl.fin b : Dbl K) = Dbl.ofExact (a - b) := by
  show Dbl.ofExact (a + -b) = Dbl.ofExact (a - b)
  rw [sub_eq_add_neg]

/-- Product of two finite doubles. -/
theorem fin_mul_fin {K : Type} [LinearOrderedField K] (a b : K) :
    (Dbl.fin a * Dbl.fin b : Dbl K) = Dbl.ofExact (a * b) := rfl

/-- Quotient of two finite doubles. -/
theorem fin_div_fin {K : Type} [LinearOrderedField K] (a b : K) :
    (Dbl.fin a / Dbl.fin b : Dbl K)
      = if b = 0 then Dbl.signedInf a else Dbl.ofExact (a / b) := rfl

/-- Power of a finite double. -/
theorem fin_pow {K : Type} [LinearOrderedField K] (a : K) (n : Nat) :
    (Dbl.fin a ^ n : Dbl K) = Dbl.ofExact (a ^ n) := rfl

/-- The zero and the one of the doubles. -/
theorem dbl_zero_one (K : Type) [LinearOrderedField K] :
    (0 : Dbl K) = .fin 0 ∧ (1 : Dbl K) = .fin 1 := ⟨rfl, rfl⟩

/-- The two `int` quotients converted to `double` are the finite value 0. -/
theorem dbl_int_quotients (K : Type) [LinearOrderedField K] :
    (((2 / (30 * 29) : Int) : Int) : Dbl K) = .fin 0 ∧
    (((4 / (30 * 29) : Int) : Int) : Dbl K) = .fin 0 := by
  have h2 : (2 / (30 * 29) : Int) = 0 := by decide
  have h4 : (4 / (30 * 29) : Int) = 0 := by decide
  rw [h2, h4]
  constructor <;> (show Dbl.fin ((0 : Int) : K) = Dbl.fin 0; rw [Int.cast_zero])

/-- The normalisation of a finite `rmsd` is the finite value 0; of an
infinite `rmsd` it is NaN (`inf * 0`). -/
theorem normalize_dbl {K : Type} [LinearOrderedField K] (r : K) :
    normalize (Dbl.fin r) = (Dbl.fin 0 : Dbl K) ∧ normalize (Dbl.pinf : Dbl K) = Dbl.nan := by
  unfold normalize
  rw [(dbl_int_quotients K).1]
  constructor
  · rw [fin_mul_fin, mul_zero, ofExact_fin]
    rw [abs_zero]
    norm_num
  · show Dbl.signedInf (0 : K) = Dbl.nan
    unfold Dbl.signedInf
    rw [if_neg (lt_irrefl 0), if_neg (lt_irrefl 0)]

/-- The switching term of `rmsd = 0` is the finite value 1; of a NaN it is NaN. -/
theorem switching_dbl (K : Type) [LinearOrderedField K] :
    switching (Dbl.fin 0 : Dbl K) = Dbl.fin 1 ∧ switching (Dbl.nan : Dbl K) = Dbl.nan := by
  constructor
  · unfold switching
    have h01 : (0.1 : Dbl K) = Dbl.fin 0.1 := rfl
    have h1 : (1 : Dbl K) = Dbl.fin 1 := rfl
    have hne : (0.1 : K) ≠ 0 := by norm_num
    have hq : (Dbl.fin 0 / 0.1 : Dbl K) = Dbl.fin 0 := by
      rw [h01, fin_div_fin, if_neg hne, zero_div, ofExact_fin]
      rw [abs_zero]
      norm_num
    have hone : |(1 : K)| ≤ 1e308 := by rw [abs_one]; norm_num
    have hz : |(0 : K)| ≤ 1e308 := by rw [abs_zero]; norm_num
    rw [hq, fin_pow, fin_pow, h1]
    simp only [ne_eq, OfNat.ofNat_ne_zero, not_false_eq_true, zero_pow]
    rw [ofExact_fin 0 hz, fin_sub_fin, sub_zero, ofExact_fin 1 hone, fin_div_fin,
      if_neg one_ne_zero, div_one, ofExact_fin 1 hone]
  · rfl

/-- The scaled derivative expression of `rmsd = 0` is the finite value 0; of
a NaN it is NaN. -/
theorem dxgroup_dbl (K : Type) [LinearOrderedField K] :
    dxgroup (Dbl.fin 0 : Dbl K) = Dbl.fin 0 ∧ dxgroup (Dbl.nan : Dbl K) = Dbl.nan := by
  constructor
  · unfold dxgroup
    have hone : |(1 : K)| ≤ 1e308 := by rw [abs_one]; norm_num
    have hz : |(0 : K)| ≤ 1e308 := by rw [abs_zero]; norm_num
    have e1 : (8E8 : Dbl K) = Dbl.fin 8E8 := rfl
    have e2 : (5E3 : Dbl K) = Dbl.fin 5E3 := rfl
    have e3 : (1E8 : Dbl K) = Dbl.fin 1E8 := rfl
    have e4 : (1E4 : Dbl K) = Dbl.fin 1E4 := rfl
    have e5 : (1 : Dbl K) = Dbl.fin 1 := rfl
    simp only [e1, e2, e3, e4, e5, (dbl_int_quotients K).2, fin_pow, ne_eq,
      OfNat.ofNat_ne_zero, not_false_eq_true, zero_pow, ofExact_fin 0 hz, fin_mul_fin,
      mul_zero, fin_add_fin, add_zero, zero_add, ofExact_fin 1 hone, fin_div_fin,
      one_ne_zero, if_false, zero_div, div_one]
  · rfl

/-! ## Vectors of finite doubles -/

/-- A sum with a NaN on the left is a NaN. -/
theorem nan_add {K : Type} [LinearOrderedField K] (b : Dbl K) : (Dbl.nan + b : Dbl K) = Dbl.nan := by
  cases b <;> rfl

/-- A sum with a NaN on the right is a NaN. -/
theorem add_nan {K : Type} [LinearOrderedField K] (a : Dbl K) : (a + Dbl.nan : Dbl K) = Dbl.nan := by
  cases a <;> rfl

/-- A product with a NaN on the left is a NaN. -/
theorem nan_mul {K : Type} [LinearOrderedField K] (b : Dbl K) : (Dbl.nan * b : Dbl K) = Dbl.nan := by
  cases b <;> rfl

/-- The difference of two vectors whose coordinates are at most `1e100` in
absolute value is computed exactly. -/
theorem sub_toDbl {K : Type} [LinearOrderedField K] (a b : Vector3 K)
    (ha : BoundedVec 1e100 a) (hb : BoundedVec 1e100 b) :
    a.toDbl.sub b.toDbl = (a.sub b).toDbl ∧ BoundedVec 2e100 (a.sub b) := by
  have key : ∀ p q : K, |p| ≤ 1e100 → |q| ≤ 1e100 →
      |p - q| ≤ 2e100 ∧ (Dbl.fin p - Dbl.fin q : Dbl K) = Dbl.fin (p - q) := by
    intro p q hp hq
    have h1 := abs_le.mp hp
    have h2 := abs_le.mp hq
    have h3 : |p - q| ≤ 2e100 := by
      rw [abs_le]
      constructor <;> norm_num at h1 h2 ⊢ <;> linarith
    refine ⟨h3, ?_⟩
    rw [fin_sub_fin, ofExact_fin]
    refine le_trans h3 ?_
    norm_num
  obtain ⟨ax, ay, az⟩ := ha
  obtain ⟨bx, bY, bz⟩ := hb
  refine ⟨?_, (key _ _ ax bx).1, (key _ _ ay bY).1, (key _ _ az bz).1⟩
  simp only [Vector3.sub, Vector3.toDbl, (key _ _ ax bx).2, (key _ _ ay bY).2,
    (key _ _ az bz).2]

/-- A value whose square is at most `y` is at most `y` when `1 ≤ y`. -/
theorem le_of_mul_self_le {K : Type} [LinearOrderedField K] (n y : K)
    (h : n * n ≤ y) (hy : 1 ≤ y) : n ≤ y := by
  by_contra hc
  push_neg at hc
  have h1 : 1 < n := lt_of_le_of_lt hy hc
  have h2 : n * 1 < n * n := by
    apply mul_lt_mul_of_pos_left h1
    linarith
  linarith

/-- The length of a vector whose coordinates are at most `2e100` in absolute
value is computed without overflow: it is the finite square root of the
squared length. -/
theorem norm_toDbl {K : Type} [LinearOrderedField K] (s : K → K) (hs : IsSqrt s)
    (v : Vector3 K) (hv : BoundedVec 2e100 v) :
    v.toDbl.norm (Dbl.sqrt s) = Dbl.fin (v.norm s) ∧ 0 ≤ v.norm s ∧
      v.norm s * v.norm s ≤ 1.2e201 ∧ v.norm s ≤ 1.2e201 ∧
      v.norm s * v.norm s = v.normSq := by
  have sq : ∀ p : K, |p| ≤ 2e100 → 0 ≤ p * p ∧ p * p ≤ 4e200 := by
    intro p hp
    have h1 := abs_le.mp hp
    refine ⟨mul_self_nonneg p, ?_⟩
    have h2 : 0 ≤ (p + 2e100) * (2e100 - p) :=
      mul_nonneg (by linarith [h1.1]) (by linarith [h1.2])
    have h3 : (p + 2e100) * (2e100 - p) = 4e200 - p * p := by
      ring_nf
    rw [h3] at h2
    linarith
  obtain ⟨hx, hy, hz⟩ := hv
  obtain ⟨x0, x1⟩ := sq _ hx
  obtain ⟨y0, y1⟩ := sq _ hy
  obtain ⟨z0, z1⟩ := sq _ hz
  have hsum0 : 0 ≤ v.x * v.x + v.y * v.y + v.z * v.z := by linarith
  have hsum1 : v.x * v.x + v.y * v.y + v.z * v.z ≤ 1.2e201 := by
    norm_num at x1 y1 z1 ⊢
    linarith
  obtain ⟨n0, n1⟩ := hs _ hsum0
  have hn : Vector3.norm s v = s (v.x * v.x + v.y * v.y + v.z * v.z) := rfl
  have hnle : s (v.x * v.x + v.y * v.y + v.z * v.z) ≤ 1.2e201 :=
    le_of_mul_self_le _ _ (by rw [n1]; exact hsum1) (by norm_num)
  rw [hn]
  refine ⟨?_, n0, by rw [n1]; exact hsum1, hnle, n1⟩
  have e1 : ∀ p : K, 0 ≤ p → p ≤ 1.2e201 → Dbl.ofExact p = Dbl.fin p := by
    intro p hp0 hp1
    apply ofExact_fin
    rw [abs_of_nonneg hp0]
    refine le_trans hp1 ?_
    norm_num
  have b1 : v.x * v.x ≤ 1.2e201 := by norm_num at x1 ⊢; linarith
  have b2 : v.y * v.y ≤ 1.2e201 := by norm_num at y1 ⊢; linarith
  have b3 : v.z * v.z ≤ 1.2e201 := by norm_num at z1 ⊢; linarith
  have b4 : v.x * v.x + v.y * v.y ≤ 1.2e201 := by linarith
  simp only [Vector3.norm, Vector3.toDbl, fin_mul_fin, e1 _ x0 b1, e1 _ y0 b2, e1 _ z0 b3,
    fin_add_fin, e1 _ (add_nonneg x0 y0) b4, e1 _ hsum0 hsum1]
  show (if v.x * v.x + v.y * v.y + v.z * v.z < 0 then Dbl.nan
    else Dbl.ofExact (s (v.x * v.x + v.y * v.y + v.z * v.z))) = _
  rw [if_neg (not_lt.mpr hsum0), e1 _ n0 hnle]

/-! ## The first pair loop on bounded positions -/

/-- One pass of the first pair loop over doubles on bounded points: the
lengths, their difference and its square are computed exactly, the running
sum stays finite (below `1e202` times the number of pairs done), and the
table gets the quotient `dist_norm / dist_xyz.norm()`. -/
theorem pairStep_dbl {K : Type} [LinearOrderedField K] (s : K → K) (hs : IsSqrt s)
    (refxyz refalpha : List (Vector3 (Dbl K))) (j k t : Nat) (xj xk aj ak : Vector3 K)
    (hxj : refxyz[j]? = some xj.toDbl) (hxk : refxyz[k]? = some xk.toDbl)
    (haj : refalpha[j]? = some aj.toDbl) (hak : refalpha[k]? = some ak.toDbl)
    (bxj : BoundedVec 1e100 xj) (bxk : BoundedVec 1e100 xk)
    (baj : BoundedVec 1e100 aj) (bak : BoundedVec 1e100 ak)
    (r : K) (d : List (List (Dbl K))) (hd : DerivDims d) (hj : j < 30) (hk : k < 30)
    (hr0 : 0 ≤ r) (hr : r ≤ (t : K) * 1e202) (ht : t < 435) :
    ∃ d', setEntry d j k
          (Dbl.fin ((xj.sub xk).norm s - (aj.sub ak).norm s) / Dbl.fin ((xj.sub xk).norm s))
        = some d' ∧ DerivDims d' ∧
      pairStep (Dbl.sqrt s) refxyz refalpha j (Dbl.fin r, d) k
        = some (Dbl.fin (r + ((xj.sub xk).norm s - (aj.sub ak).norm s)
                  * ((xj.sub xk).norm s - (aj.sub ak).norm s)), d') ∧
      0 ≤ r + ((xj.sub xk).norm s - (aj.sub ak).norm s)
                  * ((xj.sub xk).norm s - (aj.sub ak).norm s) ∧
      r + ((xj.sub xk).norm s - (aj.sub ak).norm s)
                  * ((xj.sub xk).norm s - (aj.sub ak).norm s) ≤ ((t + 1 : Nat) : K) * 1e202 := by
  obtain ⟨ex, bx⟩ := sub_toDbl xj xk bxj bxk
  obtain ⟨ea, ba⟩ := sub_toDbl aj ak baj bak
  obtain ⟨nx, nx0, nxsq, nxle, _⟩ := norm_toDbl s hs _ bx
  obtain ⟨na, na0, nasq, nale, _⟩ := norm_toDbl s hs _ ba
  obtain ⟨d', hset, hd'⟩ := setEntry_of_dims d hd j k hj hk
    (Dbl.fin ((xj.sub xk).norm s - (aj.sub ak).norm s) / Dbl.fin ((xj.sub xk).norm s))
  generalize (xj.sub xk).norm s = n at nx nx0 nxsq nxle hset ⊢
  generalize (aj.sub ak).norm s = ρ at na na0 nasq nale hset ⊢
  have hsq0 : 0 ≤ (n - ρ) * (n - ρ) := mul_self_nonneg _
  have hsq1 : (n - ρ) * (n - ρ) ≤ 1e202 := by
    have h1 : 0 ≤ (n + ρ) * (n + ρ) := mul_self_nonneg _
    have h2 : (n - ρ) * (n - ρ) = 2 * (n * n) + 2 * (ρ * ρ) - (n + ρ) * (n + ρ) := by ring
    rw [h2]
    norm_num at nxsq nasq ⊢
    linarith
  have hdiff : |n - ρ| ≤ 1e308 := by
    rw [abs_le]
    norm_num at nxle nale ⊢
    constructor <;> linarith
  have htK : (t : K) ≤ 434 := by
    have : t ≤ 434 := by omega
    exact_mod_cast this
  have hcast : ((t + 1 : Nat) : K) = (t : K) + 1 := by push_cast; ring
  have hsum1 : r + (n - ρ) * (n - ρ) ≤ ((t + 1 : Nat) : K) * 1e202 := by
    rw [hcast]
    linarith
  have hsumB : |r + (n - ρ) * (n - ρ)| ≤ 1e308 := by
    rw [abs_of_nonneg (by linarith)]
    refine le_trans hsum1 ?_
    rw [hcast]
    have h435 : ((t : K) + 1) * 1e202 ≤ 435 * 1e202 :=
      mul_le_mul_of_nonneg_right (by linarith) (by norm_num)
    refine le_trans h435 ?_
    norm_num
  have hsqB : |(n - ρ) * (n - ρ)| ≤ 1e308 := by
    rw [abs_of_nonneg hsq0]
    refine le_trans hsq1 ?_
    norm_num
  refine ⟨d', hset, hd', ?_, by linarith, hsum1⟩
  simp only [pairStep, hxj, hxk, haj, hak, Option.bind_eq_bind, Option.some_bind, ex, ea, nx,
    na, fin_sub_fin, ofExact_fin _ hdiff, hset, fin_mul_fin, ofExact_fin _ hsqB, fin_add_fin,
    ofExact_fin _ hsumB]
  rfl

/-- The first pair loop over doubles on 30 bounded points `X` against 30
bounded reference points `A`: it runs to its end with a finite sum, and a
property `E` of the table that every assignment
`deriv[j][k] = dist_norm / dist_xyz.norm()` carries over holds at the end. -/
theorem pairLoop_dbl {K : Type} [LinearOrderedField K] (s : K → K) (hs : IsSqrt s)
    (X A : Nat → Vector3 K) (hX : ∀ j, j < 30 → BoundedVec 1e100 (X j))
    (hA : ∀ j, j < 30 → BoundedVec 1e100 (A j))
    (refxyz refalpha : List (Vector3 (Dbl K)))
    (hx : ∀ j, j < 30 → refxyz[j]? = some (X j).toDbl)
    (ha : ∀ j, j < 30 → refalpha[j]? = some (A j).toDbl)
    (E : Nat → List (List (Dbl K)) → Prop)
    (hE : ∀ t j k d d', pairs30[t]? = some (j, k) → j < k → k < 30 → E t d →
      setEntry d j k
          (Dbl.fin (((X j).sub (X k)).norm s - ((A j).sub (A k)).norm s)
            / Dbl.fin (((X j).sub (X k)).norm s)) = some d' → E (t + 1) d')
    (d0 : List (List (Dbl K))) (hd0 : DerivDims d0) (hE0 : E 0 d0) :
    ∃ r d, pairLoop (Dbl.sqrt s) refxyz refalpha (Dbl.fin 0, d0) = some (Dbl.fin r, d) ∧
      DerivDims d ∧ E 435 d := by
  unfold pairLoop
  have hbody : ∀ (t j k : Nat) (st : Dbl K × List (List (Dbl K))), pairs30[t]? = some (j, k) →
      j < k →
      k < 30 →
      (∃ r, st.1 = Dbl.fin r ∧ 0 ≤ r ∧ r ≤ (t : K) * 1e202 ∧ DerivDims st.2 ∧ E t st.2) →
      ∃ st', pairStep (Dbl.sqrt s) refxyz refalpha j st k = some st' ∧
        ∃ r, st'.1 = Dbl.fin r ∧ 0 ≤ r ∧ r ≤ ((t + 1 : Nat) : K) * 1e202 ∧ DerivDims st'.2 ∧
          E (t + 1) st'.2 := by
    rintro t j k ⟨r1, d1⟩ hp hjk hk ⟨r, hr, hr0, hrt, hd, he⟩
    cases hr
    have ht : t < 435 := by
      have := (List.getElem?_eq_some.mp hp).1
      rw [pairs30_facts.1] at this
      exact this
    obtain ⟨d', hset, hd', hstep, h0, h1⟩ := pairStep_dbl s hs refxyz refalpha j k t
      (X j) (X k) (A j) (A k) (hx j (by omega)) (hx k hk) (ha j (by omega)) (ha k hk)
      (hX j (by omega)) (hX k hk) (hA j (by omega)) (hA k hk) r d1 hd (by omega) hk hr0 hrt ht
    exact ⟨_, hstep, _, rfl, h0, h1, hd', hE t j k d1 d' hp hjk hk he hset⟩
  obtain ⟨⟨r', d⟩, hrun, ⟨r, hr, _, _, hd, he⟩⟩ := pairs_index_inv
    (fun t (st : Dbl K × List (List (Dbl K))) =>
      ∃ r, st.1 = Dbl.fin r ∧ 0 ≤ r ∧ r ≤ (t : K) * 1e202 ∧ DerivDims st.2 ∧ E t st.2)
    (pairStep (Dbl.sqrt s) refxyz refalpha) hbody (Dbl.fin 0, d0)
    ⟨0, rfl, le_refl 0, by simp, hd0, hE0⟩
  cases hr
  exact ⟨r, d, hrun, hd, he⟩

/-! ## The gradient loop over doubles -/

/-- The gradient loop of a window on a buffer of at least 30 entries runs
to its end and keeps the length of the buffer, whatever the values are. -/
theorem gradLoop_total {K : Type} [Add K] [Sub K] [Mul K] (dx : K) (deriv : List (List K))
    (hm : DerivDims deriv) (g : List (Vector3 K)) (hg : 30 ≤ g.length) :
    ∃ g', gradLoop dx deriv g = some g' ∧ g'.length = g.length := by
  unfold gradLoop
  refine pairs_inv (fun s : List (Vector3 K) => s.length = g.length) (gradStep dx deriv) ?_ g rfl
  intro j k s hjk hk hlen
  obtain ⟨d, hd⟩ := getEntry_of_dims deriv hm.1 hm.2 j k (by omega) hk
  obtain ⟨vj, vk, _, _, hstep⟩ :=
    gradStep_spec dx deriv j k s d hd (by omega) (by omega) (by omega)
  refine ⟨_, hstep, ?_⟩
  simp only [List.length_set, hlen]

/-- With the finite derivative scalar 0 and finite per-pair factors, the
gradient loop over doubles leaves a buffer of zero vectors as it is. -/
theorem gradLoop_dbl_zero {K : Type} [LinearOrderedField K] (deriv : List (List (Dbl K)))
    (hfin : ∀ j k, j < k → k < 30 → ∃ e, getEntry deriv j k = some (Dbl.fin e))
    (n : Nat) (hn : 30 ≤ n) :
    gradLoop (Dbl.fin 0) deriv (List.replicate n (Vector3.zero : Vector3 (Dbl K)))
      = some (List.replicate n Vector3.zero) := by
  unfold gradLoop
  have hz : |(0 : K)| ≤ 1e308 := by rw [abs_zero]; norm_num
  have hbody : ∀ j k (s : List (Vector3 (Dbl K))), j < k → k < 30 →
      s = List.replicate n Vector3.zero →
      ∃ s', gradStep (Dbl.fin 0) deriv j s k = some s' ∧ s' = List.replicate n Vector3.zero := by
    rintro j k s hjk hk rfl
    obtain ⟨e, hd⟩ := hfin j k hjk hk
    obtain ⟨vj, vk, hvj, hvk, hstep⟩ :=
      gradStep_spec (Dbl.fin 0) deriv j k (List.replicate n Vector3.zero) (Dbl.fin e) hd (by omega)
        (by rw [List.length_replicate]; omega) (by rw [List.length_replicate]; omega)
    refine ⟨_, hstep, ?_⟩
    have hj' : vj = Vector3.zero := by
      rw [List.getElem?_replicate_of_lt (show j < n by omega)] at hvj
      exact (Option.some.inj hvj).symm
    have hk' : vk = Vector3.zero := by
      rw [List.getElem?_replicate_of_lt (show k < n by omega)] at hvk
      exact (Option.some.inj hvk).symm
    have h0 : (Dbl.fin 0 * Dbl.fin e : Dbl K) = Dbl.fin 0 := by
      rw [fin_mul_fin, zero_mul, ofExact_fin 0 hz]
    have h1 : (Dbl.fin 0 + Dbl.fin 0 : Dbl K) = Dbl.fin 0 := by
      rw [fin_add_fin, add_zero, ofExact_fin 0 hz]
    have h2 : (Dbl.fin 0 - Dbl.fin 0 : Dbl K) = Dbl.fin 0 := by
      rw [fin_sub_fin, sub_zero, ofExact_fin 0 hz]
    have hzero : (Vector3.zero : Vector3 (Dbl K)) = ⟨Dbl.fin 0, Dbl.fin 0, Dbl.fin 0⟩ := rfl
    subst hj'
    subst hk'
    simp only [h0, hzero, h1, h2]
    rw [← hzero, set_same _ j _ hvj, set_same _ k _ hvk]
  obtain ⟨g', h, hp⟩ := pairs_inv
    (fun s : List (Vector3 (Dbl K)) => s = List.replicate n Vector3.zero)
    (gradStep (Dbl.fin 0) deriv) hbody _ rfl
  rw [h, hp]

/-- One pass of the gradient loop over doubles for a pair `j < k`: it runs,
keeps the length, keeps a NaN vector at entry 0, and puts a NaN vector there
when `j = 0` and the contribution `dxgrouprmsd * deriv[j][k]` is a NaN. -/
theorem gradStep_nan {K : Type} [LinearOrderedField K] (dx : Dbl K)
    (deriv : List (List (Dbl K))) (hm : DerivDims deriv) (j k : Nat) (hjk : j < k)
    (hk : k < 30) (s : List (Vector3 (Dbl K))) (hs : 30 ≤ s.length) :
    ∃ s' e, getEntry deriv j k = some e ∧ gradStep dx deriv j s k = some s' ∧
      s'.length = s.length ∧
      (s[0]? = some Vector3.nan → s'[0]? = some Vector3.nan) ∧
      (j = 0 → dx * e = Dbl.nan → s'[0]? = some Vector3.nan) := by
  obtain ⟨e, hd⟩ := getEntry_of_dims deriv hm.1 hm.2 j k (by omega) hk
  obtain ⟨vj, vk, hvj, hvk, hstep⟩ :=
    gradStep_spec dx deriv j k s e hd (by omega) (by omega) (by omega)
  refine ⟨_, e, hd, hstep, by simp only [List.length_set], ?_, ?_⟩
  · intro h0
    rw [List.getElem?_set_ne (by omega)]
    by_cases hj : j = 0
    · subst hj
      rw [List.getElem?_set_self (by omega)]
      rw [h0] at hvj
      cases hvj
      simp only [Vector3.nan, nan_add]
    · rw [List.getElem?_set_ne (by omega)]
      exact h0
  · intro hj hx
    subst hj
    rw [List.getElem?_set_ne (by omega), List.getElem?_set_self (by omega), hx]
    simp only [Vector3.nan, add_nan]

/-- When the contribution of the first pair `(0, 1)` is a NaN, the gradient
loop over doubles leaves a NaN vector at entry 0. -/
theorem gradLoop_nan_lands {K : Type} [LinearOrderedField K] (dx : Dbl K)
    (deriv : List (List (Dbl K))) (hm : DerivDims deriv) (g : List (Vector3 (Dbl K)))
    (hg : 30 ≤ g.length)
    (hx : ∀ e, getEntry deriv 0 1 = some e → dx * e = Dbl.nan) :
    ∃ g', gradLoop dx deriv g = some g' ∧ g'.length = g.length ∧
      g'[0]? = some Vector3.nan := by
  unfold gradLoop
  obtain ⟨g', hrun, hlen, hnan⟩ := pairs_index_inv
    (fun t (s : List (Vector3 (Dbl K))) =>
      s.length = g.length ∧ (0 < t → s[0]? = some Vector3.nan))
    (gradStep dx deriv)
    (by
      rintro t j k s hp hjk hk ⟨hlen, hnan⟩
      obtain ⟨s', e, hd, hstep, hl, hkeep, hland⟩ :=
        gradStep_nan dx deriv hm j k hjk hk s (by omega)
      refine ⟨s', hstep, by rw [hl, hlen], fun _ => ?_⟩
      by_cases ht : t = 0
      · subst ht
        rw [pairs30_facts.2] at hp
        cases hp
        exact hland rfl (hx e hd)
      · exact hkeep (hnan (by omega)))
    g ⟨rfl, fun h => absurd h (lt_irrefl 0)⟩
  exact ⟨g', hrun, hlen, hnan (by norm_num)⟩

/-- Reading a list of finite positions converted to doubles. -/
theorem atInt_map {α β : Type} (f : α → β) (l : List α) (a : Int) :
    atInt (l.map f) a = (atInt l a).map f := by
  unfold atInt
  by_cases h : a < 0
  · rw [if_pos h, if_pos h]
    rfl
  · rw [if_neg h, if_neg h, List.getElem?_map]

/-- A position read through `atInt` is an entry of the list. -/
theorem atInt_mem {α : Type} (l : List α) (a : Int) (p : α) (h : atInt l a = some p) :
    p ∈ l := by
  unfold atInt at h
  by_cases ha : a < 0
  · rw [if_pos ha] at h
    cases h
  · rw [if_neg ha] at h
    exact List.mem_iff_getElem?.mpr ⟨_, h⟩

/-- The method `Evaluate` as a loop with an invariant: when every pass of the
window loop runs under the invariant `P` and carries it over, `Evaluate`
returns the value and the gradient of a state with `P` after the last
window. -/
theorem evaluate_inv {K : Type} [Zero K] [One K] [Add K] [Sub K] [Mul K] [Div K] [Pow K Nat]
    [OfScientific K] [IntCast K] (sqrt : K → K) (cv : AlphaRMSDCV K) (snapshot : Snapshot K)
    (P : Nat → EvalState K × List (Vector3 K) → Prop)
    (h0 : P 0 ({ val := cv._val, grad := resetGrad cv._grad snapshot.numAtoms,
                 deriv := List.replicate 30 (List.replicate 30 0) }, []))
    (hstep : ∀ i st, i < resgroups cv → P i st →
      ∃ st', window sqrt cv snapshot.positions st i = some st' ∧ P (i + 1) st') :
    ∃ st, P (resgroups cv) st ∧
      cv.Evaluate sqrt snapshot = some { cv with _val := st.1.val, _grad := st.1.grad } := by
  obtain ⟨st, hrun, hp⟩ := range_foldlM_inv P (window sqrt cv snapshot.positions)
    (resgroups cv) hstep _ h0
  refine ⟨st, hp, ?_⟩
  simp only [AlphaRMSDCV.Evaluate, hrun, Option.bind_eq_bind, Option.some_bind]
  rfl

/-- One pass of the window loop over doubles on bounded positions `X`
against bounded reference points `A`: the pass runs to its end, the
normalised `rmsd` is the finite value 0, the finite value 1 is added to the
value, and the gradient loop runs with the derivative scalar 0 on the table
the first pair loop leaves. -/
theorem window_dbl {K : Type} [LinearOrderedField K] (s : K → K) (hs : IsSqrt s)
    (cv : AlphaRMSDCV (Dbl K)) (pos : List (Vector3 (Dbl K))) (i : Nat)
    (X A : Nat → Vector3 K) (hX : ∀ j, j < 30 → BoundedVec 1e100 (X j))
    (hA : ∀ j, j < 30 → BoundedVec 1e100 (A j))
    (hsrc : ∀ j, j < 30 →
      ∃ a, cv._atomids[5 * i + j]? = some a ∧ atInt pos a = some (X j).toDbl)
    (href : ∀ j, j < 30 → cv._refalpha[j]? = some (A j).toDbl)
    (E : Nat → List (List (Dbl K)) → Prop)
    (hE : ∀ t j k d d', pairs30[t]? = some (j, k) → j < k → k < 30 → E t d →
      setEntry d j k
          (Dbl.fin (((X j).sub (X k)).norm s - ((A j).sub (A k)).norm s)
            / Dbl.fin (((X j).sub (X k)).norm s)) = some d' → E (t + 1) d')
    (st : EvalState (Dbl K) × List (Vector3 (Dbl K))) (hm : DerivDims st.1.deriv)
    (hE0 : E 0 st.1.deriv) (hg : 30 ≤ st.1.grad.length) :
    ∃ st', window (Dbl.sqrt s) cv pos st i = some st' ∧ st'.1.val = st.1.val + Dbl.fin 1 ∧
      DerivDims st'.1.deriv ∧ E 435 st'.1.deriv ∧
      gradLoop (Dbl.fin 0) st'.1.deriv st.1.grad = some st'.1.grad ∧
      st'.1.grad.length = st.1.grad.length := by
  obtain ⟨r', hgather, _, hget⟩ := gather_spec cv._atomids pos i (fun j => (X j).toDbl) hsrc
    (resetRefxyz st.2) (length_resetRefxyz st.2)
  obtain ⟨r, d, hp, hd, he⟩ := pairLoop_dbl s hs X A hX hA r' cv._refalpha hget href E hE
    st.1.deriv hm hE0
  obtain ⟨g', hgl, hlen⟩ := gradLoop_total (Dbl.fin 0 : Dbl K) d hd st.1.grad hg
  have hp' : pairLoop (Dbl.sqrt s) r' cv._refalpha (0, st.1.deriv) = some (Dbl.fin r, d) := hp
  refine ⟨({ val := st.1.val + Dbl.fin 1, grad := g', deriv := d }, r'), ?_, rfl, hd, he, hgl,
    hlen⟩
  have hw : windowRmsd (Dbl.sqrt s) cv pos i st.2 st.1.deriv = some (Dbl.fin 0, d, r') := by
    simp only [windowRmsd, hgather, hp', Option.bind_eq_bind, Option.some_bind,
      (normalize_dbl r).1]
    rfl
  simp only [window, hw, Option.bind_eq_bind, Option.some_bind, (switching_dbl K).1,
    (dxgroup_dbl K).1, hgl]
  rfl

/-- Reading the table after the assignment `deriv[j][k] = v`. -/
theorem getEntry_setEntry {K : Type} (m m' : List (List K)) (j k j' k' : Nat) (v : K)
    (h : setEntry m j k v = some m') :
    getEntry m' j' k' = if j' = j ∧ k' = k then some v else getEntry m j' k' := by
  unfold setEntry at h
  cases hrow : m[j]? with
  | none => rw [hrow] at h; cases h
  | some row =>
    rw [hrow] at h
    simp only [] at h
    by_cases hk : k < row.length
    · rw [if_pos hk] at h
      cases h
      have hj : j < m.length := (List.getElem?_eq_some.mp hrow).1
      unfold getEntry
      by_cases e1 : j' = j
      · subst e1
        rw [List.getElem?_set_self hj, hrow]
        simp only []
        by_cases e2 : k' = k
        · subst e2
          rw [List.getElem?_set_self hk]
          simp only [and_self, if_true]
        · rw [List.getElem?_set_ne (fun h => e2 h.symm), if_neg (fun h => e2 h.2)]
      · rw [List.getElem?_set_ne (fun h => e1 h.symm), if_neg (fun h => e1 h.1)]
    · rw [if_neg hk] at h
      cases h

/-- Every source position of a window exists as a finite position when the
indices of `Evaluate` are inside for the snapshot of doubles. -/
theorem finite_sources {K : Type} [LinearOrderedField K] (cv : AlphaRMSDCV (Dbl K)) (snapshot : Snapshot K)
    (hb : InBounds cv snapshot.toDbl) :
    ∃ X : Nat → Nat → Vector3 K, ∀ i j, i < resgroups cv → j < 30 →
      ∃ a, cv._atomids[5 * i + j]? = some a ∧ atInt snapshot.positions a = some (X i j) := by
  have h : ∀ i j : Nat, ∃ q : Vector3 K, i < resgroups cv → j < 30 →
      ∃ a, cv._atomids[5 * i + j]? = some a ∧ atInt snapshot.positions a = some q := by
    intro i j
    by_cases hi : i < resgroups cv
    · by_cases hj : j < 30
      · obtain ⟨a, p, h1, h2⟩ := hb.1 i j hi hj
        have h3 : atInt (snapshot.positions.map Vector3.toDbl) a = some p := h2
        rw [atInt_map] at h3
        cases hq : atInt snapshot.positions a with
        | none => rw [hq] at h3; cases h3
        | some q => exact ⟨q, fun _ _ => ⟨a, h1, hq⟩⟩
      · exact ⟨Vector3.zero, fun _ h => absurd h hj⟩
    · exact ⟨Vector3.zero, fun h _ => absurd h hi⟩
  choose X hX using h
  exact ⟨X, hX⟩

/-- The quotient `dist_norm / dist_xyz.norm()` is finite when the distance
is at least `1e-100` and the reference distance at most `1.2e201`. -/
theorem quotient_fin {K : Type} [LinearOrderedField K] (n ρ : K) (hn : 1e-100 ≤ n)
    (hρ0 : 0 ≤ ρ) (hρ : ρ ≤ 1.2e201) :
    (Dbl.fin (n - ρ) / Dbl.fin n : Dbl K) = Dbl.fin ((n - ρ) / n) := by
  have hpos : (0 : K) < n := lt_of_lt_of_le (by norm_num) hn
  rw [fin_div_fin, if_neg (ne_of_gt hpos), ofExact_fin]
  rw [abs_div, abs_of_pos hpos, div_le_iff₀ hpos]
  have h1 : (1e308 - 1) * 1e-100 ≤ (1e308 - 1) * n :=
    mul_le_mul_of_nonneg_left hn (by norm_num)
  have h2 : (1.2e201 : K) ≤ (1e308 - 1) * 1e-100 := by norm_num
  rw [abs_le]
  constructor <;> linarith

/-- A length whose square is at least `δ²` is at least `δ`. -/
theorem le_of_mul_self_ge {K : Type} [LinearOrderedField K] (δ n : K) (hn : 0 ≤ n)
    (h : δ * δ ≤ n * n) : δ ≤ n := by
  by_contra hc
  push_neg at hc
  have := mul_self_lt_mul_self hn hc
  linarith

/-- The method `Evaluate` over doubles on bounded positions `X i j` (window
`i`, point `j`) against bounded reference points `A`: it returns; from a
finite stored value `v` with `v` plus the number of windows in range the
value has grown by the number of windows; and a property `G` of the gradient
buffer that every gradient loop with derivative scalar 0 carries over holds
at the end; `E` is a property of the table `deriv` that the assignments of
the first pair loop carry over. -/
theorem evaluate_dbl {K : Type} [LinearOrderedField K] (s : K → K) (hs : IsSqrt s)
    (cv : AlphaRMSDCV (Dbl K)) (snapshot : Snapshot (Dbl K))
    (X : Nat → Nat → Vector3 K) (A : Nat → Vector3 K)
    (hX : ∀ i j, i < resgroups cv → j < 30 → BoundedVec 1e100 (X i j))
    (hA : ∀ j, j < 30 → BoundedVec 1e100 (A j))
    (hsrc : ∀ i j, i < resgroups cv → j < 30 →
      ∃ a, cv._atomids[5 * i + j]? = some a ∧ atInt snapshot.positions a = some (X i j).toDbl)
    (href : ∀ j, j < 30 → cv._refalpha[j]? = some (A j).toDbl)
    (hN : 30 ≤ snapshot.numAtoms)
    (E : Nat → List (List (Dbl K)) → Prop) (G : Nat → List (Vector3 (Dbl K)) → Prop)
    (hE : ∀ i t j k d d', i < resgroups cv → pairs30[t]? = some (j, k) → j < k → k < 30 →
      E t d →
      setEntry d j k
          (Dbl.fin (((X i j).sub (X i k)).norm s - ((A j).sub (A k)).norm s)
            / Dbl.fin (((X i j).sub (X i k)).norm s)) = some d' → E (t + 1) d')
    (hE0 : E 0 (List.replicate 30 (List.replicate 30 0)))
    (hE1 : ∀ d, E 435 d → E 0 d)
    (hG0 : G 0 (resetGrad cv._grad snapshot.numAtoms))
    (hG : ∀ i d g g', i < resgroups cv → DerivDims d → E 435 d → G i g → 30 ≤ g.length →
      gradLoop (Dbl.fin 0) d g = some g' → G (i + 1) g') :
    ∃ cv', cv.Evaluate (Dbl.sqrt s) snapshot = some cv' ∧
      (∀ v : K, cv._val = Dbl.fin v → |v| + (resgroups cv : K) ≤ 1e308 →
        cv'._val = Dbl.fin (v + (resgroups cv : K))) ∧
      cv'._grad.length = snapshot.numAtoms ∧ G (resgroups cv) cv'._grad := by
  obtain ⟨st, ⟨h1, _, _, h4, h5⟩, hrun⟩ := evaluate_inv (Dbl.sqrt s) cv snapshot
    (fun i st =>
      (∀ v : K, cv._val = Dbl.fin v → |v| + (resgroups cv : K) ≤ 1e308 →
        st.1.val = Dbl.fin (v + (i : K))) ∧ DerivDims st.1.deriv ∧ E 0 st.1.deriv ∧
      st.1.grad.length = snapshot.numAtoms ∧ G i st.1.grad)
    ⟨fun v hv _ => by rw [hv]; simp, derivDims_init, hE0,
      by rw [resetGrad_eq, List.length_replicate], hG0⟩
    (by
      rintro i st hi ⟨hval, hd, he, hlen, hg⟩
      have hiK : (i : K) + 1 ≤ (resgroups cv : K) := by
        have : i + 1 ≤ resgroups cv := hi
        exact_mod_cast this
      have hi0 : (0 : K) ≤ (i : K) := Nat.cast_nonneg i
      obtain ⟨st', hw, hv', hd', he', hgl, hl'⟩ := window_dbl s hs cv snapshot.positions i
        (X i) A (fun j hj => hX i j hi hj) hA (fun j hj => hsrc i j hi hj) href E
        (fun t j k d d' hp hjk hk he hset => hE i t j k d d' hi hp hjk hk he hset)
        st hd he (by omega)
      refine ⟨st', hw, ?_, hd', hE1 _ he', by rw [hl', hlen], ?_⟩
      · intro v hv hrange
        have hb : |v + (i : K) + 1| ≤ 1e308 := by
          have h1 := abs_add (v + (i : K)) 1
          have h2 := abs_add v (i : K)
          rw [abs_of_nonneg hi0] at h2
          rw [abs_one] at h1
          linarith
        rw [hv', hval v hv hrange, fin_add_fin, ofExact_fin _ hb, Nat.cast_succ, add_assoc]
      · exact hG i _ _ _ hi hd' he' hg (by omega) hgl)
  exact ⟨_, hrun, h1, h4, h5⟩

/-- An entry of the table `deriv` as `Evaluate` declares it is 0. -/
theorem getEntry_init {K : Type} [Zero K] (j k : Nat) (hj : j < 30) (hk : k < 30) :
    getEntry (List.replicate 30 (List.replicate 30 (0 : K))) j k = some 0 := by
  unfold getEntry
  rw [List.getElem?_replicate_of_lt hj]
  exact List.getElem?_replicate_of_lt hk

/-- The method `Evaluate` over doubles on a snapshot of finite positions
whose coordinates are at most `1e100` in absolute value, with a bounded
reference table: it returns; from a finite stored value `v` with `v` plus the
number of windows in range the value has grown by the number of windows;
when any two atoms of a window are at least `1e-100` apart, the gradient
buffer holds zero vectors only. -/
theorem evaluate_bounded {K : Type} [LinearOrderedField K] (s : K → K) (hs : IsSqrt s)
    (cv : AlphaRMSDCV (Dbl K)) (snapshot : Snapshot K) (ref : List (Vector3 K))
    (hb : InBounds cv snapshot.toDbl) (href : cv._refalpha = ref.map Vector3.toDbl)
    (hrefB : ∀ a ∈ ref, BoundedVec 1e100 a)
    (hposB : ∀ p ∈ snapshot.positions, BoundedVec 1e100 p) :
    ∃ cv', cv.Evaluate (Dbl.sqrt s) snapshot.toDbl = some cv' ∧
      (∀ v : K, cv._val = Dbl.fin v → |v| + (resgroups cv : K) ≤ 1e308 →
        cv'._val = Dbl.fin (v + (resgroups cv : K))) ∧
      cv'._grad.length = snapshot.numAtoms ∧
      (Apart 1e-100 cv._atomids (resgroups cv) snapshot.positions →
        cv'._grad = List.replicate snapshot.numAtoms Vector3.zero) := by
  obtain ⟨X, hX⟩ := finite_sources cv snapshot hb
  have hlen : 30 ≤ ref.length := by
    have := hb.2.1
    rw [href, List.length_map] at this
    exact this
  have hA : ∀ j : Nat, ∃ a : Vector3 K, j < 30 → ref[j]? = some a ∧ BoundedVec 1e100 a := by
    intro j
    by_cases hj : j < 30
    · have hj2 : j < ref.length := by omega
      exact ⟨ref[j], fun _ => ⟨List.getElem?_eq_getElem hj2, hrefB _ (List.getElem_mem hj2)⟩⟩
    · exact ⟨Vector3.zero, fun h => absurd h hj⟩
  choose A hA using hA
  have hXB : ∀ i j, i < resgroups cv → j < 30 → BoundedVec 1e100 (X i j) := by
    intro i j hi hj
    obtain ⟨a, _, h2⟩ := hX i j hi hj
    exact hposB _ (atInt_mem _ _ _ h2)
  have hsrc : ∀ i j, i < resgroups cv → j < 30 →
      ∃ a, cv._atomids[5 * i + j]? = some a ∧
        atInt snapshot.toDbl.positions a = some (X i j).toDbl := by
    intro i j hi hj
    obtain ⟨a, h1, h2⟩ := hX i j hi hj
    refine ⟨a, h1, ?_⟩
    show atInt (snapshot.positions.map Vector3.toDbl) a = _
    rw [atInt_map, h2]
    rfl
  have hrefj : ∀ j, j < 30 → cv._refalpha[j]? = some (A j).toDbl := by
    intro j hj
    rw [href, List.getElem?_map, (hA j hj).1]
    rfl
  obtain ⟨cv', hrun, hval, hlen', hgrad⟩ := evaluate_dbl s hs cv snapshot.toDbl X A hXB
    (fun j hj => (hA j hj).2) hsrc hrefj hb.2.2
    (fun _ d => Apart 1e-100 cv._atomids (resgroups cv) snapshot.positions →
      ∀ j k, j < k → k < 30 → ∃ e, getEntry d j k = some (Dbl.fin e))
    (fun _ g => Apart 1e-100 cv._atomids (resgroups cv) snapshot.positions →
      g = List.replicate snapshot.numAtoms Vector3.zero)
    (by
      intro i t j k d d' hi _ hjk hk he hset hap j' k' hjk' hk'
      rw [getEntry_setEntry d d' j k j' k' _ hset]
      by_cases hc : j' = j ∧ k' = k
      · rw [if_pos hc]
        obtain ⟨aj, haj, hpj⟩ := hX i j hi (by omega)
        obtain ⟨ak, hak, hpk⟩ := hX i k hi hk
        have hsep := hap i j k aj ak _ _ hi hjk hk haj hak hpj hpk
        obtain ⟨_, bx⟩ := sub_toDbl (X i j) (X i k) (hXB i j hi (by omega)) (hXB i k hi hk)
        obtain ⟨_, ba⟩ := sub_toDbl (A j) (A k) (hA j (by omega)).2 (hA k hk).2
        obtain ⟨_, n0, _, _, nsq⟩ := norm_toDbl s hs _ bx
        obtain ⟨_, r0, _, rle, _⟩ := norm_toDbl s hs _ ba
        rw [← nsq] at hsep
        exact ⟨_, by rw [quotient_fin _ _ (le_of_mul_self_ge _ _ n0 hsep) r0 rle]⟩
      · rw [if_neg hc]
        exact he hap j' k' hjk' hk')
    (fun _ j k hjk hk => ⟨0, getEntry_init j k (by omega) hk⟩)
    (fun d h => h)
    (fun _ => resetGrad_eq _ _)
    (by
      intro i d g g' _ _ he hg _ hgl hap
      have hN : 30 ≤ snapshot.numAtoms := hb.2.2
      rw [hg hap, gradLoop_dbl_zero d (he hap) snapshot.numAtoms hN] at hgl
      exact (Option.some.inj hgl).symm)
  exact ⟨cv', hrun, hval, hlen', hgrad⟩

/-! ## The scenario over doubles -/

/-- The reference helix in doubles is the reference helix, each coordinate a
finite double. -/
theorem idealAlpha_dbl (K : Type) [LinearOrderedField K] :
    (idealAlpha : List (Vector3 (Dbl K))) = (idealAlpha : List (Vector3 K)).map Vector3.toDbl := by
  simp only [idealAlpha, List.map_cons, List.map_nil, Vector3.toDbl]
  rfl

/-- Every coordinate of the reference helix is at most `1e100` in absolute value. -/
theorem idealAlpha_bounded (K : Type) [LinearOrderedField K] :
    ∀ a ∈ (idealAlpha : List (Vector3 K)), BoundedVec 1e100 a := by
  intro a ha
  simp only [idealAlpha, List.mem_cons, List.mem_singleton, List.not_mem_nil, or_false] at ha
  rcases ha with h | h | h | h | h | h | h | h | h | h | h | h | h | h | h | h | h | h | h | h |
    h | h | h | h | h | h | h | h | h | h <;>
  · rw [h]
    refine ⟨?_, ?_, ?_⟩ <;>
    · rw [abs_le]
      constructor <;> norm_num

/-- Atom index `m` of the scenario is atom `first + m`. -/
theorem scenario_atomids (K : Type) [Zero K] [OfScientific K] [Neg K] (first m : Nat)
    (hm : m < 55) : (scenarioCV K first)._atomids[m]? = some ((first + m : Nat) : Int) := by
  have h11 : (inclusiveRange 10 20).length = 11 := by decide
  simp only [scenarioCV, AlphaRMSDCV.Initialize, scenarioBuilt, backboneFrom, h11,
    List.getElem?_map]
  rw [List.getElem?_range (by omega)]
  rfl

/-- Atom `m` of a snapshot whose positions are listed by `f`. -/
theorem atInt_range {α : Type} (f : Nat → α) (n m : Nat) (hm : m < n) :
    atInt ((List.range n).map f) ((m : Nat) : Int) = some (f m) := by
  unfold atInt
  rw [if_neg (by omega)]
  simp only [Int.toNat_ofNat, List.getElem?_map]
  rw [List.getElem?_range hm]
  rfl

/-- Every index of `Evaluate` is inside for the scenario over doubles with
the atoms `0 .. 54` on a snapshot of 55 finite positions listed by `f`. -/
theorem scenario_dbl_inBounds (K : Type) [LinearOrderedField K] (f : Nat → Vector3 K) :
    InBounds (scenarioCV (Dbl K) 0)
      (Snapshot.toDbl { positions := (List.range 55).map f, numAtoms := 55 }) := by
  obtain ⟨_, _, hw, href⟩ := scenario_counts (Dbl K) 0
  refine ⟨?_, ?_, ?_⟩
  · intro i j hi hj
    rw [hw] at hi
    refine ⟨_, (f (0 + (5 * i + j))).toDbl,
      scenario_atomids (Dbl K) 0 (5 * i + j) (by omega), ?_⟩
    show atInt (((List.range 55).map f).map Vector3.toDbl) _ = _
    rw [List.map_map]
    exact atInt_range (Vector3.toDbl ∘ f) 55 (0 + (5 * i + j)) (by omega)
  · rw [href]
    simp only [idealAlpha, List.length_cons, List.length_nil]
    omega
  · show 30 ≤ 55
    omega

/-- The square root of the reals as a square root of the finite values. -/
theorem isSqrt_real : IsSqrt Real.sqrt :=
  fun y hy => ⟨Real.sqrt_nonneg y, Real.mul_self_sqrt hy⟩

/-- Point `j` of the reference table of the scenario over doubles is point
`j` of the reference helix, a finite and bounded vector. -/
theorem scenario_ref (K : Type) [LinearOrderedField K] (first j : Nat) (hj : j < 30) :
    (scenarioCV (Dbl K) first)._refalpha[j]?
        = some ((idealAlpha : List (Vector3 K)).getD j Vector3.zero).toDbl ∧
      BoundedVec 1e100 ((idealAlpha : List (Vector3 K)).getD j Vector3.zero) := by
  have hlen : (idealAlpha : List (Vector3 K)).length = 30 := by
    simp only [idealAlpha, List.length_cons, List.length_nil]
  have hj2 : j < (idealAlpha : List (Vector3 K)).length := by omega
  have hget : (idealAlpha : List (Vector3 K)).getD j Vector3.zero
      = (idealAlpha : List (Vector3 K))[j] := by
    rw [List.getD_eq_getElem?_getD, List.getElem?_eq_getElem hj2]
    rfl
  rw [hget]
  refine ⟨?_, idealAlpha_bounded K _ (List.getElem_mem hj2)⟩
  rw [(scenario_counts (Dbl K) first).2.2.2, idealAlpha_dbl, List.getElem?_map,
    List.getElem?_eq_getElem hj2]
  rfl

/-! ## Positions far apart -/

/-- One pass of the first pair loop over doubles for two points on the
first axis so far apart that the square of their distance overflows: the
length is the positive infinity, and so is the running sum. -/
theorem pairStep_far {K : Type} [LinearOrderedField K] (s : K → K) (hs : IsSqrt s)
    (refxyz refalpha : List (Vector3 (Dbl K))) (j k : Nat) (cj ck : K) (aj ak : Vector3 K)
    (hxj : refxyz[j]? = some (Vector3.toDbl ⟨cj, 0, 0⟩))
    (hxk : refxyz[k]? = some (Vector3.toDbl ⟨ck, 0, 0⟩))
    (haj : refalpha[j]? = some aj.toDbl) (hak : refalpha[k]? = some ak.toDbl)
    (baj : BoundedVec 1e100 aj) (bak : BoundedVec 1e100 ak)
    (hc : |cj - ck| ≤ 1e308) (hfar : 1e309 ≤ (cj - ck) * (cj - ck))
    (r : Dbl K) (hr : r = Dbl.pinf ∨ ∃ x, r = Dbl.fin x)
    (d : List (List (Dbl K))) (hd : DerivDims d) (hj : j < 30) (hk : k < 30) :
    ∃ d', pairStep (Dbl.sqrt s) refxyz refalpha j (r, d) k = some (Dbl.pinf, d') ∧
      DerivDims d' := by
  have hz : |(0 : K)| ≤ 1e308 := by rw [abs_zero]; norm_num
  obtain ⟨ea, ba⟩ := sub_toDbl aj ak baj bak
  obtain ⟨na, _⟩ := norm_toDbl s hs _ ba
  have hsub : (Vector3.toDbl ⟨cj, 0, 0⟩ : Vector3 (Dbl K)).sub (Vector3.toDbl ⟨ck, 0, 0⟩)
      = ⟨Dbl.fin (cj - ck), Dbl.fin 0, Dbl.fin 0⟩ := by
    simp only [Vector3.sub, Vector3.toDbl, fin_sub_fin, sub_zero, ofExact_fin 0 hz,
      ofExact_fin _ hc]
  have hnorm : Vector3.norm (Dbl.sqrt s)
      (⟨Dbl.fin (cj - ck), Dbl.fin 0, Dbl.fin 0⟩ : Vector3 (Dbl K)) = Dbl.pinf := by
    simp only [Vector3.norm, fin_mul_fin, mul_zero, ofExact_fin 0 hz, ofExact_pinf _ hfar]
    rfl
  obtain ⟨d', hset, hd'⟩ := setEntry_of_dims d hd j k hj hk
    ((Dbl.pinf - Dbl.fin ((aj.sub ak).norm s)) / Dbl.pinf : Dbl K)
  refine ⟨d', ?_, hd'⟩
  have hsum : r + (Dbl.pinf - Dbl.fin ((aj.sub ak).norm s))
      * (Dbl.pinf - Dbl.fin ((aj.sub ak).norm s)) = Dbl.pinf := by
    rcases hr with h | ⟨x, h⟩ <;> rw [h] <;> rfl
  simp only [pairStep, hxj, hxk, haj, hak, Option.bind_eq_bind, Option.some_bind, hsub, hnorm,
    ea, na, hset, hsum]
  rfl

/-- The first pair loop over doubles on 30 points `(c j, 0, 0)` any two of
which are so far apart that the square of their distance overflows: it runs
to its end and the sum is the positive infinity. -/
theorem pairLoop_far {K : Type} [LinearOrderedField K] (s : K → K) (hs : IsSqrt s)
    (c : Nat → K) (A : Nat → Vector3 K) (hA : ∀ j, j < 30 → BoundedVec 1e100 (A j))
    (hc : ∀ j k, j < k → k < 30 →
      |c j - c k| ≤ 1e308 ∧ 1e309 ≤ (c j - c k) * (c j - c k))
    (refxyz refalpha : List (Vector3 (Dbl K)))
    (hx : ∀ j, j < 30 → refxyz[j]? = some (Vector3.toDbl ⟨c j, 0, 0⟩))
    (ha : ∀ j, j < 30 → refalpha[j]? = some (A j).toDbl)
    (d0 : List (List (Dbl K))) (hd0 : DerivDims d0) :
    ∃ d, pairLoop (Dbl.sqrt s) refxyz refalpha (Dbl.fin 0, d0) = some (Dbl.pinf, d) ∧
      DerivDims d := by
  unfold pairLoop
  have hbody : ∀ (t j k : Nat) (st : Dbl K × List (List (Dbl K))), pairs30[t]? = some (j, k) →
      j < k → k < 30 →
      (DerivDims st.2 ∧ (st.1 = Dbl.pinf ∨ ∃ x, st.1 = Dbl.fin x) ∧ (0 < t → st.1 = Dbl.pinf)) →
      ∃ st', pairStep (Dbl.sqrt s) refxyz refalpha j st k = some st' ∧
        (DerivDims st'.2 ∧ (st'.1 = Dbl.pinf ∨ ∃ x, st'.1 = Dbl.fin x) ∧
          (0 < t + 1 → st'.1 = Dbl.pinf)) := by
    rintro t j k ⟨r, d⟩ _ hjk hk ⟨hd, hr, _⟩
    obtain ⟨d', hstep, hd'⟩ := pairStep_far s hs refxyz refalpha j k (c j) (c k) (A j) (A k)
      (hx j (by omega)) (hx k hk) (ha j (by omega)) (ha k hk) (hA j (by omega)) (hA k hk)
      (hc j k hjk hk).1 (hc j k hjk hk).2 r hr d hd (by omega) hk
    exact ⟨_, hstep, hd', Or.inl rfl, fun _ => rfl⟩
  obtain ⟨⟨r, d⟩, hrun, hd, _, hinf⟩ := pairs_index_inv
    (fun t (st : Dbl K × List (List (Dbl K))) =>
      DerivDims st.2 ∧ (st.1 = Dbl.pinf ∨ ∃ x, st.1 = Dbl.fin x) ∧ (0 < t → st.1 = Dbl.pinf))
    (pairStep (Dbl.sqrt s) refxyz refalpha) hbody (Dbl.fin 0, d0)
    ⟨hd0, Or.inr ⟨0, rfl⟩, fun h => absurd h (lt_irrefl 0)⟩
  have hr : r = Dbl.pinf := hinf (by norm_num)
  subst hr
  exact ⟨d, hrun, hd⟩

/-- One pass of the window loop over doubles on a window whose 30 points
`(c j, 0, 0)` are so far apart that the squares of their distances overflow:
the pass runs to its end, the value becomes a NaN (`inf * 0`), and entry 0 of
the gradient buffer becomes a NaN vector. -/
theorem window_far {K : Type} [LinearOrderedField K] (s : K → K) (hs : IsSqrt s)
    (cv : AlphaRMSDCV (Dbl K)) (pos : List (Vector3 (Dbl K))) (i : Nat)
    (c : Nat → K) (A : Nat → Vector3 K) (hA : ∀ j, j < 30 → BoundedVec 1e100 (A j))
    (hc : ∀ j k, j < k → k < 30 →
      |c j - c k| ≤ 1e308 ∧ 1e309 ≤ (c j - c k) * (c j - c k))
    (hsrc : ∀ j, j < 30 →
      ∃ a, cv._atomids[5 * i + j]? = some a ∧ atInt pos a = some (Vector3.toDbl ⟨c j, 0, 0⟩))
    (href : ∀ j, j < 30 → cv._refalpha[j]? = some (A j).toDbl)
    (st : EvalState (Dbl K) × List (Vector3 (Dbl K))) (hm : DerivDims st.1.deriv)
    (hg : 30 ≤ st.1.grad.length) :
    ∃ st', window (Dbl.sqrt s) cv pos st i = some st' ∧ st'.1.val = Dbl.nan ∧
      st'.1.grad[0]? = some Vector3.nan ∧ DerivDims st'.1.deriv ∧
      st'.1.grad.length = st.1.grad.length := by
  obtain ⟨r', hgather, _, hget⟩ := gather_spec cv._atomids pos i
    (fun j => Vector3.toDbl ⟨c j, 0, 0⟩) hsrc (resetRefxyz st.2) (length_resetRefxyz st.2)
  obtain ⟨d, hp, hd⟩ := pairLoop_far s hs c A hA hc r' cv._refalpha hget href st.1.deriv hm
  obtain ⟨g', hgl, hlen, hnan⟩ := gradLoop_nan_lands (Dbl.nan : Dbl K) d hd st.1.grad hg
    (fun e _ => nan_mul e)
  have hp' : pairLoop (Dbl.sqrt s) r' cv._refalpha (0, st.1.deriv) = some (Dbl.pinf, d) := hp
  have hw : windowRmsd (Dbl.sqrt s) cv pos i st.2 st.1.deriv = some (Dbl.nan, d, r') := by
    simp only [windowRmsd, hgather, hp', Option.bind_eq_bind, Option.some_bind,
      (normalize_dbl (0 : K)).2]
    rfl
  refine ⟨({ val := Dbl.nan, grad := g', deriv := d }, r'), ?_, rfl, hnan, hd, hlen⟩
  simp only [window, hw, Option.bind_eq_bind, Option.some_bind, (switching_dbl K).2,
    (dxgroup_dbl K).2, hgl, add_nan]
  rfl

/-- Two atoms of a window of the far snapshot: their first coordinates
differ by at most `1e308` and the square of the difference overflows. -/
theorem far_gap {K : Type} [LinearOrderedField K] (m j k : Nat) (hjk : j < k) (hk : k < 30) :
    |((m + j : Nat) : K) * 1e200 - ((m + k : Nat) : K) * 1e200| ≤ 1e308 ∧
      1e309 ≤ (((m + j : Nat) : K) * 1e200 - ((m + k : Nat) : K) * 1e200)
        * (((m + j : Nat) : K) * 1e200 - ((m + k : Nat) : K) * 1e200) := by
  have hcast : ((m + k : Nat) : K) = ((m + j : Nat) : K) + ((k - j : Nat) : K) := by
    have : m + k = (m + j) + (k - j) := by omega
    rw [this]
    push_cast
    ring
  have h1 : (1 : K) ≤ ((k - j : Nat) : K) := by
    have : 1 ≤ k - j := by omega
    exact_mod_cast this
  have h29 : ((k - j : Nat) : K) ≤ 29 := by
    have : k - j ≤ 29 := by omega
    exact_mod_cast this
  rw [hcast]
  generalize ((k - j : Nat) : K) = d at h1 h29
  generalize ((m + j : Nat) : K) = b
  have e : b * 1e200 - (b + d) * 1e200 = -(d * 1e200) := by ring
  rw [e]
  constructor
  · rw [abs_neg, abs_of_nonneg (by positivity)]
    have : d * 1e200 ≤ 29 * 1e200 := mul_le_mul_of_nonneg_right h29 (by norm_num)
    refine le_trans this ?_
    norm_num
  · have h2 : 1 ≤ d * d := by nlinarith
    have h3 : -(d * 1e200) * -(d * 1e200) = (d * d) * 1e400 := by
      rw [neg_mul_neg]
      have : (1e400 : K) = 1e200 * 1e200 := by norm_num
      rw [this]
      ring
    rw [h3]
    have : (1 : K) * 1e400 ≤ (d * d) * 1e400 := mul_le_mul_of_nonneg_right h2 (by norm_num)
    refine le_trans ?_ this
    norm_num

/-- The scenario over doubles evaluated on the far snapshot: `Evaluate`
returns, the stored value is a NaN and entry 0 of the gradient buffer is a
NaN vector. -/
theorem evaluate_far (K : Type) [LinearOrderedField K] (s : K → K) (hs : IsSqrt s) :
    ∃ cv', (scenarioCV (Dbl K) 0).Evaluate (Dbl.sqrt s) (farSnapshot K).toDbl = some cv' ∧
      cv'._val = Dbl.nan ∧ cv'._grad[0]? = some Vector3.nan ∧ cv'._grad.length = 55 := by
  obtain ⟨_, _, hw, _⟩ := scenario_counts (Dbl K) 0
  obtain ⟨st, ⟨_, hlen, hnan⟩, hrun⟩ := evaluate_inv (Dbl.sqrt s) (scenarioCV (Dbl K) 0)
    (farSnapshot K).toDbl
    (fun i st => DerivDims st.1.deriv ∧ st.1.grad.length = 55 ∧
      (0 < i → st.1.val = Dbl.nan ∧ st.1.grad[0]? = some Vector3.nan))
    ⟨derivDims_init, by rw [resetGrad_eq, List.length_replicate]; rfl,
      fun h => absurd h (lt_irrefl 0)⟩
    (by
      rintro i st hi ⟨hd, hlen, _⟩
      rw [hw] at hi
      obtain ⟨st', hrun, hval, hg0, hd', hl'⟩ := window_far s hs (scenarioCV (Dbl K) 0)
        (farSnapshot K).toDbl.positions i
        (fun j => ((5 * i + j : Nat) : K) * 1e200)
        (fun j => (idealAlpha : List (Vector3 K)).getD j Vector3.zero)
        (fun j hj => (scenario_ref K 0 j hj).2)
        (fun j k hjk hk => far_gap (5 * i) j k hjk hk)
        (fun j hj => by
          refine ⟨_, scenario_atomids (Dbl K) 0 (5 * i + j) (by omega), ?_⟩
          show atInt (((List.range 55).map
            fun (m : Nat) => (⟨(m : K) * 1e200, 0, 0⟩ : Vector3 K)).map Vector3.toDbl) _ = _
          rw [List.map_map, atInt_range _ 55 (0 + (5 * i + j)) (by omega)]
          simp only [Function.comp_apply, zero_add])
        (fun j hj => (scenario_ref K 0 j hj).1) st hd (by omega)
      exact ⟨st', hrun, hd', by rw [hl', hlen], fun _ => ⟨hval, hg0⟩⟩)
  rw [hw] at hnan
  exact ⟨_, hrun, (hnan (by norm_num)).1, (hnan (by norm_num)).2, hlen⟩

/-- No two atoms of a window of the scenario coincide in the far snapshot. -/
theorem far_noCoincidence (K : Type) [LinearOrderedField K] :
    NoCoincidence (scenarioCV (Dbl K) 0) (farSnapshot K).toDbl := by
  intro i j k aj ak pj pk hi hjk hk haj hak hpj hpk
  rw [(scenario_counts (Dbl K) 0).2.2.1] at hi
  rw [scenario_atomids (Dbl K) 0 (5 * i + j) (by omega)] at haj
  rw [scenario_atomids (Dbl K) 0 (5 * i + k) (by omega)] at hak
  cases haj
  cases hak
  have e1 : atInt (farSnapshot K).toDbl.positions ((0 + (5 * i + j) : Nat) : Int)
      = some (Vector3.toDbl ⟨((0 + (5 * i + j) : Nat) : K) * 1e200, 0, 0⟩) := by
    show atInt (((List.range 55).map
      fun (m : Nat) => (⟨(m : K) * 1e200, 0, 0⟩ : Vector3 K)).map Vector3.toDbl) _ = _
    rw [List.map_map, atInt_range _ 55 (0 + (5 * i + j)) (by omega)]
    rfl
  have e2 : atInt (farSnapshot K).toDbl.positions ((0 + (5 * i + k) : Nat) : Int)
      = some (Vector3.toDbl ⟨((0 + (5 * i + k) : Nat) : K) * 1e200, 0, 0⟩) := by
    show atInt (((List.range 55).map
      fun (m : Nat) => (⟨(m : K) * 1e200, 0, 0⟩ : Vector3 K)).map Vector3.toDbl) _ = _
    rw [List.map_map, atInt_range _ 55 (0 + (5 * i + k)) (by omega)]
    rfl
  rw [e1] at hpj
  rw [e2] at hpk
  cases hpj
  cases hpk
  intro h
  simp only [Vector3.toDbl, Vector3.mk.injEq, Dbl.fin.injEq, and_true] at h
  have h2 := mul_right_cancel₀ (by norm_num : (1e200 : K) ≠ 0) h
  have h3 : 0 + (5 * i + j) = 0 + (5 * i + k) := by exact_mod_cast h2
  omega

/-! ## Coincident atoms -/

/-- The coordinates of the line snapshot of 55 atoms are at most `1e100` in
absolute value. -/
theorem line_bounded (K : Type) [LinearOrderedField K] :
    ∀ p ∈ (lineSnapshot K 55).positions, BoundedVec 1e100 p := by
  intro p hp
  simp only [lineSnapshot, List.mem_map, List.mem_range] at hp
  obtain ⟨m, hm, rfl⟩ := hp
  have h55 : (m : K) ≤ 55 := by
    have : m ≤ 55 := by omega
    exact_mod_cast this
  have h0 : (0 : K) ≤ (m : K) := Nat.cast_nonneg m
  refine ⟨?_, ?_, ?_⟩
  · show |(m : K)| ≤ 1e100
    rw [abs_of_nonneg h0]
    refine le_trans h55 ?_
    norm_num
  · show |(0 : K)| ≤ 1e100
    rw [abs_zero]
    norm_num
  · show |(0 : K)| ≤ 1e100
    rw [abs_zero]
    norm_num

/-- Any two atoms of a window of the scenario are at least `1e-100` apart in
the line snapshot. -/
theorem line_apart (K : Type) [LinearOrderedField K] :
    Apart 1e-100 (scenarioCV (Dbl K) 0)._atomids (resgroups (scenarioCV (Dbl K) 0))
      (lineSnapshot K 55).positions := by
  intro i j k aj ak pj pk hi hjk hk haj hak hpj hpk
  rw [(scenario_counts (Dbl K) 0).2.2.1] at hi
  rw [scenario_atomids (Dbl K) 0 (5 * i + j) (by omega)] at haj
  rw [scenario_atomids (Dbl K) 0 (5 * i + k) (by omega)] at hak
  cases haj
  cases hak
  have e1 : atInt (lineSnapshot K 55).positions ((0 + (5 * i + j) : Nat) : Int)
      = some ⟨((0 + (5 * i + j) : Nat) : K), 0, 0⟩ :=
    atInt_range _ 55 (0 + (5 * i + j)) (by omega)
  have e2 : atInt (lineSnapshot K 55).positions ((0 + (5 * i + k) : Nat) : Int)
      = some ⟨((0 + (5 * i + k) : Nat) : K), 0, 0⟩ :=
    atInt_range _ 55 (0 + (5 * i + k)) (by omega)
  rw [e1] at hpj
  rw [e2] at hpk
  cases hpj
  cases hpk
  have hcast : ((0 + (5 * i + k) : Nat) : K)
      = ((0 + (5 * i + j) : Nat) : K) + ((k - j : Nat) : K) := by
    have : 0 + (5 * i + k) = (0 + (5 * i + j)) + (k - j) := by omega
    rw [this]
    push_cast
    ring
  have h1 : (1 : K) ≤ ((k - j : Nat) : K) := by
    have : 1 ≤ k - j := by omega
    exact_mod_cast this
  simp only [Vector3.normSq, Vector3.sub, sub_zero, mul_zero, add_zero]
  rw [hcast]
  generalize ((k - j : Nat) : K) = d at h1
  generalize ((0 + (5 * i + j) : Nat) : K) = b
  have e : (b - (b + d)) * (b - (b + d)) = d * d := by ring
  rw [e]
  have h2 : 1 ≤ d * d := by nlinarith
  refine le_trans ?_ h2
  norm_num

/-- Counterexample of C18: the scenario evaluated over doubles on the far
snapshot, whose positions are finite and in which no two atoms of a window
coincide.  The quotient `dist_norm / dist_xyz.norm()` and the derivative
scalar are NaN there, and entry 0 of the gradient buffer after `Evaluate` is
a NaN vector, not the zero vector. -/
theorem C18_counterexample_far_positions :
    InBounds (scenarioCV (Dbl ℝ) 0) (farSnapshot ℝ).toDbl ∧
    (∀ p ∈ (farSnapshot ℝ).toDbl.positions, ∃ q : Vector3 ℝ, p = q.toDbl) ∧
    NoCoincidence (scenarioCV (Dbl ℝ) 0) (farSnapshot ℝ).toDbl ∧
    dxgroup (Dbl.nan : Dbl ℝ) = Dbl.nan ∧
    ∃ cv', (scenarioCV (Dbl ℝ) 0).Evaluate (Dbl.sqrt Real.sqrt) (farSnapshot ℝ).toDbl
        = some cv' ∧
      cv'._grad[0]? = some Vector3.nan ∧ cv'._grad[0]? ≠ some Vector3.zero := by
  obtain ⟨cv', hrun, _, hgrad, _⟩ := evaluate_far ℝ Real.sqrt isSqrt_real
  refine ⟨scenario_dbl_inBounds ℝ _, ?_, far_noCoincidence ℝ, (dxgroup_dbl ℝ).2, cv', hrun,
    hgrad, ?_⟩
  · intro p hp
    obtain ⟨q, _, hq⟩ := List.mem_map.mp hp
    exact ⟨q, hq.symm⟩
  · rw [hgrad]
    intro h
    cases h

/-- C18 (amended): the derivative scale is the `int` quotient
`4 / (30 * 29) = 0` and the normalised `rmsd` of a finite sum is the finite
value 0, at which the derivative scalar is the finite value 0.  Over doubles,
on a snapshot of finite positions whose coordinates are at most `1e100` in
absolute value and in which any two atoms of a window are at least `1e-100`
apart, with a reference table bounded likewise and every index inside,
`Evaluate` returns and the gradient buffer holds the zero vector at every
atom. -/
theorem C18_gradient_zero_on_separated_snapshot {K : Type} [LinearOrderedField K]
    (s : K → K) (cv : AlphaRMSDCV (Dbl K)) (snapshot : Snapshot K) (ref : List (Vector3 K))
    (hs : IsSqrt s) (hb : InBounds cv snapshot.toDbl)
    (href : cv._refalpha = ref.map Vector3.toDbl) (hrefB : ∀ a ∈ ref, BoundedVec 1e100 a)
    (hposB : ∀ p ∈ snapshot.positions, BoundedVec 1e100 p)
    (hap : Apart 1e-100 cv._atomids (resgroups cv) snapshot.positions) :
    (4 / (30 * 29) : Int) = 0 ∧ (∀ r : K, normalize (Dbl.fin r) = (Dbl.fin 0 : Dbl K)) ∧
    dxgroup (Dbl.fin 0 : Dbl K) = Dbl.fin 0 ∧
    ∃ cv', cv.Evaluate (Dbl.sqrt s) snapshot.toDbl = some cv' ∧
      cv'._grad.length = snapshot.numAtoms ∧
      ∀ m, m < snapshot.numAtoms → cv'._grad[m]? = some Vector3.zero := by
  obtain ⟨cv', hrun, _, hlen, hgrad⟩ :=
    evaluate_bounded s hs cv snapshot ref hb href hrefB hposB
  refine ⟨by decide, fun r => (normalize_dbl r).1, (dxgroup_dbl K).1, cv', hrun, hlen, ?_⟩
  intro m hm
  rw [hgrad hap]
  exact List.getElem?_replicate_of_lt hm

/-- Witness of C18: the scenario over doubles on the line snapshot of 55
atoms, whose atoms are one unit apart. -/
theorem C18_gradient_zero_on_separated_snapshot_witness :
    IsSqrt Real.sqrt ∧ InBounds (scenarioCV (Dbl ℝ) 0) (lineSnapshot ℝ 55).toDbl ∧
    (scenarioCV (Dbl ℝ) 0)._refalpha = (idealAlpha : List (Vector3 ℝ)).map Vector3.toDbl ∧
    (∀ a ∈ (idealAlpha : List (Vector3 ℝ)), BoundedVec 1e100 a) ∧
    (∀ p ∈ (lineSnapshot ℝ 55).positions, BoundedVec 1e100 p) ∧
    Apart 1e-100 (scenarioCV (Dbl ℝ) 0)._atomids (resgroups (scenarioCV (Dbl ℝ) 0))
      (lineSnapshot ℝ 55).positions ∧
    ((4 / (30 * 29) : Int) = 0 ∧ (∀ r : ℝ, normalize (Dbl.fin r) = (Dbl.fin 0 : Dbl ℝ)) ∧
      dxgroup (Dbl.fin 0 : Dbl ℝ) = Dbl.fin 0 ∧
      ∃ cv', (scenarioCV (Dbl ℝ) 0).Evaluate (Dbl.sqrt Real.sqrt) (lineSnapshot ℝ 55).toDbl
          = some cv' ∧
        cv'._grad.length = (lineSnapshot ℝ 55).numAtoms ∧
        ∀ m, m < (lineSnapshot ℝ 55).numAtoms → cv'._grad[m]? = some Vector3.zero) :=
  ⟨isSqrt_real, scenario_dbl_inBounds ℝ _,
    (scenario_counts (Dbl ℝ) 0).2.2.2.trans (idealAlpha_dbl ℝ), idealAlpha_bounded ℝ,
    line_bounded ℝ, line_apart ℝ,
    C18_gradient_zero_on_separated_snapshot Real.sqrt (scenarioCV (Dbl ℝ) 0)
      (lineSnapshot ℝ 55) idealAlpha isSqrt_real (scenario_dbl_inBounds ℝ _)
      ((scenario_counts (Dbl ℝ) 0).2.2.2.trans (idealAlpha_dbl ℝ)) (idealAlpha_bounded ℝ)
      (line_bounded ℝ) (line_apart ℝ)⟩

/-! ## The sum of the gradient over doubles -/

end SSAGES
